import Mathlib

/-!
# RDP bitmap decompression (`client_piko/backup/rle.c`)

A shallow embedding of the run-length engines `bitmap_decompress1/2/3`, of the
plane decoder `process_plane` with its driver `bitmap_decompress4`, and of the
RGBA wrappers `bitmap_decompress_15`, `bitmap_decompress_16`,
`bitmap_decompress_24` and `bitmap_decompress_32`, followed by theorems about
them.

Conventions of the embedding.

* Bytes and pixels are natural numbers; a byte read is reduced `% 256`.
* The compressed input is the list of the bytes from the read cursor to the end
  of the buffer (`end = input + size`); a read with no byte left is an access
  outside the buffer and stops the run with `Stop.outOfBounds`.
* A raster is a list of cells; a store or load outside it, or through a null
  `line`, stops the run with `Stop.outOfBounds` as well.
* `return False` is `Stop.returnFalse`; a run that reaches `return True` is
  `Except.ok` of the final state.
* Loops are defined by recursion on a fuel argument and stop with
  `Stop.outOfFuel` when it is used up; the fuel passed by the callers suffices
  (`bitmap_decompress_nofuel` for `width ≥ 1`, `process_plane_nofuel`), so no
  run ends that way.
* `width` and `height` are natural numbers (the interface declares the
  dimensions positive), so `height <= 0` is `height = 0`.
-/

namespace Rle

/-- Ways a run stops before its normal end. -/
inductive Stop where
  | returnFalse
  | outOfBounds
  | outOfFuel
  deriving DecidableEq, Repr

/-- The macro `CVAL(p)`, that is `*(p++)`: the next byte and the advanced cursor. -/
def CVAL (input : List Nat) : Except Stop (Nat × List Nat) :=
  match input with
  | [] => .error .outOfBounds
  | b :: rest => .ok (b % 256, rest)

/-- The macro `CVAL2(p, v)`: two bytes, low byte first. -/
def CVAL2 (input : List Nat) : Except Stop (Nat × List Nat) := do
  let (b0, input) ← CVAL input
  let (b1, input) ← CVAL input
  .ok (b0 ||| (b1 <<< 8), input)

/-- Three `CVAL` reads into `v[0]`, `v[1]`, `v[2]` (3-byte engine); the triple is
packed with `v[0]` as the low byte. -/
def CVAL3 (input : List Nat) : Except Stop (Nat × List Nat) := do
  let (b0, input) ← CVAL input
  let (b1, input) ← CVAL input
  let (b2, input) ← CVAL input
  .ok (b0 ||| (b1 <<< 8) ||| (b2 <<< 16), input)

/-- One pixel of `bpp` bytes read from the stream: `CVAL` in `bitmap_decompress1`,
`CVAL2` in `bitmap_decompress2`, three `CVAL`s in `bitmap_decompress3`. -/
def readPixel (bpp : Nat) (input : List Nat) : Except Stop (Nat × List Nat) :=
  if bpp = 1 then CVAL input
  else if bpp = 2 then CVAL2 input
  else CVAL3 input

/-- The all-ones pixel: `0xff`, `0xffff`, or three `0xff` bytes. -/
def white (bpp : Nat) : Nat :=
  if bpp = 1 then 0xff
  else if bpp = 2 then 0xffff
  else 0xffffff

/-- Result of the first `switch (opcode)` of the command loop. -/
structure Header where
  opcode : Nat
  count : Nat
  offset : Nat
  input : List Nat
  deriving DecidableEq, Repr

/-- The block "Handle different opcode forms": `code` is the command byte already
read, `input` the bytes after it. -/
def opcode_form (code : Nat) (input : List Nat) : Except Stop Header :=
  let opcode := code >>> 4
  if opcode = 0xc ∨ opcode = 0xd ∨ opcode = 0xe then
    .ok { opcode := opcode - 6, count := code &&& 0xf, offset := 16, input := input }
  else if opcode = 0xf then
    let opcode := code &&& 0xf
    if opcode < 9 then do
      let (b0, input) ← CVAL input
      let (b1, input) ← CVAL input
      .ok { opcode := opcode, count := b0 ||| (b1 <<< 8), offset := 0, input := input }
    else
      .ok { opcode := opcode, count := if opcode < 0xb then 8 else 1, offset := 0,
            input := input }
  else
    .ok { opcode := opcode >>> 1, count := code &&& 0x1f, offset := 32, input := input }

/-- The block "Handle strange cases for counts". -/
def strange_count (h : Header) : Except Stop Header :=
  if h.offset ≠ 0 then
    let isfillormix := h.opcode = 2 ∨ h.opcode = 7
    if h.count = 0 then
      if isfillormix then do
        let (b, input) ← CVAL h.input
        .ok { h with count := b + 1, input := input }
      else do
        let (b, input) ← CVAL h.input
        .ok { h with count := b + h.offset, input := input }
    else if isfillormix then
      .ok { h with count := h.count <<< 3 }
    else .ok h
  else .ok h

/-- The header decode of one command: the command byte, the opcode form and the
count normalisation (source lines 300-346 in `bitmap_decompress2`). -/
def decode_header (input : List Nat) : Except Stop Header := do
  let (code, input) ← CVAL input
  let h ← opcode_form code input
  strange_count h

/-- Local variables of `bitmap_decompress1/2/3`. `output` is the native raster, one
cell per pixel (for the 3-byte engine a cell packs the three bytes, first byte
lowest); `line` and `prevline` hold the pixel index of the start of their
scanline, `none` for `NULL`. `written` is not a variable of the source: it counts
the pixel stores done so far. -/
structure Engine where
  input : List Nat
  output : List Nat
  x : Nat
  height : Nat
  prevline : Option Nat
  line : Option Nat
  opcode : Nat
  count : Nat
  lastopcode : Int
  insertmix : Bool
  bicolour : Bool
  colour1 : Nat
  colour2 : Nat
  mixmask : Nat
  mask : Nat
  mix : Nat
  fom_mask : Nat
  written : Nat
  deriving DecidableEq, Repr

/-- The store `line[x] = v`. -/
def Engine.store (s : Engine) (v : Nat) : Except Stop Engine :=
  match s.line with
  | none => .error .outOfBounds
  | some base =>
    if base + s.x < s.output.length then
      .ok { s with output := s.output.set (base + s.x) v, written := s.written + 1 }
    else .error .outOfBounds

/-- The load `prevline[x]`. -/
def Engine.above (s : Engine) : Except Stop Nat :=
  match s.prevline with
  | none => .error .outOfBounds
  | some base =>
    match s.output[base + s.x]? with
    | none => .error .outOfBounds
    | some v => .ok v

/-- The macro `MASK_UPDATE()`; `mixmask` is a `uint8`. -/
def MASK_UPDATE (s : Engine) : Except Stop Engine :=
  let s := { s with mixmask := (s.mixmask <<< 1) % 256 }
  if s.mixmask = 0 then
    if s.fom_mask ≠ 0 then
      .ok { s with mask := s.fom_mask % 256, mixmask := 1 }
    else do
      let (b, input) ← CVAL s.input
      .ok { s with mask := b, input := input, mixmask := 1 }
  else .ok s

/-- One `statement; count--; x++;` of `REPEAT`. `count` is positive here in every
run (at least 8 in the unrolled loop, tested by the tail loop), so `count - 1`
on natural numbers is the decrement on `int`. -/
def repeat_step (statement : Engine → Except Stop Engine) (s : Engine) :
    Except Stop Engine := do
  let t ← statement s
  .ok { t with count := t.count - 1, x := t.x + 1 }

/-- The macro `UNROLL8(exp)`: eight copies of `exp`. -/
def UNROLL8 (exp : Engine → Except Stop Engine) (s : Engine) : Except Stop Engine := do
  let s ← exp s
  let s ← exp s
  let s ← exp s
  let s ← exp s
  let s ← exp s
  let s ← exp s
  let s ← exp s
  exp s

/-- The value `count & ~0x7`: `count` with its three low bits cleared. -/
def clear_low3 (count : Nat) : Nat := count / 8 * 8

/-- First loop of `REPEAT`: `while ((count & ~0x7) && ((x+8) < width)) UNROLL8(...)`. -/
def repeat_unrolled (statement : Engine → Except Stop Engine) (width : Nat) :
    Nat → Engine → Except Stop Engine
  | 0, _ => .error .outOfFuel
  | fuel + 1, s =>
    if clear_low3 s.count ≠ 0 ∧ s.x + 8 < width then do
      let t ← UNROLL8 (repeat_step statement) s
      repeat_unrolled statement width fuel t
    else .ok s

/-- Second loop of `REPEAT`: `while ((count > 0) && (x < width)) { statement; count--; x++; }`. -/
def repeat_tail (statement : Engine → Except Stop Engine) (width : Nat) :
    Nat → Engine → Except Stop Engine
  | 0, _ => .error .outOfFuel
  | fuel + 1, s =>
    if 0 < s.count ∧ s.x < width then do
      let t ← repeat_step statement s
      repeat_tail statement width fuel t
    else .ok s

/-- The macro `REPEAT(statement)`. Each loop advances `x` towards `width`, so
`width + 1` rounds are enough for either. -/
def REPEAT (statement : Engine → Except Stop Engine) (width : Nat) (s : Engine) :
    Except Stop Engine := do
  let t ← repeat_unrolled statement width (width + 1) s
  repeat_tail statement width (width + 1) t

/-- The block "Read preliminary data" (second `switch (opcode)`). -/
def preliminary (bpp width : Nat) (s : Engine) : Except Stop Engine :=
  if s.opcode = 0 then
    if s.lastopcode = (s.opcode : Int) ∧ ¬ (s.x = width ∧ s.prevline = none) then
      .ok { s with insertmix := true }
    else .ok s
  else if s.opcode = 8 then do
    let (c1, input) ← readPixel bpp s.input
    let (c2, input) ← readPixel bpp input
    .ok { s with colour1 := c1, colour2 := c2, input := input }
  else if s.opcode = 3 then do
    let (c2, input) ← readPixel bpp s.input
    .ok { s with colour2 := c2, input := input }
  else if s.opcode = 6 ∨ s.opcode = 7 then do
    let (m, input) ← readPixel bpp s.input
    .ok { s with mix := m, input := input, opcode := s.opcode - 5 }
  else if s.opcode = 9 then
    .ok { s with mask := 0x03, opcode := 0x02, fom_mask := 3 }
  else if s.opcode = 0x0a then
    .ok { s with mask := 0x05, opcode := 0x02, fom_mask := 5 }
  else .ok s

/-- Statement of the Fill run when `prevline == NULL`: `line[x] = 0`. -/
def fill_null (s : Engine) : Except Stop Engine :=
  s.store 0

/-- Statement of the Fill run otherwise: `line[x] = prevline[x]`. -/
def fill_above (s : Engine) : Except Stop Engine := do
  let a ← s.above
  s.store a

/-- Statement of the Mix run when `prevline == NULL`: `line[x] = mix`. -/
def mix_null (s : Engine) : Except Stop Engine :=
  s.store s.mix

/-- Statement of the Mix run otherwise: `line[x] = prevline[x] ^ mix`. -/
def mix_above (s : Engine) : Except Stop Engine := do
  let a ← s.above
  s.store (a ^^^ s.mix)

/-- Statement of the Fill-Or-Mix run when `prevline == NULL`. -/
def fom_null (s : Engine) : Except Stop Engine := do
  let s ← MASK_UPDATE s
  if s.mask &&& s.mixmask ≠ 0 then s.store s.mix else s.store 0

/-- Statement of the Fill-Or-Mix run otherwise. -/
def fom_above (s : Engine) : Except Stop Engine := do
  let s ← MASK_UPDATE s
  if s.mask &&& s.mixmask ≠ 0 then do
    let a ← s.above
    s.store (a ^^^ s.mix)
  else do
    let a ← s.above
    s.store a

/-- Statement of the Copy run: one pixel read from the stream into `line[x]`. -/
def copy_statement (bpp : Nat) (s : Engine) : Except Stop Engine := do
  let (v, input) ← readPixel bpp s.input
  { s with input := input }.store v

/-- Statement of the Bicolour run. -/
def bicolour_statement (s : Engine) : Except Stop Engine :=
  if s.bicolour then do
    let t ← s.store s.colour2
    .ok { t with bicolour := false }
  else do
    let t ← s.store s.colour1
    .ok { t with bicolour := true, count := t.count + 1 }

/-- The block `if (insertmix) { ... }` at the head of `case 0` (Fill): one Mix pixel,
then `insertmix = False; count--; x++;`. -/
def insert_mix (s : Engine) : Except Stop Engine :=
  if s.insertmix then
    (if s.prevline = none then mix_null s else mix_above s) >>= fun t =>
      .ok { t with insertmix := false, count := t.count - 1, x := t.x + 1 }
  else .ok s

/-- The `switch (opcode)` inside the output loop. -/
def output_switch (bpp width : Nat) (s : Engine) : Except Stop Engine :=
  if s.opcode = 0 then do
    let s ← insert_mix s
    if s.prevline = none then REPEAT fill_null width s
    else REPEAT fill_above width s
  else if s.opcode = 1 then
    if s.prevline = none then REPEAT mix_null width s
    else REPEAT mix_above width s
  else if s.opcode = 2 then
    if s.prevline = none then REPEAT fom_null width s
    else REPEAT fom_above width s
  else if s.opcode = 3 then REPEAT (fun s => s.store s.colour2) width s
  else if s.opcode = 4 then REPEAT (copy_statement bpp) width s
  else if s.opcode = 8 then REPEAT bicolour_statement width s
  else if s.opcode = 0xd then REPEAT (fun s => s.store (white bpp)) width s
  else if s.opcode = 0xe then REPEAT (fun s => s.store 0) width s
  else .error .returnFalse

/-- The assignments `x = 0; height--; prevline = line; line = output + height * width;`. -/
def next_line (width : Nat) (s : Engine) : Engine :=
  { s with x := 0, height := s.height - 1, prevline := s.line,
           line := some ((s.height - 1) * width) }

/-- The scanline advance at the head of the output loop. -/
def advance (width : Nat) (s : Engine) : Except Stop Engine :=
  if width ≤ s.x then
    if s.height = 0 then .error .returnFalse
    else .ok (next_line width s)
  else .ok s

/-- The loop "Output body": `while (count > 0) { advance; switch (opcode) ... }`. -/
def output_body (bpp width : Nat) : Nat → Engine → Except Stop Engine
  | 0, _ => .error .outOfFuel
  | fuel + 1, s =>
    if 0 < s.count then do
      let s ← advance width s
      let s ← output_switch bpp width s
      output_body bpp width fuel s
    else .ok s

/-- The part of one round of the command loop that comes before the output loop:
`fom_mask = 0`, the header decode, the preliminary data, `lastopcode = opcode`
and `mixmask = 0`. -/
def command_setup (bpp width : Nat) (s : Engine) : Except Stop Engine := do
  let s := { s with fom_mask := 0 }
  let h ← decode_header s.input
  let s := { s with input := h.input, opcode := h.opcode, count := h.count }
  let s ← preliminary bpp width s
  .ok { s with lastopcode := s.opcode, mixmask := 0 }

/-- One round of the command loop `while (input < end)`. Every round of the output
loop after the first one of a command starts a new scanline, so `height + 2`
rounds are enough. -/
def command (bpp width : Nat) (s : Engine) : Except Stop Engine := do
  let s ← command_setup bpp width s
  output_body bpp width (s.height + 2) s

/-- The command loop `while (input < end) ...; return True`. -/
def commands (bpp width : Nat) : Nat → Engine → Except Stop Engine
  | 0, _ => .error .outOfFuel
  | fuel + 1, s =>
    if s.input ≠ [] then do
      let s ← command bpp width s
      commands bpp width fuel s
    else .ok s

/-- The variables of an engine at entry; `output` is the raster as allocated. -/
def Engine.init (bpp width height : Nat) (input output : List Nat) : Engine :=
  { input := input, output := output, x := width, height := height,
    prevline := none, line := none, opcode := 0, count := 0, lastopcode := -1,
    insertmix := false, bicolour := false, colour1 := 0, colour2 := 0,
    mixmask := 0, mask := 0, mix := white bpp, fom_mask := 0, written := 0 }

/-- The engine for pixels of `bpp` bytes. Every command reads at least its command
byte, so `input.length + 1` rounds of the command loop are enough. -/
def bitmap_decompress (bpp width height : Nat) (input output : List Nat) :
    Except Stop Engine :=
  commands bpp width (input.length + 1) (Engine.init bpp width height input output)

/-- The function `bitmap_decompress1` (1 byte per pixel). -/
def bitmap_decompress1 (width height : Nat) (input output : List Nat) :
    Except Stop Engine :=
  bitmap_decompress 1 width height input output

/-- The function `bitmap_decompress2` (2 bytes per pixel). -/
def bitmap_decompress2 (width height : Nat) (input output : List Nat) :
    Except Stop Engine :=
  bitmap_decompress 2 width height input output

/-- The function `bitmap_decompress3` (3 bytes per pixel). -/
def bitmap_decompress3 (width height : Nat) (input output : List Nat) :
    Except Stop Engine :=
  bitmap_decompress 3 width height input output

/-- The raster of a run that returned `True`. -/
def raster (r : Except Stop Engine) : Option (List Nat) :=
  match r with
  | .ok s => some s.output
  | .error _ => none

/-- The state after the first `k` rounds of the command loop (the first `k`
commands of the stream), for statements about a command "in the stream". -/
def after_commands (bpp width : Nat) : Nat → Engine → Except Stop Engine
  | 0, s => .ok s
  | k + 1, s => do
    let t ← command bpp width s
    after_commands bpp width k t

/-- The state at the head of the output loop after `j` of its rounds. -/
def output_rounds (bpp width : Nat) : Nat → Engine → Except Stop Engine
  | 0, s => .ok s
  | j + 1, s =>
    if 0 < s.count then do
      let s ← advance width s
      let s ← output_switch bpp width s
      output_rounds bpp width j s
    else .ok s

/-- The bytes of a list of 16-bit pixels, low byte first. -/
def pixels_le : List Nat → List Nat
  | [] => []
  | v :: vs => (v &&& 0xFF) :: (v >>> 8) :: pixels_le vs

/-- The raster `out` after the cells from index `i` on received the values `vs`. -/
def write_run : List Nat → Nat → List Nat → List Nat
  | out, _, [] => out
  | out, i, v :: vs => write_run (out.set i v) (i + 1) vs

/-! ## The plane decoder of the 32-bit format -/

/-- Decode of a plane code byte (source lines 800-807 and, word for word again,
830-837): the pair `(collen, replen)` the two inner loops run with. -/
def plane_code (code : Nat) : Nat × Nat :=
  let replen := code &&& 0xf
  let collen := (code >>> 4) &&& 0xf
  let revcode := (replen <<< 4) ||| collen
  if revcode ≤ 47 ∧ 16 ≤ revcode then (0, revcode) else (collen, replen)

/-- The signed delta a later row makes of the byte `x` (source lines 841-851). -/
def zigzag (x : Nat) : Int :=
  if x &&& 1 ≠ 0 then -(((x >>> 1) + 1 : Nat) : Int) else ((x >>> 1 : Nat) : Int)

/-- Variables of `process_plane`: `input` is the bytes from `in` to the end of the
input buffer, `buffer` the byte buffer `org_out` points into, `out` the byte
index of the pointer `out` in it. -/
structure Plane where
  input : List Nat
  buffer : List Nat
  out : Nat
  indexw : Nat
  color : Int
  deriving DecidableEq, Repr

/-- The store `*out = v` of an `int` into a `uint8`. -/
def Plane.put (s : Plane) (v : Int) : Except Stop Plane :=
  if s.out < s.buffer.length then
    .ok { s with buffer := s.buffer.set s.out (v % 256).toNat }
  else .error .outOfBounds

/-- The load `last_line[indexw * 4]`. -/
def Plane.last (s : Plane) (last_line : Nat) : Except Stop Nat :=
  match s.buffer[last_line + s.indexw * 4]? with
  | none => .error .outOfBounds
  | some v => .ok v

/-- First row, `while (collen > 0)`: raw bytes. -/
def first_raw : Nat → Plane → Except Stop Plane
  | 0, s => .ok s
  | collen + 1, s => do
    let (b, input) ← CVAL s.input
    let s := { s with input := input, color := (b : Int) }
    let s ← s.put s.color
    first_raw collen { s with out := s.out + 4, indexw := s.indexw + 1 }

/-- First row, `while (replen > 0)`: the last colour again. -/
def first_repl : Nat → Plane → Except Stop Plane
  | 0, s => .ok s
  | replen + 1, s => do
    let s ← s.put s.color
    first_repl replen { s with out := s.out + 4, indexw := s.indexw + 1 }

/-- Later rows, `while (collen > 0)`: a delta byte added to the row decoded before. -/
def later_delta (last_line : Nat) : Nat → Plane → Except Stop Plane
  | 0, s => .ok s
  | collen + 1, s => do
    let (x, input) ← CVAL s.input
    let s := { s with input := input, color := zigzag x }
    let a ← s.last last_line
    let s ← s.put ((a : Int) + s.color)
    later_delta last_line collen { s with out := s.out + 4, indexw := s.indexw + 1 }

/-- Later rows, `while (replen > 0)`: the last delta again. -/
def later_repl (last_line : Nat) : Nat → Plane → Except Stop Plane
  | 0, s => .ok s
  | replen + 1, s => do
    let a ← s.last last_line
    let s ← s.put ((a : Int) + s.color)
    later_repl last_line replen { s with out := s.out + 4, indexw := s.indexw + 1 }

/-- The loop `while (indexw < width)` of the first decoded row (`last_line == 0`). -/
def first_row (width : Nat) : Nat → Plane → Except Stop Plane
  | 0, _ => .error .outOfFuel
  | fuel + 1, s =>
    if s.indexw < width then do
      let (code, input) ← CVAL s.input
      let (collen, replen) := plane_code code
      let s ← first_raw collen { s with input := input }
      let s ← first_repl replen s
      first_row width fuel s
    else .ok s

/-- The loop `while (indexw < width)` of a later row. -/
def later_row (width last_line : Nat) : Nat → Plane → Except Stop Plane
  | 0, _ => .error .outOfFuel
  | fuel + 1, s =>
    if s.indexw < width then do
      let (code, input) ← CVAL s.input
      let (collen, replen) := plane_code code
      let s ← later_delta last_line collen { s with input := input }
      let s ← later_repl last_line replen s
      later_row width last_line fuel s
    else .ok s

/-- Byte index at which row `indexh` of a plane starts:
`(org_out + width * height * 4) - ((indexh + 1) * width * 4)`. -/
def row_start (width height org_out indexh : Nat) : Nat :=
  (org_out + width * height * 4) - ((indexh + 1) * width * 4)

/-- One round of the loop `while (indexh < height)`: the row `indexh`. Every round
of a row loop reads its code byte, so `input.length + 1` rounds are enough. -/
def plane_row (width height org_out indexh : Nat) (last_line : Option Nat) (s : Plane) :
    Except Stop Plane :=
  let s := { s with out := row_start width height org_out indexh, color := 0, indexw := 0 }
  match last_line with
  | none => first_row width (s.input.length + 1) s
  | some l => later_row width l (s.input.length + 1) s

/-- The loop `while (indexh < height)`; `last_line = this_line` ends each round. -/
def plane_rows (width height org_out : Nat) :
    Nat → Nat → Option Nat → Plane → Except Stop Plane
  | 0, _, _, _ => .error .outOfFuel
  | fuel + 1, indexh, last_line, s =>
    if indexh < height then do
      let t ← plane_row width height org_out indexh last_line s
      plane_rows width height org_out fuel (indexh + 1)
        (some (row_start width height org_out indexh)) t
    else .ok s

/-- The function `process_plane(in, width, height, out, size)`; `size` is not used by
the source and is left out. `org_out` is the byte index in `buffer` the plane is
written from. Returns the number of input bytes read and the buffer. -/
def process_plane (input : List Nat) (width height org_out : Nat) (buffer : List Nat) :
    Except Stop (Nat × List Nat) := do
  let s ← plane_rows width height org_out (height + 1) 0 none
    { input := input, buffer := buffer, out := org_out, indexw := 0, color := 0 }
  .ok (input.length - s.input.length, s.buffer)

/-- The function `bitmap_decompress4`; `.ok` is `return True` with the buffer, and
`return False` is `Stop.returnFalse`. -/
def bitmap_decompress4 (output : List Nat) (width height : Nat) (input : List Nat)
    (size : Int) : Except Stop (List Nat) := do
  let (code, input) ← CVAL input
  if code ≠ 0x10 then .error .returnFalse
  else do
    let total_pro : Int := 1
    let (bytes_pro, output) ← process_plane input width height 3 output
    let total_pro := total_pro + bytes_pro
    let input := input.drop bytes_pro
    let (bytes_pro, output) ← process_plane input width height 2 output
    let total_pro := total_pro + bytes_pro
    let input := input.drop bytes_pro
    let (bytes_pro, output) ← process_plane input width height 1 output
    let total_pro := total_pro + bytes_pro
    let input := input.drop bytes_pro
    let (bytes_pro, output) ← process_plane input width height 0 output
    let total_pro := total_pro + bytes_pro
    if size = total_pro then .ok output else .error .returnFalse

/-! ## The RGBA wrappers -/

/-- A loop `for (int i = 0; i < n; i++) body`. -/
def for_loop (n : Nat) (body : Nat → List Nat → Except Stop (List Nat)) (out : List Nat) :
    Except Stop (List Nat) :=
  (List.range n).foldlM (fun out i => body i out) out

/-- The load `buf[i]` of a byte buffer. -/
def load (buf : List Nat) (i : Nat) : Except Stop Nat :=
  match buf[i]? with
  | none => .error .outOfBounds
  | some v => .ok v

/-- The store `output[i] = v` into a byte buffer. -/
def put (output : List Nat) (i v : Nat) : Except Stop (List Nat) :=
  if i < output.length then .ok (output.set i v) else .error .outOfBounds

/-- The four stores of one RGBA pixel at `output[(y * output_width + x) * 4 + 0..3]`. -/
def put_rgba (output : List Nat) (output_width y x r g b a : Nat) :
    Except Stop (List Nat) := do
  let output ← put output ((y * output_width + x) * 4 + 0) r
  let output ← put output ((y * output_width + x) * 4 + 1) g
  let output ← put output ((y * output_width + x) * 4 + 2) b
  put output ((y * output_width + x) * 4 + 3) a

/-- The conversion loops shared by the wrappers,
`for (y = 0; y < rows; y++) for (x = 0; x < cols; x++) { ...; output[...] = ...; }`,
where `pixel y x` computes the values `(r, g, b, a)` stored for the pixel, `rows` is
`min output_height input_height` and `cols` is `min output_width input_width`. -/
def convert (pixel : Nat → Nat → Except Stop (Nat × Nat × Nat × Nat))
    (output_width rows cols : Nat) (output : List Nat) : Except Stop (List Nat) :=
  for_loop rows (fun y output =>
    for_loop cols (fun x output => do
      let (r, g, b, a) ← pixel y x
      put_rgba output output_width y x r g b a) output) output

/-- The loads of one pixel in `bitmap_decompress_32`: `b`, `g`, `r`, `a` from
`temp[(y * input_width + x) * 4 + 0..3]`, stored as `r`, `g`, `b`, `a`. -/
def pixel_32 (temp : List Nat) (input_width y x : Nat) :
    Except Stop (Nat × Nat × Nat × Nat) := do
  let b ← load temp ((y * input_width + x) * 4 + 0)
  let g ← load temp ((y * input_width + x) * 4 + 1)
  let r ← load temp ((y * input_width + x) * 4 + 2)
  let a ← load temp ((y * input_width + x) * 4 + 3)
  .ok (r, g, b, a)

/-- The function `bitmap_decompress_32`. `temp` is what `malloc` returned: `none` for
a null pointer, else the fresh buffer of `input_width * input_height * 4` bytes
with the content it happens to have. The result is the return value and the
output buffer. -/
def bitmap_decompress_32 (output : List Nat)
    (output_width output_height input_width input_height : Nat)
    (input : List Nat) (size : Int) (temp : Option (List Nat)) :
    Except Stop (Nat × List Nat) :=
  match temp with
  | none => .ok (0, output)
  | some temp =>
    match bitmap_decompress4 temp input_width input_height input size with
    | .error .returnFalse => .ok (0, output)
    | .error e => .error e
    | .ok temp => do
      let output ← convert (pixel_32 temp input_width) output_width
        (min output_height input_height) (min output_width input_width) output
      .ok (1, output)

/-! ## Relations used in the proofs -/

/-- What one statement of a `REPEAT` run does to the variables of the engine, as far
as the invariants need it: one pixel is stored, the cursor does not go back,
`count` does not go down, the scanline variables stay. -/
structure StmtRel (s t : Engine) : Prop where
  x : t.x = s.x
  height : t.height = s.height
  written : t.written = s.written + 1
  input : t.input.length ≤ s.input.length
  line : t.line = s.line
  prevline : t.prevline = s.prevline
  opcode : t.opcode = s.opcode
  output : t.output.length = s.output.length
  count : s.count ≤ t.count
  lastopcode : t.lastopcode = s.lastopcode
  insertmix : t.insertmix = s.insertmix

/-- A statement of the engine: every successful run of it is a `StmtRel` step. -/
def GoodStmt (statement : Engine → Except Stop Engine) : Prop :=
  ∀ s t, statement s = .ok t → StmtRel s t

/-- The pixel count of the engine: `written` pixels fill the scanlines from the
bottom one up to column `x` of scanline `height`. -/
def Inv (width height : Nat) (s : Engine) : Prop :=
  s.written + width = (height - s.height) * width + s.x ∧ s.x ≤ width ∧ s.height ≤ height

/-- A property of the engine state that every pixel of a run keeps. -/
structure RunPreserved (width : Nat) (P : Engine → Prop) : Prop where
  step : ∀ s u, s.x < width → StmtRel s u → P s →
    P { u with count := u.count - 1, x := u.x + 1 }
  insertmix : ∀ s, P s → P { s with insertmix := false }

/-- A property of the engine state that every part of a command keeps. -/
structure Preserved (bpp width : Nat) (P : Engine → Prop) extends RunPreserved width P : Prop where
  advance : ∀ s t, advance width s = .ok t → P s → P t
  setup : ∀ s t, command_setup bpp width s = .ok t → P s → P t

/-- The `n`-fold run of a step of the engine. -/
def steps (exp : Engine → Except Stop Engine) : Nat → Engine → Except Stop Engine
  | 0, s => .ok s
  | n + 1, s => do
    let t ← exp s
    steps exp n t

/-- The variables a run of pixels leaves as they are in `s`. -/
def Frame (s t : Engine) : Prop :=
  t.height = s.height ∧ t.line = s.line ∧ t.prevline = s.prevline ∧ t.opcode = s.opcode ∧
  t.output.length = s.output.length ∧ t.lastopcode = s.lastopcode ∧
  t.written + s.x = s.written + t.x

/-- The scanlines `line` and `prevline` (when set) lie inside the raster. -/
def InRaster (width : Nat) (s : Engine) : Prop :=
  (∃ base, s.line = some base ∧ base + width ≤ s.output.length) ∧
  (s.prevline = none ∨ ∃ pb, s.prevline = some pb ∧ pb + width ≤ s.output.length)

/-- State of a later row made of repeat codes, `n` pixels into the row that starts at
byte `o` of the buffer, the row decoded before starting at byte `o + 4 * width`;
`B` is the buffer when the row began. -/
def RowInv (B : List Nat) (o width n : Nat) (t : Plane) : Prop :=
  t.out = o + 4 * n ∧ t.indexw = n ∧ t.color = 0 ∧ t.buffer.length = B.length ∧
  (∀ i, i < n → t.buffer[o + 4 * i]? = B[o + 4 * width + 4 * i]?) ∧
  (∀ j, o + 4 * width ≤ j → t.buffer[j]? = B[j]?)

/-- A plane written from byte offset `c` leaves the bytes of the other three offsets
as they are in `B`. -/
def PlaneFrame (c : Nat) (B : List Nat) (t : Plane) : Prop :=
  t.out % 4 = c ∧ ∀ j, j % 4 ≠ c → t.buffer[j]? = B[j]?

/-- A result that is not the end of the fuel of a loop. -/
def NoFuel {α : Type} (r : Except Stop α) : Prop := r ≠ .error .outOfFuel

/-! ## The 16-bit and 24-bit wrappers -/

/-- The conversion of one pixel in `bitmap_decompress_16`: the `uint16` load
`((uint16*)temp)[y * input_width + x]`, the three fields of the RGB565 pixel as
`uint8` values, their scaling `r * 255 / 31`, `g * 255 / 63`, `b * 255 / 31`
assigned back to the `uint8` variables, and the alpha byte 255. -/
def pixel_16 (temp : List Nat) (input_width y x : Nat) :
    Except Stop (Nat × Nat × Nat × Nat) := do
  let cell ← load temp (y * input_width + x)
  let pixel := cell % 65536
  let r := ((pixel &&& 0xf800) >>> 11) % 256
  let g := ((pixel &&& 0x07e0) >>> 5) % 256
  let b := (pixel &&& 0x001f) % 256
  let r := (r * 255 / 31) % 256
  let g := (g * 255 / 63) % 256
  let b := (b * 255 / 31) % 256
  .ok (r, g, b, 255)

/-- The function `bitmap_decompress_16`. `input` holds the `size` bytes of the
stream; `temp` is what `malloc` returned: `none` for a null pointer, else the fresh
buffer of `input_width * input_height` 16-bit cells with the content it happens to
have. The result is the return value and the output buffer. -/
def bitmap_decompress_16 (output : List Nat)
    (output_width output_height input_width input_height : Nat)
    (input : List Nat) (temp : Option (List Nat)) :
    Except Stop (Nat × List Nat) :=
  match temp with
  | none => .ok (0, output)
  | some temp =>
    match bitmap_decompress2 input_width input_height input temp with
    | .error .returnFalse => .ok (0, output)
    | .error e => .error e
    | .ok s => do
      let output ← convert (pixel_16 s.output input_width) output_width
        (min output_height input_height) (min output_width input_width) output
      .ok (1, output)

/-- The byte `temp[i * 3 + k]` of the 3-byte pixel kept in cell `i` of the raster,
whose first byte is the lowest one of the cell. -/
def byte_of (cell k : Nat) : Nat := (cell >>> (8 * k)) % 256

/-- The loads of one pixel in `bitmap_decompress_24`: `b`, `g`, `r` from
`temp[(y * input_width + x) * 3 + 0..2]`, stored as `r`, `g`, `b` and the alpha
byte 255. -/
def pixel_24 (temp : List Nat) (input_width y x : Nat) :
    Except Stop (Nat × Nat × Nat × Nat) := do
  let cell ← load temp (y * input_width + x)
  let b := byte_of cell 0
  let g := byte_of cell 1
  let r := byte_of cell 2
  .ok (r, g, b, 255)

/-- The function `bitmap_decompress_24`. `input` holds the `size` bytes of the
stream; `temp` is what `malloc` returned: `none` for a null pointer, else the fresh
buffer of `input_width * input_height` 3-byte pixels with the content it happens to
have. The result is the return value and the output buffer. -/
def bitmap_decompress_24 (output : List Nat)
    (output_width output_height input_width input_height : Nat)
    (input : List Nat) (temp : Option (List Nat)) :
    Except Stop (Nat × List Nat) :=
  match temp with
  | none => .ok (0, output)
  | some temp =>
    match bitmap_decompress3 input_width input_height input temp with
    | .error .returnFalse => .ok (0, output)
    | .error e => .error e
    | .ok s => do
      let output ← convert (pixel_24 s.output input_width) output_width
        (min output_height input_height) (min output_width input_width) output
      .ok (1, output)

/-! ## Rows of a plane -/

/-- The value of `last_line` when round `k` of the row loop of `process_plane`
begins: null before the first row, the start of row `k - 1` later. -/
def last_line_at (width height org_out k : Nat) : Option Nat :=
  if k = 0 then none else some (row_start width height org_out (k - 1))

/-- The state of `process_plane` after the first `k` rounds of its row loop. -/
def after_rows (width height org_out : Nat) : Nat → Plane → Except Stop Plane
  | 0, s => .ok s
  | k + 1, s => do
    let t ← after_rows width height org_out k s
    plane_row width height org_out k (last_line_at width height org_out k) t

/-- The number of bytes the first `k` rounds of the row loop of `process_plane`
decode: the sum of the values of `indexw` at the end of each of these rows (every
store `*out = ...` is followed by `indexw++`). -/
def decoded_rows (width height org_out : Nat) : Nat → Plane → Except Stop Nat
  | 0, _ => .ok 0
  | k + 1, s => do
    let n ← decoded_rows width height org_out k s
    let t ← after_rows width height org_out (k + 1) s
    .ok (n + t.indexw)

/-- State of a row that started at byte `o` of the buffer `B`: `indexw` pixels were
stored, one every four bytes from `o` on, and the other bytes are as in `B`. -/
def RowSpan (o : Nat) (B : List Nat) (s : Plane) : Prop :=
  s.out = o + 4 * s.indexw ∧ s.buffer.length = B.length ∧
  ∀ j, (∀ m, m < s.indexw → j ≠ o + 4 * m) → s.buffer[j]? = B[j]?

/-! ## Runs of pixels -/

/-- The raster cell the engine stores its `e`-th pixel in, counting from 0: the
pixels fill the scanlines from the bottom one (the last of the raster) upwards,
each from left to right. This is the cell `line[x]` of the engine when `written`
is `e` (theorem `geo_pixel`), with `line = output + height * width` as set by the
scanline advance. -/
def cell (width height e : Nat) : Nat := (height - 1 - e / width) * width + e % width

/-- The pixel above the `e`-th pixel in the raster `out`, that is the pixel stored
`width` pixels earlier; 0 on the bottom scanline, which has no previous line. This
is the value `prevline[x]` of the engine when `written` is `e` and `prevline` is
not null (theorem `geo_pixel`). -/
def pixel_above (width height : Nat) (out : List Nat) (e : Nat) : Nat :=
  if e < width then 0 else (out[cell width height (e - width)]?).getD 0

/-- The scanline pointers of the engine: both null before the first scanline,
later `line = output + height * width` and `prevline` the scanline below it, null
on the bottom scanline. -/
def Lines (width height : Nat) (s : Engine) : Prop :=
  (s.line = none ∧ s.prevline = none ∧ s.height = height ∧ width ≤ s.x) ∨
  (s.height < height ∧ s.line = some (s.height * width) ∧
    s.prevline = if s.height + 1 = height then none else some ((s.height + 1) * width))

/-- The geometry of the engine on a raster of `width * height` cells. -/
def Geo (width height : Nat) (s : Engine) : Prop :=
  Inv width height s ∧ Lines width height s ∧ s.output.length = width * height

/-- The output loop of a command read as one loop over its pixels: while
`count > 0`, the scanline advance and one `statement; count--; x++;` of the
`REPEAT` chosen for the scanline (`sel a` is the statement run from state `a`). -/
def flat (sel : Engine → Engine → Except Stop Engine) (width : Nat) :
    Nat → Engine → Except Stop Engine
  | 0, _ => .error .outOfFuel
  | n + 1, s =>
    if 0 < s.count then do
      let a ← advance width s
      let t ← repeat_step (sel a) a
      flat sel width n t
    else .ok s

/-- A statement that leaves the `bicolour` toggle as it is. -/
def KeepsToggle (statement : Engine → Except Stop Engine) : Prop :=
  ∀ s t, statement s = .ok t → t.bicolour = s.bicolour

/-- The `bicolour` toggle is set only inside a Bicolour run with pixels to go. -/
def ToggleInv (s : Engine) : Prop :=
  s.bicolour = true → 0 < s.count ∧ s.opcode = 8

/-- The mask byte in force for pixel `j` of a Fill-Or-Mix run: the fixed mask of
FillOrMix_1 and FillOrMix_2 when `fom_mask` is set, else byte `j / 8` of the mask
bytes `ms` the run reads from the stream. -/
def mask_at (fom_mask : Nat) (ms : List Nat) (j : Nat) : Nat :=
  if fom_mask ≠ 0 then fom_mask % 256 else ms.getD (j / 8) 0 % 256

/-- The statement of the Fill-Or-Mix run chosen for the scanline of state `a`. -/
def fom_statement (a : Engine) : Engine → Except Stop Engine :=
  if a.prevline = none then fom_null else fom_above

/-- State of a Fill-Or-Mix run of `c` pixels before its pixel `j`: the mask
selector is on the bit of pixel `j - 1`, and the mask bytes `ms` were read from
the stream up to the byte for that pixel (none is read when `fom_mask` is set). -/
def FomAt (fm mix0 c : Nat) (ms rest : List Nat) (j : Nat) (s : Engine) : Prop :=
  s.fom_mask = fm ∧ s.mix = mix0 ∧ s.count = c - j ∧
  s.mixmask = (if j = 0 then 0 else 2 ^ ((j - 1) % 8)) ∧
  (0 < j → s.mask = mask_at fm ms (j - 1)) ∧
  s.input = (if fm ≠ 0 then rest else ms.drop ((j + 7) / 8) ++ rest)

/-- The statement of the Fill run chosen for the scanline of state `a`. -/
def fill_statement (a : Engine) : Engine → Except Stop Engine :=
  if a.prevline = none then fill_null else fill_above

/-! ## The 15-bit wrapper -/

/-- The conversion of one pixel in `bitmap_decompress_15`: the `uint16` load
`((uint16*)temp)[y * input_width + x]`, the three fields of the RGB555 pixel as
`uint8` values, their scaling `* 255 / 31` assigned back to the `uint8` variables,
and the alpha byte 255. -/
def pixel_15 (temp : List Nat) (input_width y x : Nat) :
    Except Stop (Nat × Nat × Nat × Nat) := do
  let cell ← load temp (y * input_width + x)
  let pixel := cell % 65536
  let r := ((pixel &&& 0x7c00) >>> 10) % 256
  let g := ((pixel &&& 0x03e0) >>> 5) % 256
  let b := (pixel &&& 0x001f) % 256
  let r := (r * 255 / 31) % 256
  let g := (g * 255 / 31) % 256
  let b := (b * 255 / 31) % 256
  .ok (r, g, b, 255)

/-- The function `bitmap_decompress_15`. `input` holds the `size` bytes of the
stream; `temp` is what `malloc` returned: `none` for a null pointer, else the fresh
buffer of `input_width * input_height` 16-bit cells with the content it happens to
have. The result is the return value and the output buffer. -/
def bitmap_decompress_15 (output : List Nat)
    (output_width output_height input_width input_height : Nat)
    (input : List Nat) (temp : Option (List Nat)) :
    Except Stop (Nat × List Nat) :=
  match temp with
  | none => .ok (0, output)
  | some temp =>
    match bitmap_decompress2 input_width input_height input temp with
    | .error .returnFalse => .ok (0, output)
    | .error e => .error e
    | .ok s => do
      let output ← convert (pixel_15 s.output input_width) output_width
        (min output_height input_height) (min output_width input_width) output
      .ok (1, output)

/-! ## The engine with the invariants of a pixel write asserted -/

/-- The invariants of a pixel write on a raster of `width * height` cells: the
column `x` is inside the scanline, `count` is positive, `line` is set and is the
scanline `height` of the raster with `height` below the number of scanlines, the
cell `height * width + x` written is inside the raster, and `prevline`, when it
is set, is the scanline `height + 1`, read at the same column `x`. -/
def write_ok (width height : Nat) (s : Engine) : Bool :=
  decide (s.x < width ∧ 0 < s.count ∧ s.height < height ∧
    s.line = some (s.height * width) ∧ s.height * width + s.x < width * height ∧
    (s.prevline = none ∨
      (s.prevline = some ((s.height + 1) * width) ∧
        (s.height + 1) * width + s.x < width * height)))

/-- A statement that writes a pixel, with the assertion `write_ok` in front of it:
the run stops with `e` when the assertion fails. -/
def asserted (e : Stop) (width height : Nat) (statement : Engine → Except Stop Engine)
    (s : Engine) : Except Stop Engine :=
  if write_ok width height s then statement s else .error e

/-- The block `if (insertmix) { ... }` with the assertion in front of its pixel
write. -/
def insert_mix_checked (e : Stop) (width height : Nat) (s : Engine) : Except Stop Engine :=
  if s.insertmix then
    asserted e width height (fun s => if s.prevline = none then mix_null s else mix_above s) s
      >>= fun t => .ok { t with insertmix := false, count := t.count - 1, x := t.x + 1 }
  else .ok s

/-- The `switch (opcode)` inside the output loop with the assertion in front of
every pixel write: the Mix pixel of `insertmix` and the statement of every
`REPEAT`, in its unrolled loop and in its tail loop alike. -/
def output_switch_checked (e : Stop) (bpp width height : Nat) (s : Engine) :
    Except Stop Engine :=
  if s.opcode = 0 then do
    let s ← insert_mix_checked e width height s
    if s.prevline = none then REPEAT (asserted e width height fill_null) width s
    else REPEAT (asserted e width height fill_above) width s
  else if s.opcode = 1 then
    if s.prevline = none then REPEAT (asserted e width height mix_null) width s
    else REPEAT (asserted e width height mix_above) width s
  else if s.opcode = 2 then
    if s.prevline = none then REPEAT (asserted e width height fom_null) width s
    else REPEAT (asserted e width height fom_above) width s
  else if s.opcode = 3 then
    REPEAT (asserted e width height (fun s => s.store s.colour2)) width s
  else if s.opcode = 4 then REPEAT (asserted e width height (copy_statement bpp)) width s
  else if s.opcode = 8 then REPEAT (asserted e width height bicolour_statement) width s
  else if s.opcode = 0xd then
    REPEAT (asserted e width height (fun s => s.store (white bpp))) width s
  else if s.opcode = 0xe then REPEAT (asserted e width height (fun s => s.store 0)) width s
  else .error .returnFalse

/-- The loop "Output body" over `output_switch_checked`. -/
def output_body_checked (e : Stop) (bpp width height : Nat) :
    Nat → Engine → Except Stop Engine
  | 0, _ => .error .outOfFuel
  | fuel + 1, s =>
    if 0 < s.count then do
      let s ← advance width s
      let s ← output_switch_checked e bpp width height s
      output_body_checked e bpp width height fuel s
    else .ok s

/-- One round of the command loop over `output_body_checked`. -/
def command_checked (e : Stop) (bpp width height : Nat) (s : Engine) : Except Stop Engine := do
  let s ← command_setup bpp width s
  output_body_checked e bpp width height (s.height + 2) s

/-- The command loop over `command_checked`. -/
def commands_checked (e : Stop) (bpp width height : Nat) :
    Nat → Engine → Except Stop Engine
  | 0, _ => .error .outOfFuel
  | fuel + 1, s =>
    if s.input ≠ [] then do
      let s ← command_checked e bpp width height s
      commands_checked e bpp width height fuel s
    else .ok s

/-- The engine for pixels of `bpp` bytes with the assertion `write_ok` in front of
every pixel write; it differs from `bitmap_decompress` by the assertions only. -/
def bitmap_decompress_checked (e : Stop) (bpp width height : Nat) (input output : List Nat) :
    Except Stop Engine :=
  commands_checked e bpp width height (input.length + 1)
    (Engine.init bpp width height input output)

/-! ## Theorems -/

@[simp] theorem CVAL_cons (b : Nat) (rest : List Nat) : CVAL (b :: rest) = .ok (b % 256, rest) := rfl
@[simp] theorem CVAL_nil : CVAL [] = .error .outOfBounds := rfl

@[simp] theorem ok_bind {ε α β : Type} (a : α) (f : α → Except ε β) :
    (Except.ok a >>= f) = f a := rfl

@[simp] theorem error_bind {ε α β : Type} (e : ε) (f : α → Except ε β) :
    ((Except.error e : Except ε α) >>= f) = Except.error e := rfl

theorem strange_count_pos (h h' : Header) (hoff : h.offset ≠ 0)
    (hs : strange_count h = .ok h') : 1 ≤ h'.count := by
  unfold strange_count at hs
  rw [if_pos hoff] at hs
  by_cases hz : h.count = 0
  · rw [if_pos hz] at hs
    cases hin : h.input with
    | nil => rw [hin] at hs; split at hs <;> simp at hs
    | cons b tl =>
      rw [hin] at hs
      split at hs
      · simp only [CVAL_cons, ok_bind, Except.ok.injEq] at hs
        subst hs
        simp
      · simp only [CVAL_cons, ok_bind, Except.ok.injEq] at hs
        subst hs
        simp only
        omega
  · rw [if_neg hz] at hs
    split at hs
    · simp only [Except.ok.injEq] at hs
      subst hs
      simp only [Nat.shiftLeft_eq]
      omega
    · simp only [Except.ok.injEq] at hs
      subst hs
      omega

/-- Claim C2. The header decode of a command, `decode_header`, on a command byte
`code` and the bytes after it. Long form (`code >> 4 = 0xF`): opcode `code & 0x0F`,
offset 0, count the next two bytes little-endian when the opcode is below 9, 8 for
opcodes 9 and 0xA, 1 otherwise. Short forms, `code >> 4` in `0xC..0xE` (opcode
`(code >> 4) - 6`, raw count `code & 0x0F`, offset 16) and every other case (opcode
`(code >> 4) >> 1`, raw count `code & 0x1F`, offset 32): a raw count of 0 becomes
the next byte plus 1 for opcodes 2 and 7 and the next byte plus the offset
otherwise, a non-zero raw count is multiplied by 8 for opcodes 2 and 7 and kept
otherwise; so every short-form command has `count ≥ 1`. The same rules hold of the
two blocks `opcode_form` and `strange_count` that `decode_header` is made of. -/
theorem header_decode (code b0 b1 : Nat) (rest : List Nat) (h : Header)
    (hcode : code < 256) (hb0 : b0 < 256) (hb1 : b1 < 256) :
    (code >>> 4 = 0xF → code &&& 0x0F < 9 →
      decode_header (code :: b0 :: b1 :: rest)
        = .ok { opcode := code &&& 0x0F, count := b0 + 256 * b1, offset := 0, input := rest }) ∧
    (code >>> 4 = 0xF → (code &&& 0x0F = 9 ∨ code &&& 0x0F = 0xA) →
      decode_header (code :: rest)
        = .ok { opcode := code &&& 0x0F, count := 8, offset := 0, input := rest }) ∧
    (code >>> 4 = 0xF → 0xB ≤ code &&& 0x0F →
      decode_header (code :: rest)
        = .ok { opcode := code &&& 0x0F, count := 1, offset := 0, input := rest }) ∧
    ((code >>> 4 = 0xC ∨ code >>> 4 = 0xD ∨ code >>> 4 = 0xE) → code &&& 0x0F ≠ 0 →
      decode_header (code :: rest)
        = .ok { opcode := (code >>> 4) - 6,
                count := if (code >>> 4) - 6 = 2 ∨ (code >>> 4) - 6 = 7
                  then (code &&& 0x0F) * 8 else code &&& 0x0F,
                offset := 16, input := rest }) ∧
    ((code >>> 4 = 0xC ∨ code >>> 4 = 0xD ∨ code >>> 4 = 0xE) → code &&& 0x0F = 0 →
      decode_header (code :: b0 :: rest)
        = .ok { opcode := (code >>> 4) - 6,
                count := if (code >>> 4) - 6 = 2 ∨ (code >>> 4) - 6 = 7
                  then b0 + 1 else b0 + 16,
                offset := 16, input := rest }) ∧
    (code >>> 4 < 0xC → code &&& 0x1F ≠ 0 →
      decode_header (code :: rest)
        = .ok { opcode := (code >>> 4) >>> 1,
                count := if (code >>> 4) >>> 1 = 2 ∨ (code >>> 4) >>> 1 = 7
                  then (code &&& 0x1F) * 8 else code &&& 0x1F,
                offset := 32, input := rest }) ∧
    (code >>> 4 < 0xC → code &&& 0x1F = 0 →
      decode_header (code :: b0 :: rest)
        = .ok { opcode := (code >>> 4) >>> 1,
                count := if (code >>> 4) >>> 1 = 2 ∨ (code >>> 4) >>> 1 = 7
                  then b0 + 1 else b0 + 32,
                offset := 32, input := rest }) ∧
    (code >>> 4 ≠ 0xF → decode_header (code :: rest) = .ok h → 1 ≤ h.count) ∧
    ((code >>> 4 = 0xC ∨ code >>> 4 = 0xD ∨ code >>> 4 = 0xE) →
      opcode_form code rest
        = .ok { opcode := (code >>> 4) - 6, count := code &&& 0x0F, offset := 16, input := rest }) ∧
    (code >>> 4 = 0xF → code &&& 0x0F < 9 →
      opcode_form code (b0 :: b1 :: rest)
        = .ok { opcode := code &&& 0x0F, count := b0 + 256 * b1, offset := 0, input := rest }) ∧
    (code >>> 4 = 0xF → (code &&& 0x0F = 9 ∨ code &&& 0x0F = 0xA) →
      opcode_form code rest
        = .ok { opcode := code &&& 0x0F, count := 8, offset := 0, input := rest }) ∧
    (code >>> 4 = 0xF → 0xB ≤ code &&& 0x0F →
      opcode_form code rest
        = .ok { opcode := code &&& 0x0F, count := 1, offset := 0, input := rest }) ∧
    (code >>> 4 < 0xC →
      opcode_form code rest
        = .ok { opcode := (code >>> 4) >>> 1, count := code &&& 0x1F, offset := 32, input := rest }) ∧
    (h.offset ≠ 0 → h.count = 0 → (h.opcode = 2 ∨ h.opcode = 7) →
      strange_count { h with input := b0 :: rest }
        = .ok { h with count := b0 + 1, input := rest }) ∧
    (h.offset ≠ 0 → h.count = 0 → ¬ (h.opcode = 2 ∨ h.opcode = 7) →
      strange_count { h with input := b0 :: rest }
        = .ok { h with count := b0 + h.offset, input := rest }) ∧
    (h.offset ≠ 0 → h.count ≠ 0 → (h.opcode = 2 ∨ h.opcode = 7) →
      strange_count h = .ok { h with count := h.count * 8 }) ∧
    (h.offset ≠ 0 → h.count ≠ 0 → ¬ (h.opcode = 2 ∨ h.opcode = 7) →
      strange_count h = .ok h) ∧
    (h.offset = 0 → strange_count h = .ok h) := by
  have hshift : code >>> 4 = code / 16 := by rw [Nat.shiftRight_eq_div_pow]
  have hand4 : code &&& 0x0F = code % 16 := Nat.and_pow_two_sub_one_eq_mod code 4
  have hand5 : code &&& 0x1F = code % 32 := Nat.and_pow_two_sub_one_eq_mod code 5
  have hor : b0 % 256 ||| (b1 % 256) <<< 8 = b0 + 256 * b1 := by
    rw [Nat.mod_eq_of_lt hb0, Nat.mod_eq_of_lt hb1, Nat.shiftLeft_eq, Nat.lor_comm,
      Nat.mul_comm b1, Nat.add_comm]
    exact (Nat.mul_add_lt_is_or (i := 8) hb0 b1).symm
  have hdec : ∀ inp, decode_header (code :: inp) = (opcode_form code inp >>= strange_count) := by
    intro inp
    simp only [decode_header, CVAL_cons, ok_bind, Nat.mod_eq_of_lt hcode]
  have f1 : (code >>> 4 = 0xC ∨ code >>> 4 = 0xD ∨ code >>> 4 = 0xE) → ∀ inp,
      opcode_form code inp
        = .ok { opcode := (code >>> 4) - 6, count := code &&& 0x0F, offset := 16,
                input := inp } := by
    intro hhi inp
    simp [opcode_form, hhi]
  have f2 : code >>> 4 = 0xF → code &&& 0x0F < 9 →
      opcode_form code (b0 :: b1 :: rest)
        = .ok { opcode := code &&& 0x0F, count := b0 + 256 * b1, offset := 0,
                input := rest } := by
    intro hhi hlt
    simp [opcode_form, hhi, hlt, hor]
  have f3 : code >>> 4 = 0xF → (code &&& 0x0F = 9 ∨ code &&& 0x0F = 0xA) →
      opcode_form code rest
        = .ok { opcode := code &&& 0x0F, count := 8, offset := 0, input := rest } := by
    intro hhi h9
    rcases h9 with h9 | h9 <;> simp [opcode_form, hhi, h9]
  have f4 : code >>> 4 = 0xF → 0xB ≤ code &&& 0x0F →
      opcode_form code rest
        = .ok { opcode := code &&& 0x0F, count := 1, offset := 0, input := rest } := by
    intro hhi hB
    have h1 : ¬ (code &&& 15 < 9) := by omega
    have h2 : ¬ (code &&& 15 < 11) := by omega
    simp [opcode_form, hhi, h1, h2]
  have f5 : code >>> 4 < 0xC → ∀ inp,
      opcode_form code inp
        = .ok { opcode := (code >>> 4) >>> 1, count := code &&& 0x1F, offset := 32,
                input := inp } := by
    intro hhi inp
    have h1 : ¬ (code >>> 4 = 12 ∨ code >>> 4 = 13 ∨ code >>> 4 = 14) := by omega
    have h2 : ¬ (code >>> 4 = 15) := by omega
    simp [opcode_form, h1, h2]
  have g0 : ∀ k : Header, k.offset = 0 → strange_count k = .ok k := by
    intro k ho
    simp [strange_count, ho]
  have g1 : ∀ (op raw off : Nat) (inp : List Nat), off ≠ 0 → raw ≠ 0 →
      strange_count { opcode := op, count := raw, offset := off, input := inp }
        = .ok { opcode := op, count := if op = 2 ∨ op = 7 then raw * 8 else raw,
                offset := off, input := inp } := by
    intro op raw off inp ho hr
    by_cases hf : op = 2 ∨ op = 7
    · simp [strange_count, ho, hr, hf, Nat.shiftLeft_eq]
    · have hf2 := hf
      simp only [not_or] at hf2
      simp [strange_count, ho, hr, hf2.1, hf2.2]
  have g2 : ∀ (op off : Nat), off ≠ 0 →
      strange_count { opcode := op, count := 0, offset := off, input := b0 :: rest }
        = .ok { opcode := op, count := if op = 2 ∨ op = 7 then b0 + 1 else b0 + off,
                offset := off, input := rest } := by
    intro op off ho
    by_cases hf : op = 2 ∨ op = 7
    · simp [strange_count, ho, hf, Nat.mod_eq_of_lt hb0]
    · have hf2 := hf
      simp only [not_or] at hf2
      simp [strange_count, ho, hf2.1, hf2.2, Nat.mod_eq_of_lt hb0]
  refine ⟨?_, ?_, ?_, ?_, ?_, ?_, ?_, ?_, fun hhi => f1 hhi rest, f2, f3, f4,
    fun hhi => f5 hhi rest, ?_, ?_, ?_, ?_, g0 h⟩
  · intro hhi hlt
    rw [hdec, f2 hhi hlt, ok_bind]
    exact g0 _ rfl
  · intro hhi h9
    rw [hdec, f3 hhi h9, ok_bind]
    exact g0 _ rfl
  · intro hhi hB
    rw [hdec, f4 hhi hB, ok_bind]
    exact g0 _ rfl
  · intro hhi hr
    rw [hdec, f1 hhi, ok_bind]
    exact g1 _ _ 16 rest (by decide) hr
  · intro hhi hr
    rw [hdec, f1 hhi, ok_bind, hr]
    exact g2 _ 16 (by decide)
  · intro hhi hr
    rw [hdec, f5 hhi, ok_bind]
    exact g1 _ _ 32 rest (by decide) hr
  · intro hhi hr
    rw [hdec, f5 hhi, ok_bind, hr]
    exact g2 _ 32 (by decide)
  · intro hhi hd
    rw [hdec] at hd
    by_cases hlt : code >>> 4 < 0xC
    · rw [f5 hlt, ok_bind] at hd
      exact strange_count_pos _ h (show (32 : Nat) ≠ 0 by decide) hd
    · have h1 : code >>> 4 = 12 ∨ code >>> 4 = 13 ∨ code >>> 4 = 14 := by omega
      rw [f1 h1, ok_bind] at hd
      exact strange_count_pos _ h (show (16 : Nat) ≠ 0 by decide) hd
  · intro ho hc hf
    simp [strange_count, ho, hc, hf, Nat.mod_eq_of_lt hb0]
  · intro ho hc hf
    simp only [not_or] at hf
    simp [strange_count, ho, hc, hf.1, hf.2, Nat.mod_eq_of_lt hb0]
  · intro ho hc hf
    simp [strange_count, ho, hc, hf, Nat.shiftLeft_eq]
  · intro ho hc hf
    simp only [not_or] at hf
    simp [strange_count, ho, hc, hf.1, hf.2]

theorem header_decode_witness :
    decode_header [0x40, 0x11, 7]
      = .ok { opcode := (0x40 >>> 4) >>> 1,
              count := if (0x40 >>> 4) >>> 1 = 2 ∨ (0x40 >>> 4) >>> 1 = 7
                then 0x11 + 1 else 0x11 + 32,
              offset := 32, input := [7] } :=
  (header_decode 0x40 0x11 0 [7] { opcode := 0, count := 0, offset := 0, input := [] }
    (by decide) (by decide) (by decide)).2.2.2.2.2.2.1 (by decide) (by decide)

/-! ### The monad of results -/

theorem bind_eq_ok {α β : Type} {m : Except Stop α} {f : α → Except Stop β} {b : β} :
    (m >>= f) = .ok b ↔ ∃ a, m = .ok a ∧ f a = .ok b := by
  cases m with
  | error e => simp
  | ok a => simp

theorem bind_congr_ok {α β : Type} (m : Except Stop α) (f g : α → Except Stop β)
    (h : ∀ a, m = .ok a → f a = g a) : (m >>= f) = (m >>= g) := by
  cases m with
  | error e => rfl
  | ok a => exact h a rfl

theorem bind_assoc_ok {α β γ : Type} (m : Except Stop α) (f : α → Except Stop β)
    (g : β → Except Stop γ) : ((m >>= f) >>= g) = (m >>= fun a => f a >>= g) := by
  cases m with
  | error e => rfl
  | ok a => rfl

/-! ### Statements of the engine -/

theorem store_ok {s t : Engine} {v : Nat} (h : s.store v = .ok t) :
    ∃ base, s.line = some base ∧ base + s.x < s.output.length ∧
      t = { s with output := s.output.set (base + s.x) v, written := s.written + 1 } := by
  unfold Engine.store at h
  cases hl : s.line with
  | none => rw [hl] at h; simp at h
  | some base =>
    rw [hl] at h
    by_cases hb : base + s.x < s.output.length
    · simp only [hb, if_true, Except.ok.injEq] at h
      exact ⟨base, rfl, hb, h.symm⟩
    · simp [hb] at h

theorem store_rel {s t : Engine} {v : Nat} (h : s.store v = .ok t) : StmtRel s t := by
  obtain ⟨base, _, _, rfl⟩ := store_ok h
  constructor <;> simp

theorem StmtRel.trans_eq {s t u : Engine} (h : StmtRel s t)
    (hx : u.x = t.x) (hh : u.height = t.height) (hw : u.written = t.written)
    (hi : u.input.length ≤ t.input.length) (hl : u.line = t.line)
    (hp : u.prevline = t.prevline) (ho : u.opcode = t.opcode)
    (hout : u.output.length = t.output.length) (hc : t.count ≤ u.count)
    (hlo : u.lastopcode = t.lastopcode) (him : u.insertmix = t.insertmix) : StmtRel s u :=
  ⟨hx.trans h.x, hh.trans h.height, hw.trans h.written, hi.trans h.input, hl.trans h.line,
   hp.trans h.prevline, ho.trans h.opcode, hout.trans h.output, h.count.trans hc,
   hlo.trans h.lastopcode, him.trans h.insertmix⟩

theorem good_store (f : Engine → Nat) : GoodStmt (fun s => s.store (f s)) :=
  fun _ _ h => store_rel h

theorem good_fill_null : GoodStmt fill_null :=
  fun _ _ h => store_rel h

theorem good_fill_above : GoodStmt fill_above := by
  intro s t h
  unfold fill_above at h
  obtain ⟨a, _, h⟩ := bind_eq_ok.mp h
  exact store_rel h

theorem good_mix_null : GoodStmt mix_null :=
  fun _ _ h => store_rel h

theorem good_mix_above : GoodStmt mix_above := by
  intro s t h
  unfold mix_above at h
  obtain ⟨a, _, h⟩ := bind_eq_ok.mp h
  exact store_rel h

theorem mask_update_ok {s t : Engine} (h : MASK_UPDATE s = .ok t) :
    t.x = s.x ∧ t.height = s.height ∧ t.written = s.written ∧
    t.input.length ≤ s.input.length ∧ t.line = s.line ∧ t.prevline = s.prevline ∧
    t.opcode = s.opcode ∧ t.output = s.output ∧ t.count = s.count ∧
    t.lastopcode = s.lastopcode ∧ t.insertmix = s.insertmix := by
  unfold MASK_UPDATE at h
  simp only at h
  split at h
  · split at h
    · simp only [Except.ok.injEq] at h
      subst h
      simp
    · cases hin : s.input with
      | nil => rw [hin] at h; simp at h
      | cons b tl =>
        rw [hin] at h
        simp only [CVAL_cons, ok_bind, Except.ok.injEq] at h
        subst h
        simp
  · simp only [Except.ok.injEq] at h
    subst h
    simp

theorem mask_then {s u t : Engine} (hu : MASK_UPDATE s = .ok u) (key : StmtRel u t) :
    StmtRel s t := by
  obtain ⟨h1, h2, h3, h4, h5, h6, h7, h8, h9, h10, h11⟩ := mask_update_ok hu
  exact ⟨key.x.trans h1, key.height.trans h2, by rw [key.written, h3],
    key.input.trans h4, key.line.trans h5, key.prevline.trans h6, key.opcode.trans h7,
    by rw [key.output, h8], by rw [← h9]; exact key.count, key.lastopcode.trans h10,
    key.insertmix.trans h11⟩

theorem good_fom_null : GoodStmt fom_null := by
  intro s t h
  unfold fom_null at h
  obtain ⟨u, hu, h⟩ := bind_eq_ok.mp h
  have key : StmtRel u t := by
    split at h <;> exact store_rel h
  exact mask_then hu key

theorem good_fom_above : GoodStmt fom_above := by
  intro s t h
  unfold fom_above at h
  obtain ⟨u, hu, h⟩ := bind_eq_ok.mp h
  have key : StmtRel u t := by
    split at h
    · obtain ⟨a, _, h⟩ := bind_eq_ok.mp h
      exact store_rel h
    · obtain ⟨a, _, h⟩ := bind_eq_ok.mp h
      exact store_rel h
  exact mask_then hu key

theorem read_pixel_ok {bpp : Nat} {input rest : List Nat} {v : Nat}
    (h : readPixel bpp input = .ok (v, rest)) : rest.length < input.length := by
  unfold readPixel at h
  split at h
  · cases input with
    | nil => simp at h
    | cons b tl =>
      simp only [CVAL_cons, Except.ok.injEq, Prod.mk.injEq] at h
      rw [← h.2]; simp
  · split at h
    · unfold CVAL2 at h
      match input, h with
      | [], h => simp at h
      | [_], h => simp at h
      | _ :: _ :: tl, h =>
        simp only [CVAL_cons, ok_bind, Except.ok.injEq, Prod.mk.injEq] at h
        rw [← h.2]; simp only [List.length_cons]; omega
    · unfold CVAL3 at h
      match input, h with
      | [], h => simp at h
      | [_], h => simp at h
      | [_, _], h => simp at h
      | _ :: _ :: _ :: tl, h =>
        simp only [CVAL_cons, ok_bind, Except.ok.injEq, Prod.mk.injEq] at h
        rw [← h.2]; simp only [List.length_cons]; omega

theorem good_copy (bpp : Nat) : GoodStmt (copy_statement bpp) := by
  intro s t h
  unfold copy_statement at h
  obtain ⟨⟨v, rest⟩, hr, h⟩ := bind_eq_ok.mp h
  have hlen := read_pixel_ok hr
  have key := store_rel h
  exact ⟨key.x, key.height, key.written, by have := key.input; simp at this; omega,
    key.line, key.prevline, key.opcode, key.output, key.count, key.lastopcode, key.insertmix⟩

theorem good_bicolour : GoodStmt bicolour_statement := by
  intro s t h
  unfold bicolour_statement at h
  split at h
  · obtain ⟨u, hu, h⟩ := bind_eq_ok.mp h
    simp only [Except.ok.injEq] at h
    subst h
    have key := store_rel hu
    exact ⟨key.x, key.height, key.written, key.input, key.line, key.prevline, key.opcode,
      key.output, key.count, key.lastopcode, key.insertmix⟩
  · obtain ⟨u, hu, h⟩ := bind_eq_ok.mp h
    simp only [Except.ok.injEq] at h
    subst h
    have key := store_rel hu
    exact ⟨key.x, key.height, key.written, key.input, key.line, key.prevline, key.opcode,
      key.output, by have := key.count; simp; omega, key.lastopcode, key.insertmix⟩

/-! ### Properties kept by `REPEAT`, the output loop and the command loop -/

theorem step_pres {width : Nat} {P : Engine → Prop} (hP : RunPreserved width P)
    {statement : Engine → Except Stop Engine} (hst : GoodStmt statement)
    {s t : Engine} (hx : s.x < width) (hs : P s) (h : repeat_step statement s = .ok t) :
    P t ∧ t.x = s.x + 1 ∧ s.count ≤ t.count + 1 := by
  unfold repeat_step at h
  obtain ⟨u, hu, h⟩ := bind_eq_ok.mp h
  simp only [Except.ok.injEq] at h
  subst h
  have hr := hst s u hu
  refine ⟨hP.step s u hx hr hs, ?_, ?_⟩
  · simp [hr.x]
  · have := hr.count
    simp only
    omega

theorem unroll8_pres {width : Nat} {P : Engine → Prop} (hP : RunPreserved width P)
    {statement : Engine → Except Stop Engine} (hst : GoodStmt statement)
    {s t : Engine} (hx : s.x + 8 ≤ width) (hs : P s)
    (h : UNROLL8 (repeat_step statement) s = .ok t) :
    P t ∧ t.x = s.x + 8 ∧ s.count ≤ t.count + 8 := by
  unfold UNROLL8 at h
  obtain ⟨s1, h1, h⟩ := bind_eq_ok.mp h
  obtain ⟨s2, h2, h⟩ := bind_eq_ok.mp h
  obtain ⟨s3, h3, h⟩ := bind_eq_ok.mp h
  obtain ⟨s4, h4, h⟩ := bind_eq_ok.mp h
  obtain ⟨s5, h5, h⟩ := bind_eq_ok.mp h
  obtain ⟨s6, h6, h⟩ := bind_eq_ok.mp h
  obtain ⟨s7, h7, h⟩ := bind_eq_ok.mp h
  obtain ⟨p1, x1, c1⟩ := step_pres hP hst (by omega) hs h1
  obtain ⟨p2, x2, c2⟩ := step_pres hP hst (by omega) p1 h2
  obtain ⟨p3, x3, c3⟩ := step_pres hP hst (by omega) p2 h3
  obtain ⟨p4, x4, c4⟩ := step_pres hP hst (by omega) p3 h4
  obtain ⟨p5, x5, c5⟩ := step_pres hP hst (by omega) p4 h5
  obtain ⟨p6, x6, c6⟩ := step_pres hP hst (by omega) p5 h6
  obtain ⟨p7, x7, c7⟩ := step_pres hP hst (by omega) p6 h7
  obtain ⟨p8, x8, c8⟩ := step_pres hP hst (by omega) p7 h
  exact ⟨p8, by omega, by omega⟩

theorem repeat_unrolled_pres {width : Nat} {P : Engine → Prop}
    (hP : RunPreserved width P)
    {statement : Engine → Except Stop Engine} (hst : GoodStmt statement) :
    ∀ (fuel : Nat) (s t : Engine), P s →
      repeat_unrolled statement width fuel s = .ok t → P t ∧ s.x ≤ t.x := by
  intro fuel
  induction fuel with
  | zero => intro s t _ h; simp [repeat_unrolled] at h
  | succ fuel ih =>
    intro s t hs h
    unfold repeat_unrolled at h
    split at h
    · rename_i hg
      obtain ⟨u, hu, h⟩ := bind_eq_ok.mp h
      obtain ⟨pu, xu, _⟩ := unroll8_pres hP hst (by omega) hs hu
      obtain ⟨pt, xt⟩ := ih u t pu h
      exact ⟨pt, by omega⟩
    · simp only [Except.ok.injEq] at h
      subst h
      exact ⟨hs, le_refl _⟩

theorem repeat_tail_pres {width : Nat} {P : Engine → Prop}
    (hP : RunPreserved width P)
    {statement : Engine → Except Stop Engine} (hst : GoodStmt statement) :
    ∀ (fuel : Nat) (s t : Engine), P s →
      repeat_tail statement width fuel s = .ok t →
      P t ∧ s.x ≤ t.x ∧ (t.count = 0 ∨ width ≤ t.x) := by
  intro fuel
  induction fuel with
  | zero => intro s t _ h; simp [repeat_tail] at h
  | succ fuel ih =>
    intro s t hs h
    unfold repeat_tail at h
    split at h
    · rename_i hg
      obtain ⟨u, hu, h⟩ := bind_eq_ok.mp h
      obtain ⟨pu, xu, _⟩ := step_pres hP hst hg.2 hs hu
      obtain ⟨pt, xt, he⟩ := ih u t pu h
      exact ⟨pt, by omega, he⟩
    · rename_i hg
      simp only [Except.ok.injEq] at h
      subst h
      exact ⟨hs, le_refl _, by omega⟩

theorem REPEAT_pres {width : Nat} {P : Engine → Prop} (hP : RunPreserved width P)
    {statement : Engine → Except Stop Engine} (hst : GoodStmt statement)
    {s t : Engine} (hs : P s) (h : REPEAT statement width s = .ok t) :
    P t ∧ s.x ≤ t.x ∧ (t.count = 0 ∨ width ≤ t.x) := by
  unfold REPEAT at h
  obtain ⟨u, hu, h⟩ := bind_eq_ok.mp h
  obtain ⟨pu, xu⟩ := repeat_unrolled_pres hP hst _ s u hs hu
  obtain ⟨pt, xt, he⟩ := repeat_tail_pres hP hst _ u t pu h
  exact ⟨pt, by omega, he⟩

theorem output_switch_pres {bpp width : Nat} {P : Engine → Prop}
    (hP : RunPreserved width P) {s t : Engine} (hx : s.x < width) (hs : P s)
    (h : output_switch bpp width s = .ok t) :
    P t ∧ (t.count = 0 ∨ width ≤ t.x) := by
  unfold output_switch at h
  split at h
  · obtain ⟨u, hu, h⟩ := bind_eq_ok.mp h
    have pu : P u := by
      unfold insert_mix at hu
      split at hu
      · obtain ⟨v, hv, hu⟩ := bind_eq_ok.mp hu
        simp only [Except.ok.injEq] at hu
        subst hu
        have hr : StmtRel s v := by
          split at hv
          · exact good_mix_null s v hv
          · exact good_mix_above s v hv
        exact hP.insertmix _ (hP.step s v hx hr hs)
      · simp only [Except.ok.injEq] at hu
        subst hu
        exact hs
    split at h
    · have := REPEAT_pres hP good_fill_null pu h
      exact ⟨this.1, this.2.2⟩
    · have := REPEAT_pres hP good_fill_above pu h
      exact ⟨this.1, this.2.2⟩
  · split at h
    · split at h
      · have := REPEAT_pres hP good_mix_null hs h
        exact ⟨this.1, this.2.2⟩
      · have := REPEAT_pres hP good_mix_above hs h
        exact ⟨this.1, this.2.2⟩
    · split at h
      · split at h
        · have := REPEAT_pres hP good_fom_null hs h
          exact ⟨this.1, this.2.2⟩
        · have := REPEAT_pres hP good_fom_above hs h
          exact ⟨this.1, this.2.2⟩
      · split at h
        · have := REPEAT_pres hP (good_store _) hs h
          exact ⟨this.1, this.2.2⟩
        · split at h
          · have := REPEAT_pres hP (good_copy bpp) hs h
            exact ⟨this.1, this.2.2⟩
          · split at h
            · have := REPEAT_pres hP good_bicolour hs h
              exact ⟨this.1, this.2.2⟩
            · split at h
              · have := REPEAT_pres hP (good_store _) hs h
                exact ⟨this.1, this.2.2⟩
              · split at h
                · have := REPEAT_pres hP (good_store _) hs h
                  exact ⟨this.1, this.2.2⟩
                · simp at h

theorem advance_x {width : Nat} (hw : 1 ≤ width) {s t : Engine}
    (h : advance width s = .ok t) : t.x < width := by
  unfold advance at h
  split at h
  · split at h
    · simp at h
    · simp only [Except.ok.injEq] at h
      subst h
      exact hw
  · simp only [Except.ok.injEq] at h
    subst h
    omega

theorem output_body_pres {bpp width : Nat} {P : Engine → Prop}
    (hP : Preserved bpp width P) (hw : 1 ≤ width) :
    ∀ (fuel : Nat) (s t : Engine), P s → output_body bpp width fuel s = .ok t →
      P t ∧ t.count = 0 := by
  intro fuel
  induction fuel with
  | zero => intro s t _ h; simp [output_body] at h
  | succ fuel ih =>
    intro s t hs h
    unfold output_body at h
    split at h
    · obtain ⟨u, hu, h⟩ := bind_eq_ok.mp h
      obtain ⟨v, hv, h⟩ := bind_eq_ok.mp h
      have pu := hP.advance s u hu hs
      have pv := (output_switch_pres hP.toRunPreserved (advance_x hw hu) pu hv).1
      exact ih v t pv h
    · rename_i hc
      simp only [Except.ok.injEq] at h
      subst h
      exact ⟨hs, by omega⟩

theorem command_pres {bpp width : Nat} {P : Engine → Prop}
    (hP : Preserved bpp width P) (hw : 1 ≤ width) {s t : Engine} (hs : P s)
    (h : command bpp width s = .ok t) : P t := by
  unfold command at h
  obtain ⟨u, hu, h⟩ := bind_eq_ok.mp h
  exact (output_body_pres hP hw _ u t (hP.setup s u hu hs) h).1

theorem after_commands_pres {bpp width : Nat} {P : Engine → Prop}
    (hP : Preserved bpp width P) (hw : 1 ≤ width) :
    ∀ (k : Nat) (s t : Engine), P s → after_commands bpp width k s = .ok t → P t := by
  intro k
  induction k with
  | zero =>
    intro s t hs h
    simp only [after_commands, Except.ok.injEq] at h
    subst h
    exact hs
  | succ k ih =>
    intro s t hs h
    unfold after_commands at h
    obtain ⟨u, hu, h⟩ := bind_eq_ok.mp h
    exact ih u t (command_pres hP hw hs hu) h

theorem commands_pres {bpp width : Nat} {P : Engine → Prop}
    (hP : Preserved bpp width P) (hw : 1 ≤ width) :
    ∀ (fuel : Nat) (s t : Engine), P s → commands bpp width fuel s = .ok t → P t := by
  intro fuel
  induction fuel with
  | zero => intro s t _ h; simp [commands] at h
  | succ fuel ih =>
    intro s t hs h
    unfold commands at h
    split at h
    · obtain ⟨u, hu, h⟩ := bind_eq_ok.mp h
      exact ih u t (command_pres hP hw hs hu) h
    · simp only [Except.ok.injEq] at h
      subst h
      exact hs

theorem output_rounds_pres {bpp width : Nat} {P : Engine → Prop}
    (hP : Preserved bpp width P) (hw : 1 ≤ width) :
    ∀ (j : Nat) (s t : Engine), P s → output_rounds bpp width j s = .ok t → P t := by
  intro j
  induction j with
  | zero =>
    intro s t hs h
    simp only [output_rounds, Except.ok.injEq] at h
    subst h
    exact hs
  | succ j ih =>
    intro s t hs h
    unfold output_rounds at h
    split at h
    · obtain ⟨u, hu, h⟩ := bind_eq_ok.mp h
      obtain ⟨v, hv, h⟩ := bind_eq_ok.mp h
      have pu := hP.advance s u hu hs
      exact ih v t (output_switch_pres hP.toRunPreserved (advance_x hw hu) pu hv).1 h
    · simp only [Except.ok.injEq] at h
      subst h
      exact hs

/-! ### The head of a command -/

theorem opcode_form_len {code : Nat} {input : List Nat} {h : Header}
    (hf : opcode_form code input = .ok h) : h.input.length ≤ input.length := by
  unfold opcode_form at hf
  simp only at hf
  split at hf
  · simp only [Except.ok.injEq] at hf
    subst hf
    exact le_refl _
  · split at hf
    · split at hf
      · match input, hf with
        | [], hf => simp at hf
        | [_], hf => simp at hf
        | _ :: _ :: tl, hf =>
          simp only [CVAL_cons, ok_bind, Except.ok.injEq] at hf
          subst hf
          simp only [List.length_cons]
          omega
      · simp only [Except.ok.injEq] at hf
        subst hf
        exact le_refl _
    · simp only [Except.ok.injEq] at hf
      subst hf
      exact le_refl _

theorem strange_count_len {h h' : Header} (hs : strange_count h = .ok h') :
    h'.input.length ≤ h.input.length ∧ h'.opcode = h.opcode := by
  unfold strange_count at hs
  simp only at hs
  split at hs
  · split at hs
    · cases hin : h.input with
      | nil => rw [hin] at hs; split at hs <;> simp at hs
      | cons b tl =>
        rw [hin] at hs
        split at hs <;>
        · simp only [CVAL_cons, ok_bind, Except.ok.injEq] at hs
          subst hs
          simp
    · split at hs <;>
      · simp only [Except.ok.injEq] at hs
        subst hs
        simp
  · simp only [Except.ok.injEq] at hs
    subst hs
    simp

theorem decode_header_len {input : List Nat} {h : Header}
    (hd : decode_header input = .ok h) : h.input.length < input.length := by
  unfold decode_header at hd
  cases input with
  | nil => simp at hd
  | cons code rest =>
    simp only [CVAL_cons, ok_bind] at hd
    obtain ⟨h1, hf, hs⟩ := bind_eq_ok.mp hd
    have := opcode_form_len hf
    have := (strange_count_len hs).1
    simp only [List.length_cons]
    omega

theorem preliminary_ok {bpp width : Nat} {s t : Engine}
    (h : preliminary bpp width s = .ok t) :
    t.x = s.x ∧ t.height = s.height ∧ t.written = s.written ∧ t.output = s.output ∧
    t.line = s.line ∧ t.prevline = s.prevline ∧ t.count = s.count ∧
    t.input.length ≤ s.input.length := by
  unfold preliminary at h
  split at h
  · split at h <;>
    · simp only [Except.ok.injEq] at h
      subst h
      simp
  · split at h
    · obtain ⟨⟨c1, i1⟩, h1, h⟩ := bind_eq_ok.mp h
      obtain ⟨⟨c2, i2⟩, h2, h⟩ := bind_eq_ok.mp h
      simp only [Except.ok.injEq] at h
      subst h
      have := read_pixel_ok h1
      have := read_pixel_ok h2
      simp
      omega
    · split at h
      · obtain ⟨⟨c1, i1⟩, h1, h⟩ := bind_eq_ok.mp h
        simp only [Except.ok.injEq] at h
        subst h
        have := read_pixel_ok h1
        simp
        omega
      · split at h
        · obtain ⟨⟨c1, i1⟩, h1, h⟩ := bind_eq_ok.mp h
          simp only [Except.ok.injEq] at h
          subst h
          have := read_pixel_ok h1
          simp
          omega
        · split at h
          · simp only [Except.ok.injEq] at h
            subst h
            simp
          · split at h <;>
            · simp only [Except.ok.injEq] at h
              subst h
              simp

theorem command_setup_ok {bpp width : Nat} {s t : Engine}
    (h : command_setup bpp width s = .ok t) :
    ∃ hd, decode_header s.input = .ok hd ∧
      t.x = s.x ∧ t.height = s.height ∧ t.written = s.written ∧ t.output = s.output ∧
      t.line = s.line ∧ t.prevline = s.prevline ∧ t.count = hd.count ∧
      t.input.length < s.input.length := by
  unfold command_setup at h
  simp only at h
  obtain ⟨hd, hdec, h⟩ := bind_eq_ok.mp h
  obtain ⟨u, hu, h⟩ := bind_eq_ok.mp h
  simp only [Except.ok.injEq] at h
  subst h
  obtain ⟨h1, h2, h3, h4, h5, h6, h7, h8⟩ := preliminary_ok hu
  have := decode_header_len hdec
  refine ⟨hd, hdec, ?_⟩
  simp only at h1 h2 h3 h4 h5 h6 h7 h8 ⊢
  exact ⟨h1, h2, h3, h4, h5, h6, h7, by omega⟩

theorem advance_ok {width : Nat} {s t : Engine} (h : advance width s = .ok t) :
    (width ≤ s.x ∧ s.height ≠ 0 ∧
      t = { s with x := 0, height := s.height - 1, prevline := s.line,
                   line := some ((s.height - 1) * width) }) ∨
    (s.x < width ∧ t = s) := by
  unfold advance at h
  split at h
  · split at h
    · simp at h
    · rename_i hx hh
      simp only [Except.ok.injEq] at h
      exact Or.inl ⟨hx, hh, h.symm⟩
  · rename_i hx
    simp only [Except.ok.injEq] at h
    exact Or.inr ⟨by omega, h.symm⟩

/-! ### The pixel count and the input cursor -/

theorem inv_run (width height : Nat) : RunPreserved width (Inv width height) where
  step := by
    intro s u hx hr ⟨h1, h2, h3⟩
    refine ⟨?_, ?_, ?_⟩
    · simp only [hr.written, hr.height, hr.x]; omega
    · simp only [hr.x]; omega
    · simp only [hr.height]; exact h3
  insertmix := by
    intro s hs
    exact hs

theorem inv_preserved (bpp width height : Nat) : Preserved bpp width (Inv width height) where
  toRunPreserved := inv_run width height
  advance := by
    intro s t h ⟨h1, h2, h3⟩
    rcases advance_ok h with ⟨hx, hh, rfl⟩ | ⟨_, rfl⟩
    · refine ⟨?_, ?_, ?_⟩
      · simp only
        have hxw : s.x = width := by omega
        have : height - (s.height - 1) = (height - s.height) + 1 := by omega
        rw [this, Nat.add_mul, h1, hxw]
        omega
      · simp
      · simp only; omega
    · exact ⟨h1, h2, h3⟩
  setup := by
    intro s t h ⟨h1, h2, h3⟩
    obtain ⟨hd, _, hx, hh, hw, _⟩ := command_setup_ok h
    exact ⟨by rw [hw, hh, hx]; exact h1, by rw [hx]; exact h2, by rw [hh]; exact h3⟩

theorem inv_init (bpp width height : Nat) (input output : List Nat) :
    Inv width height (Engine.init bpp width height input output) := by
  simp [Inv, Engine.init]

theorem inv_written {width height : Nat} {s : Engine} (h : Inv width height s) :
    s.written ≤ width * height := by
  obtain ⟨h1, h2, h3⟩ := h
  have : (height - s.height) * width ≤ height * width :=
    Nat.mul_le_mul_right _ (Nat.sub_le _ _)
  rw [Nat.mul_comm width height]
  omega

theorem input_run (width n : Nat) :
    RunPreserved width (fun s => s.input.length ≤ n) where
  step := by
    intro s u _ hr hs
    have := hr.input
    show u.input.length ≤ n
    have : s.input.length ≤ n := hs
    omega
  insertmix := by
    intro s hs
    exact hs

theorem input_preserved (bpp width n : Nat) :
    Preserved bpp width (fun s => s.input.length ≤ n) where
  toRunPreserved := input_run width n
  advance := by
    intro s t h hs
    rcases advance_ok h with ⟨_, _, rfl⟩ | ⟨_, rfl⟩
    · exact hs
    · exact hs
  setup := by
    intro s t h hs
    obtain ⟨hd, _, _, _, _, _, _, _, _, hlen⟩ := command_setup_ok h
    show t.input.length ≤ n
    have : s.input.length ≤ n := hs
    omega

theorem command_len {bpp width : Nat} (hw : 1 ≤ width) {s t : Engine}
    (h : command bpp width s = .ok t) : t.input.length < s.input.length := by
  unfold command at h
  obtain ⟨u, hu, h⟩ := bind_eq_ok.mp h
  obtain ⟨hd, _, _, _, _, _, _, _, _, hlen⟩ := command_setup_ok hu
  have := (output_body_pres (input_preserved bpp width u.input.length) hw _ u t
    (le_refl _) h).1
  have : t.input.length ≤ u.input.length := this
  omega

/-- The command loop of the engine passes through the state after its first `k`
commands when input is left there. -/
theorem commands_after {bpp width : Nat} (hw : 1 ≤ width) :
    ∀ (k : Nat) (s t : Engine), after_commands bpp width k s = .ok t → t.input ≠ [] →
      ∀ fuel, s.input.length < fuel →
        ∃ fuel', t.input.length < fuel' ∧
          commands bpp width fuel s = commands bpp width fuel' t := by
  intro k
  induction k with
  | zero =>
    intro s t h _ fuel hf
    simp only [after_commands, Except.ok.injEq] at h
    subst h
    exact ⟨fuel, hf, rfl⟩
  | succ k ih =>
    intro s t h ht fuel hf
    unfold after_commands at h
    obtain ⟨u, hu, h⟩ := bind_eq_ok.mp h
    have hlen := command_len hw hu
    have hne : s.input ≠ [] := by
      intro he
      rw [he] at hlen
      simp at hlen
    cases fuel with
    | zero => omega
    | succ f =>
      obtain ⟨fuel', hf', heq⟩ := ih u t h ht f (by omega)
      refine ⟨fuel', hf', ?_⟩
      rw [← heq]
      simp [commands, hne, hu]

theorem commands_false {bpp width : Nat} {s : Engine} (hne : s.input ≠ [])
    (hc : command bpp width s = .error .returnFalse) (fuel : Nat) :
    commands bpp width (fuel + 1) s = .error .returnFalse := by
  simp [commands, hne, hc]

/-- A run of the engine that reaches, after `k` commands, a state with input left
whose command returns `False`, returns `False`. -/
theorem decompress_false {bpp width height : Nat} (hw : 1 ≤ width)
    {input output : List Nat} {k : Nat} {s : Engine}
    (hk : after_commands bpp width k (Engine.init bpp width height input output) = .ok s)
    (hne : s.input ≠ [])
    (hc : command bpp width s = .error .returnFalse) :
    bitmap_decompress bpp width height input output = .error .returnFalse := by
  unfold bitmap_decompress
  obtain ⟨fuel', hf', heq⟩ := commands_after hw k _ s hk hne (input.length + 1)
    (by simp [Engine.init])
  rw [heq]
  cases fuel' with
  | zero => omega
  | succ f => exact commands_false hne hc f

/-- Claim C4, as amended. On every input on which `bitmap_decompress2` returns `True`
the number of pixels written is at most `W * H`; it is the number of cells from
the bottom-left one to the final cursor: `written + W = (H - height) * W + x`. -/
theorem written_le (W H : Nat) (input output : List Nat) (s : Engine) (hW : 1 ≤ W)
    (h : bitmap_decompress2 W H input output = .ok s) :
    s.written ≤ W * H ∧ s.written + W = (H - s.height) * W + s.x := by
  have hinv : Inv W H s :=
    commands_pres (inv_preserved 2 W H) hW _ _ s (inv_init 2 W H input output) h
  exact ⟨inv_written hinv, hinv.1⟩

theorem written_le_witness :
    bitmap_decompress2 2 2 [0x61, 0x34, 0x12] [0, 0, 0, 0]
      = .ok { input := [], output := [0, 0, 0x1234, 0], x := 1, height := 1,
              prevline := none, line := some 2, opcode := 3, count := 0, lastopcode := 3,
              insertmix := false, bicolour := false, colour1 := 0, colour2 := 0x1234,
              mixmask := 0, mask := 0, mix := 0xffff, fom_mask := 0, written := 1 } ∧
    (1 ≤ 2 * 2 ∧ 1 + 2 = (2 - 1) * 2 + 1) :=
  ⟨rfl, written_le 2 2 [0x61, 0x34, 0x12] [0, 0, 0, 0]
    { input := [], output := [0, 0, 0x1234, 0], x := 1, height := 1,
      prevline := none, line := some 2, opcode := 3, count := 0, lastopcode := 3,
      insertmix := false, bicolour := false, colour1 := 0, colour2 := 0x1234,
      mixmask := 0, mask := 0, mix := 0xffff, fom_mask := 0, written := 1 }
    (by decide) rfl⟩

/-- Claim C4 as stated fails: a Colour command of count 1 on a 2x2 raster returns
`True` after one pixel store. -/
theorem written_counterexample :
    ∃ s, bitmap_decompress2 2 2 [0x61, 0x34, 0x12] [0, 0, 0, 0] = .ok s ∧
      s.written = 1 ∧ s.written ≠ 2 * 2 :=
  ⟨_, rfl, rfl, by decide⟩

/-! ### Unknown opcodes -/

theorem opcode_form_opcode {code : Nat} {input : List Nat} {h : Header} (hc : code < 256)
    (hf : opcode_form code input = .ok h) : h.opcode ≤ 15 := by
  have hshift : code >>> 4 = code / 16 := by rw [Nat.shiftRight_eq_div_pow]
  have hand4 : code &&& 0xf = code % 16 := Nat.and_pow_two_sub_one_eq_mod code 4
  unfold opcode_form at hf
  simp only at hf
  split at hf
  · simp only [Except.ok.injEq] at hf
    subst hf
    show code >>> 4 - 6 ≤ 15
    omega
  · split at hf
    · split at hf
      · obtain ⟨⟨b0, i0⟩, _, hf⟩ := bind_eq_ok.mp hf
        obtain ⟨⟨b1, i1⟩, _, hf⟩ := bind_eq_ok.mp hf
        simp only [Except.ok.injEq] at hf
        subst hf
        show code &&& 0xf ≤ 15
        omega
      · simp only [Except.ok.injEq] at hf
        subst hf
        show code &&& 0xf ≤ 15
        omega
    · simp only [Except.ok.injEq] at hf
      subst hf
      simp only [Nat.shiftRight_eq_div_pow]
      omega

theorem decode_header_opcode {input : List Nat} {h : Header}
    (hd : decode_header input = .ok h) : h.opcode ≤ 15 := by
  unfold decode_header at hd
  cases input with
  | nil => simp at hd
  | cons code rest =>
    simp only [CVAL_cons, ok_bind] at hd
    obtain ⟨h1, hf, hs⟩ := bind_eq_ok.mp hd
    have := opcode_form_opcode (Nat.mod_lt code (by decide)) hf
    rw [(strange_count_len hs).2]
    exact this

theorem preliminary_opcode {bpp width : Nat} {s t : Engine}
    (h : preliminary bpp width s = .ok t) (hs : s.opcode ≤ 15) :
    t.opcode ≤ 15 ∧ t.opcode ≠ 6 ∧ t.opcode ≠ 7 ∧ t.opcode ≠ 9 ∧ t.opcode ≠ 0xa := by
  unfold preliminary at h
  split at h
  · rename_i h0
    split at h <;>
    · simp only [Except.ok.injEq] at h
      subst h
      try simp only
      omega
  · split at h
    · rename_i h0 h8
      obtain ⟨⟨c1, i1⟩, h1, h⟩ := bind_eq_ok.mp h
      obtain ⟨⟨c2, i2⟩, h2, h⟩ := bind_eq_ok.mp h
      simp only [Except.ok.injEq] at h
      subst h
      try simp only
      omega
    · split at h
      · obtain ⟨⟨c1, i1⟩, h1, h⟩ := bind_eq_ok.mp h
        simp only [Except.ok.injEq] at h
        subst h
        try simp only
        omega
      · split at h
        · obtain ⟨⟨c1, i1⟩, h1, h⟩ := bind_eq_ok.mp h
          simp only [Except.ok.injEq] at h
          subst h
          try simp only
          omega
        · split at h
          · simp only [Except.ok.injEq] at h
            subst h
            simp
          · split at h
            · simp only [Except.ok.injEq] at h
              subst h
              simp
            · simp only [Except.ok.injEq] at h
              subst h
              omega

theorem command_setup_opcode {bpp width : Nat} {s t : Engine}
    (h : command_setup bpp width s = .ok t) :
    t.opcode ≤ 15 ∧ t.opcode ≠ 6 ∧ t.opcode ≠ 7 ∧ t.opcode ≠ 9 ∧ t.opcode ≠ 0xa := by
  unfold command_setup at h
  simp only at h
  obtain ⟨hd, hdec, h⟩ := bind_eq_ok.mp h
  obtain ⟨u, hu, h⟩ := bind_eq_ok.mp h
  simp only [Except.ok.injEq] at h
  subst h
  have key := preliminary_opcode hu (decode_header_opcode hdec)
  exact key

theorem advance_opcode {width : Nat} {s t : Engine} (h : advance width s = .ok t) :
    t.opcode = s.opcode ∧ t.count = s.count := by
  rcases advance_ok h with ⟨_, _, rfl⟩ | ⟨_, rfl⟩ <;> simp

theorem output_body_unknown {bpp width : Nat} {s : Engine} (fuel : Nat) (hc : 0 < s.count)
    (hop : s.opcode ≠ 0 ∧ s.opcode ≠ 1 ∧ s.opcode ≠ 2 ∧ s.opcode ≠ 3 ∧ s.opcode ≠ 4 ∧
      s.opcode ≠ 8 ∧ s.opcode ≠ 0xd ∧ s.opcode ≠ 0xe) :
    output_body bpp width (fuel + 1) s = .error .returnFalse := by
  unfold output_body
  rw [if_pos hc]
  cases ha : advance width s with
  | error e =>
    unfold advance at ha
    split at ha
    · split at ha
      · simp only [Except.error.injEq] at ha
        subst ha
        rfl
      · simp at ha
    · simp at ha
  | ok u =>
    obtain ⟨ho, _⟩ := advance_opcode ha
    obtain ⟨h0, h1, h2, h3, h4, h8, hd, he⟩ := hop
    simp only [ok_bind]
    have : output_switch bpp width u = .error .returnFalse := by
      unfold output_switch
      simp [ho, h0, h1, h2, h3, h4, h8, hd, he]
    rw [this]
    rfl

theorem command_unknown {bpp width : Nat} {s t : Engine}
    (hs : command_setup bpp width s = .ok t) (hc : 0 < t.count)
    (hop : t.opcode ≠ 0 ∧ t.opcode ≠ 1 ∧ t.opcode ≠ 2 ∧ t.opcode ≠ 3 ∧ t.opcode ≠ 4 ∧
      t.opcode ≠ 8 ∧ t.opcode ≠ 0xd ∧ t.opcode ≠ 0xe) :
    command bpp width s = .error .returnFalse := by
  unfold command
  rw [hs]
  exact output_body_unknown _ hc hop

theorem command_setup_input {bpp width : Nat} {s t : Engine}
    (h : command_setup bpp width s = .ok t) : s.input ≠ [] := by
  obtain ⟨hd, _, _, _, _, _, _, _, _, hlen⟩ := command_setup_ok h
  intro he
  rw [he] at hlen
  simp at hlen

/-- Claim C5, as amended. If the command stream reaches, after `k` commands, a command
whose opcode after aliasing is none of 0, 1, 2, 3, 4, 8, 0xD, 0xE (it is then 5,
0xB, 0xC or 0xF) and whose count is at least 1, `bitmap_decompress2` returns
`False`. -/
theorem unknown_opcode_false (W H : Nat) (input output : List Nat) (k : Nat) (s t : Engine)
    (hW : 1 ≤ W)
    (hk : after_commands 2 W k (Engine.init 2 W H input output) = .ok s)
    (hs : command_setup 2 W s = .ok t)
    (hop : t.opcode ≠ 0 ∧ t.opcode ≠ 1 ∧ t.opcode ≠ 2 ∧ t.opcode ≠ 3 ∧ t.opcode ≠ 4 ∧
      t.opcode ≠ 8 ∧ t.opcode ≠ 0xD ∧ t.opcode ≠ 0xE)
    (hc : 1 ≤ t.count) :
    (t.opcode = 5 ∨ t.opcode = 0xB ∨ t.opcode = 0xC ∨ t.opcode = 0xF) ∧
    bitmap_decompress2 W H input output = .error .returnFalse := by
  refine ⟨?_, decompress_false hW hk (command_setup_input hs) (command_unknown hs hc hop)⟩
  have := command_setup_opcode hs
  omega

theorem unknown_opcode_false_witness :
    bitmap_decompress2 2 2 [0x61, 0x34, 0x12, 0xFB] [0, 0, 0, 0] = .error .returnFalse :=
  (unknown_opcode_false 2 2 [0x61, 0x34, 0x12, 0xFB] [0, 0, 0, 0] 1 _ _ (by decide) rfl rfl
    (by decide) (by decide)).2

/-- Claim C5 as stated fails: the long-form command `0xF5` with count 0 has the
unknown opcode 5, and the run returns `True`. -/
theorem unknown_opcode_counterexample :
    ∃ t s, command_setup 2 1 (Engine.init 2 1 1 [0xF5, 0, 0] [0]) = .ok t ∧
      t.opcode = 5 ∧ bitmap_decompress2 1 1 [0xF5, 0, 0] [0] = .ok s :=
  ⟨_, _, rfl, rfl, rfl⟩

/-! ### `REPEAT` is its tail loop -/

theorem repeat_tail_succ (statement : Engine → Except Stop Engine) (width fuel : Nat)
    (s : Engine) (hc : 0 < s.count) (hx : s.x < width) :
    repeat_tail statement width (fuel + 1) s
      = (repeat_step statement s >>= repeat_tail statement width fuel) := by
  simp [repeat_tail, hc, hx]

theorem repeat_tail_exit (statement : Engine → Except Stop Engine) (width fuel : Nat)
    (s : Engine) (h : ¬ (0 < s.count ∧ s.x < width)) :
    repeat_tail statement width (fuel + 1) s = .ok s := by
  simp only [repeat_tail, if_neg h]

theorem repeat_step_x {statement : Engine → Except Stop Engine} (hst : GoodStmt statement)
    {s t : Engine} (h : repeat_step statement s = .ok t) :
    t.x = s.x + 1 ∧ s.count ≤ t.count + 1 := by
  unfold repeat_step at h
  obtain ⟨u, hu, h⟩ := bind_eq_ok.mp h
  simp only [Except.ok.injEq] at h
  subst h
  have hr := hst s u hu
  have := hr.count
  refine ⟨by simp [hr.x], ?_⟩
  show s.count ≤ u.count - 1 + 1
  omega

theorem repeat_tail_fuel {statement : Engine → Except Stop Engine} (hst : GoodStmt statement)
    (width : Nat) :
    ∀ (f g : Nat) (s : Engine), width - s.x < f → width - s.x < g →
      repeat_tail statement width f s = repeat_tail statement width g s := by
  intro f
  induction f with
  | zero => intro g s hf; omega
  | succ f ih =>
    intro g s hf hg
    cases g with
    | zero => omega
    | succ g =>
      by_cases hgd : 0 < s.count ∧ s.x < width
      · rw [repeat_tail_succ _ _ _ _ hgd.1 hgd.2, repeat_tail_succ _ _ _ _ hgd.1 hgd.2]
        apply bind_congr_ok
        intro u hu
        have := (repeat_step_x hst hu).1
        exact ih g u (by omega) (by omega)
      · rw [repeat_tail_exit _ _ _ _ hgd, repeat_tail_exit _ _ _ _ hgd]

theorem steps_x {statement : Engine → Except Stop Engine} (hst : GoodStmt statement) :
    ∀ (n : Nat) (s t : Engine), steps (repeat_step statement) n s = .ok t →
      t.x = s.x + n ∧ s.count ≤ t.count + n := by
  intro n
  induction n with
  | zero =>
    intro s t h
    simp only [steps, Except.ok.injEq] at h
    subst h
    exact ⟨rfl, le_refl _⟩
  | succ n ih =>
    intro s t h
    unfold steps at h
    obtain ⟨u, hu, h⟩ := bind_eq_ok.mp h
    have h1 := repeat_step_x hst hu
    have h2 := ih u t h
    omega

theorem repeat_tail_steps {statement : Engine → Except Stop Engine}
    (hst : GoodStmt statement) (width : Nat) :
    ∀ (n : Nat) (s : Engine) (f : Nat), n ≤ s.count → s.x + n ≤ width →
      repeat_tail statement width (f + n) s
        = (steps (repeat_step statement) n s >>= repeat_tail statement width f) := by
  intro n
  induction n with
  | zero =>
    intro s f _ _
    rfl
  | succ n ih =>
    intro s f hc hx
    have : f + (n + 1) = (f + n) + 1 := by omega
    rw [this, repeat_tail_succ _ _ _ _ (by omega) (by omega)]
    unfold steps
    rw [bind_assoc_ok]
    apply bind_congr_ok
    intro u hu
    have := repeat_step_x hst hu
    exact ih u f (by omega) (by omega)

theorem unroll8_steps (exp : Engine → Except Stop Engine) (s : Engine) :
    UNROLL8 exp s = steps exp 8 s := by
  unfold UNROLL8
  simp only [steps]
  apply bind_congr_ok; intro s1 _
  apply bind_congr_ok; intro s2 _
  apply bind_congr_ok; intro s3 _
  apply bind_congr_ok; intro s4 _
  apply bind_congr_ok; intro s5 _
  apply bind_congr_ok; intro s6 _
  apply bind_congr_ok; intro s7 _
  cases exp s7 <;> rfl

theorem clear_low3_ne {count : Nat} (h : clear_low3 count ≠ 0) : 8 ≤ count := by
  unfold clear_low3 at h
  omega

theorem repeat_unrolled_tail {statement : Engine → Except Stop Engine}
    (hst : GoodStmt statement) (width : Nat) :
    ∀ (fuel : Nat) (s : Engine), (width - s.x) / 8 < fuel →
      (repeat_unrolled statement width fuel s >>= repeat_tail statement width (width + 1))
        = repeat_tail statement width (width + 1) s := by
  intro fuel
  induction fuel with
  | zero => intro s hf; omega
  | succ fuel ih =>
    intro s hf
    unfold repeat_unrolled
    by_cases hg : clear_low3 s.count ≠ 0 ∧ s.x + 8 < width
    · rw [if_pos hg, bind_assoc_ok]
      have hc := clear_low3_ne hg.1
      have hw : width + 1 = (width - 7) + 8 := by omega
      have hblock := repeat_tail_steps hst width 8 s (width - 7) hc (by omega)
      rw [← hw] at hblock
      rw [hblock, unroll8_steps]
      apply bind_congr_ok
      intro t ht
      have hx := (steps_x hst 8 s t ht).1
      rw [ih t (by omega)]
      exact repeat_tail_fuel hst width _ _ t (by omega) (by omega)
    · rw [if_neg hg]
      rfl

/-- The macro `REPEAT(statement)` does what its second loop alone does. -/
theorem REPEAT_eq_tail {statement : Engine → Except Stop Engine} (hst : GoodStmt statement)
    (width : Nat) (s : Engine) :
    REPEAT statement width s = repeat_tail statement width (width + 1) s := by
  unfold REPEAT
  exact repeat_unrolled_tail hst width (width + 1) s
    (by have := Nat.div_le_self (width - s.x) 8; omega)

/-! ### Runs of a statement that keeps `count` -/

theorem frame_run (width : Nat) (s0 : Engine) : RunPreserved width (Frame s0) where
  step := by
    intro s u _ hr ⟨h1, h2, h3, h4, h5, h6, h7⟩
    refine ⟨?_, ?_, ?_, ?_, ?_, ?_, ?_⟩
    · exact hr.height.trans h1
    · exact hr.line.trans h2
    · exact hr.prevline.trans h3
    · exact hr.opcode.trans h4
    · exact hr.output.trans h5
    · exact hr.lastopcode.trans h6
    · show u.written + s0.x = s0.written + (u.x + 1)
      rw [hr.written, hr.x]
      omega
  insertmix := by
    intro s hs
    exact hs

theorem frame_refl (s : Engine) : Frame s s :=
  ⟨rfl, rfl, rfl, rfl, rfl, rfl, rfl⟩

theorem insertmix_run (width : Nat) : RunPreserved width (fun s => s.insertmix = false) where
  step := by
    intro s u _ hr hs
    exact hr.insertmix.trans hs
  insertmix := by
    intro s _
    rfl

theorem in_raster_step {width : Nat} {s u : Engine} (hs : InRaster width s)
    (hr : StmtRel s u) : InRaster width { u with count := u.count - 1, x := u.x + 1 } := by
  obtain ⟨⟨base, hl, hb⟩, hp⟩ := hs
  refine ⟨⟨base, hr.line.trans hl, ?_⟩, ?_⟩
  · show base + width ≤ u.output.length
    rw [hr.output]; exact hb
  · rcases hp with hp | ⟨pb, hp, hpb⟩
    · exact Or.inl (hr.prevline.trans hp)
    · refine Or.inr ⟨pb, hr.prevline.trans hp, ?_⟩
      show pb + width ≤ u.output.length
      rw [hr.output]; exact hpb

theorem repeat_tail_plain {statement : Engine → Except Stop Engine}
    (hst : GoodStmt statement) (width : Nat) (Q : Engine → Prop)
    (hplain : ∀ s t, statement s = .ok t → t.count = s.count)
    (hsucc : ∀ s, Q s → s.x < width → ∃ t, statement s = .ok t)
    (hQ : ∀ s u, Q s → StmtRel s u → Q { u with count := u.count - 1, x := u.x + 1 }) :
    ∀ (fuel : Nat) (s : Engine), Q s → width - s.x < fuel →
      ∃ t, repeat_tail statement width fuel s = .ok t ∧ Q t ∧
        t.x = s.x + min s.count (width - s.x) ∧
        t.count = s.count - min s.count (width - s.x) := by
  intro fuel
  induction fuel with
  | zero => intro s _ hf; omega
  | succ fuel ih =>
    intro s hs hf
    by_cases hg : 0 < s.count ∧ s.x < width
    · rw [repeat_tail_succ _ _ _ _ hg.1 hg.2]
      obtain ⟨u, hu⟩ := hsucc s hs hg.2
      have hr := hst s u hu
      have hstep : repeat_step statement s
          = .ok { u with count := u.count - 1, x := u.x + 1 } := by
        simp [repeat_step, hu]
      rw [hstep]
      obtain ⟨t, ht, hqt, hx, hc⟩ := ih { u with count := u.count - 1, x := u.x + 1 }
        (hQ s u hs hr) (by show width - (u.x + 1) < fuel; rw [hr.x]; omega)
      refine ⟨t, ht, hqt, ?_, ?_⟩
      · rw [hx]
        show u.x + 1 + min (u.count - 1) (width - (u.x + 1)) = _
        rw [hr.x, hplain s u hu]
        omega
      · rw [hc]
        show u.count - 1 - min (u.count - 1) (width - (u.x + 1)) = _
        rw [hr.x, hplain s u hu]
        omega
    · rw [repeat_tail_exit _ _ _ _ hg]
      refine ⟨s, rfl, hs, ?_, ?_⟩ <;> omega

theorem REPEAT_plain {statement : Engine → Except Stop Engine}
    (hst : GoodStmt statement) (width : Nat) (Q : Engine → Prop)
    (hplain : ∀ s t, statement s = .ok t → t.count = s.count)
    (hsucc : ∀ s, Q s → s.x < width → ∃ t, statement s = .ok t)
    (hQ : ∀ s u, Q s → StmtRel s u → Q { u with count := u.count - 1, x := u.x + 1 })
    (s : Engine) (hs : Q s) :
    ∃ t, REPEAT statement width s = .ok t ∧ Q t ∧
      t.x = s.x + min s.count (width - s.x) ∧
      t.count = s.count - min s.count (width - s.x) ∧ Frame s t ∧
      (s.insertmix = false → t.insertmix = false) := by
  obtain ⟨t, ht, hq, hx, hc⟩ :=
    repeat_tail_plain hst width Q hplain hsucc hQ (width + 1) s hs (by omega)
  rw [← REPEAT_eq_tail hst] at ht
  refine ⟨t, ht, hq, hx, hc, (REPEAT_pres (frame_run width s) hst (frame_refl s) ht).1, ?_⟩
  intro hi
  exact (REPEAT_pres (insertmix_run width) hst hi ht).1

theorem store_succeeds {width : Nat} {s : Engine} (hs : InRaster width s) (hx : s.x < width)
    (v : Nat) : ∃ t, s.store v = .ok t := by
  obtain ⟨⟨base, hl, hb⟩, _⟩ := hs
  unfold Engine.store
  rw [hl]
  simp only
  rw [if_pos (by omega)]
  exact ⟨_, rfl⟩

theorem store_count {s t : Engine} {v : Nat} (h : s.store v = .ok t) : t.count = s.count := by
  obtain ⟨base, _, _, rfl⟩ := store_ok h
  rfl

theorem above_succeeds {width : Nat} {s : Engine} (hs : InRaster width s) (hx : s.x < width)
    (hp : s.prevline ≠ none) : ∃ a, s.above = .ok a := by
  obtain ⟨_, hp'⟩ := hs
  rcases hp' with hp' | ⟨pb, hp', hpb⟩
  · exact absurd hp' hp
  · unfold Engine.above
    rw [hp']
    simp only
    have hlt : pb + s.x < s.output.length := by omega
    rw [List.getElem?_eq_getElem hlt]
    exact ⟨_, rfl⟩

/-- The Fill run `if (prevline == NULL) REPEAT(line[x] = 0) else REPEAT(line[x] =
prevline[x])` inside the raster: it stores pixels up to the end of the scanline
or of the count. -/
theorem REPEAT_fill (width : Nat) (s : Engine) (hs : InRaster width s) :
    ∃ t, (if s.prevline = none then REPEAT fill_null width s
          else REPEAT fill_above width s) = .ok t ∧ InRaster width t ∧
      t.x = s.x + min s.count (width - s.x) ∧
      t.count = s.count - min s.count (width - s.x) ∧ Frame s t ∧
      (s.insertmix = false → t.insertmix = false) := by
  by_cases hp : s.prevline = none
  · rw [if_pos hp]
    exact REPEAT_plain good_fill_null width (InRaster width) (fun _ _ h => store_count h)
      (fun u hq hx => store_succeeds hq hx 0) (fun _ _ hq hr => in_raster_step hq hr) s hs
  · rw [if_neg hp]
    obtain ⟨t, ht, hq, hx, hc, hf, hi⟩ := REPEAT_plain good_fill_above width
      (fun u => InRaster width u ∧ u.prevline ≠ none)
      (fun u v h => by
        unfold fill_above at h
        obtain ⟨a, _, h⟩ := bind_eq_ok.mp h
        exact store_count h)
      (fun u hq hx => by
        unfold fill_above
        obtain ⟨a, ha⟩ := above_succeeds hq.1 hx hq.2
        rw [ha]
        exact store_succeeds hq.1 hx a)
      (fun u v hq hr => ⟨in_raster_step hq.1 hr, by
        show v.prevline ≠ none
        rw [hr.prevline]
        exact hq.2⟩) s ⟨hs, hp⟩
    exact ⟨t, ht, hq.1, hx, hc, hf, hi⟩

/-! ### Overrunning the raster -/

theorem output_body_full {bpp width : Nat} {s : Engine} (fuel : Nat) (hc : 0 < s.count)
    (hx : width ≤ s.x) (hh : s.height = 0) :
    output_body bpp width (fuel + 1) s = .error .returnFalse := by
  unfold output_body
  rw [if_pos hc]
  have : advance width s = .error .returnFalse := by
    unfold advance
    rw [if_pos hx, if_pos hh]
  rw [this]
  rfl

theorem insert_mix_none {s : Engine} (h : s.insertmix = false) : insert_mix s = .ok s := by
  unfold insert_mix
  simp [h]

theorem fill_rows {bpp width : Nat} :
    ∀ (m : Nat) (s : Engine) (fuel : Nat), s.opcode = 0 → s.insertmix = false →
      s.x = width → s.height = m → m * width < s.count →
      (s.line = none ∨ ∃ base, s.line = some base ∧ base + width ≤ s.output.length) →
      m * width ≤ s.output.length → m < fuel →
      output_body bpp width fuel s = .error .returnFalse := by
  intro m
  induction m with
  | zero =>
    intro s fuel _ _ hx hh hc _ _ hf
    cases fuel with
    | zero => omega
    | succ f => exact output_body_full f (by omega) (by omega) hh
  | succ m ih =>
    intro s fuel hop him hx hh hc hl hlen hf
    cases fuel with
    | zero => omega
    | succ f =>
      have hmul : (m + 1) * width = m * width + width := Nat.succ_mul m width
      unfold output_body
      rw [if_pos (by omega)]
      have hadv : advance width s = .ok (next_line width s) := by
        unfold advance
        rw [if_pos (by omega), if_neg (by omega)]
      rw [hadv]
      simp only [ok_bind]
      have hin : InRaster width (next_line width s) := by
        refine ⟨⟨(s.height - 1) * width, rfl, ?_⟩, ?_⟩
        · show (s.height - 1) * width + width ≤ s.output.length
          rw [hh]
          simp only [Nat.add_sub_cancel]
          omega
        · rcases hl with hl | ⟨base, hl, hb⟩
          · exact Or.inl hl
          · exact Or.inr ⟨base, hl, hb⟩
      obtain ⟨t, ht, hqt, htx, htc, hfr, hti⟩ := REPEAT_fill width _ hin
      have hsw : output_switch bpp width (next_line width s) = .ok t := by
        have hop' : (next_line width s).opcode = 0 := hop
        have him' : (next_line width s).insertmix = false := him
        unfold output_switch
        rw [if_pos hop', insert_mix_none him']
        exact ht
      rw [hsw]
      simp only [ok_bind]
      obtain ⟨f1, f2, f3, f4, f5, f6, f7⟩ := hfr
      simp only [next_line] at htx htc f1 f2 f3 f4 f5 hti
      have hmin : min s.count (width - 0) = width := by
        rw [Nat.sub_zero]; exact Nat.min_eq_right (by omega)
      rw [hmin] at htx htc
      apply ih t f (f4.trans hop) (hti him) (by omega) (by rw [f1, hh]; rfl) (by omega)
      · right
        refine ⟨(s.height - 1) * width, f2, ?_⟩
        rw [f5, hh]
        simp only [Nat.add_sub_cancel]
        omega
      · rw [f5]; omega
      · omega

theorem fill_setup (W H b : Nat) (output : List Nat) (hb : b < 256) :
    command_setup 1 W (Engine.init 1 W H [0x00, b] output)
      = .ok { (Engine.init 1 W H [] output) with count := b + 32, lastopcode := 0 } := by
  simp [command_setup, decode_header, opcode_form, strange_count, preliminary, Engine.init,
    Nat.mod_eq_of_lt hb]

theorem fill_overrun (W H b : Nat) (output : List Nat) (hb : b < 256)
    (hlen : output.length = W * H) (hover : W * H < b + 32) :
    bitmap_decompress1 W H [0x00, b] output = .error .returnFalse := by
  unfold bitmap_decompress1 bitmap_decompress
  have hc : command 1 W (Engine.init 1 W H [0x00, b] output) = .error .returnFalse := by
    unfold command
    rw [fill_setup W H b output hb]
    simp only [ok_bind]
    apply fill_rows H
    · rfl
    · rfl
    · rfl
    · rfl
    · show H * W < b + 32
      rw [Nat.mul_comm]; exact hover
    · exact Or.inl rfl
    · show H * W ≤ output.length
      rw [hlen, Nat.mul_comm]
    · show H < H + 2
      omega
  exact commands_false (by simp [Engine.init]) hc _

theorem rounds_body {bpp width : Nat} :
    ∀ (j : Nat) (s t : Engine) (fuel : Nat), output_rounds bpp width j s = .ok t →
      0 < t.count → j < fuel →
      output_body bpp width fuel s = output_body bpp width (fuel - j) t := by
  intro j
  induction j with
  | zero =>
    intro s t fuel h _ _
    simp only [output_rounds, Except.ok.injEq] at h
    subst h
    rfl
  | succ j ih =>
    intro s t fuel h hc hf
    unfold output_rounds at h
    by_cases hs : 0 < s.count
    · rw [if_pos hs] at h
      obtain ⟨u, hu, h⟩ := bind_eq_ok.mp h
      obtain ⟨v, hv, h⟩ := bind_eq_ok.mp h
      cases fuel with
      | zero => omega
      | succ f =>
        unfold output_body
        rw [if_pos hs, hu]
        simp only [ok_bind]
        rw [hv]
        simp only [ok_bind]
        rw [ih v t f h hc (by omega)]
        have : f + 1 - (j + 1) = f - j := by omega
        rw [this]
        cases hfj : f - j with
        | zero => omega
        | succ n => rfl
    · rw [if_neg hs] at h
      simp only [Except.ok.injEq] at h
      subst h
      exact absurd hc hs

theorem switch_frame {bpp width : Nat} {s t : Engine} (hx : s.x < width)
    (h : output_switch bpp width s = .ok t) :
    t.height = s.height ∧ (t.count = 0 ∨ width ≤ t.x) := by
  have := output_switch_pres (frame_run width s) hx (frame_refl s) h
  exact ⟨this.1.1, this.2⟩

theorem rounds_stop {bpp width : Nat} {s t : Engine} (hs : s.count = 0) :
    ∀ (j : Nat), output_rounds bpp width j s = .ok t → t = s := by
  intro j h
  cases j with
  | zero =>
    simp only [output_rounds, Except.ok.injEq] at h
    exact h.symm
  | succ j =>
    unfold output_rounds at h
    rw [if_neg (by omega)] at h
    simp only [Except.ok.injEq] at h
    exact h.symm

theorem rounds_height {bpp width : Nat} (hw : 1 ≤ width) :
    ∀ (j : Nat) (s t : Engine), output_rounds bpp width j s = .ok t → 0 < t.count →
      (width ≤ s.x → t.height + j ≤ s.height) ∧ t.height + j ≤ s.height + 1 := by
  intro j
  induction j with
  | zero =>
    intro s t h _
    simp only [output_rounds, Except.ok.injEq] at h
    subst h
    exact ⟨fun _ => le_refl _, Nat.le_succ _⟩
  | succ j ih =>
    intro s t h hc
    by_cases hs : 0 < s.count
    · unfold output_rounds at h
      rw [if_pos hs] at h
      obtain ⟨u, hu, h⟩ := bind_eq_ok.mp h
      obtain ⟨v, hv, h⟩ := bind_eq_ok.mp h
      obtain ⟨hvh, hve⟩ := switch_frame (advance_x hw hu) hv
      have hvx : width ≤ v.x := by
        rcases hve with hve | hve
        · have := rounds_stop hve j h
          subst this
          omega
        · exact hve
      have hi := (ih v t h hc).1 hvx
      rcases advance_ok hu with ⟨hx, hh, rfl⟩ | ⟨hx, rfl⟩
      · simp only at hvh
        constructor
        · intro _; omega
        · omega
      · constructor
        · intro hx'; omega
        · omega
    · have := rounds_stop (by omega) (j + 1) h
      subst this
      exact absurd hc hs

theorem inv_full {width height : Nat} {s : Engine} (hw : 1 ≤ width)
    (hinv : Inv width height s) (hfull : s.written = width * height) :
    s.height = 0 ∧ s.x = width := by
  obtain ⟨h1, h2, h3⟩ := hinv
  rw [hfull] at h1
  have hle : width * height ≤ (height - s.height) * width := by omega
  rw [Nat.mul_comm width height] at hle
  have : height ≤ height - s.height := Nat.le_of_mul_le_mul_right hle hw
  have hh : s.height = 0 := by omega
  rw [hh, Nat.sub_zero, Nat.mul_comm width height] at h1
  exact ⟨hh, by omega⟩

/-- Claim C3. When a command of `bitmap_decompress1` still has `count > 0` at the head of
its output loop once `W * H` pixels have been written, the engine returns `False`;
so does the single short-form Fill `[0x00, b]` whenever `b + 32 > W * H`. -/
theorem overrun_false (W H : Nat) (hW : 1 ≤ W) :
    (∀ (input output : List Nat) (k j : Nat) (s0 s1 s : Engine),
      after_commands 1 W k (Engine.init 1 W H input output) = .ok s0 →
      command_setup 1 W s0 = .ok s1 →
      output_rounds 1 W j s1 = .ok s →
      0 < s.count → s.written = W * H →
      bitmap_decompress1 W H input output = .error .returnFalse) ∧
    (∀ (b : Nat) (output : List Nat), b < 256 → output.length = W * H → W * H < b + 32 →
      bitmap_decompress1 W H [0x00, b] output = .error .returnFalse) := by
  constructor
  · intro input output k j s0 s1 s hk hs hj hc hfull
    have hinv0 : Inv W H s0 :=
      after_commands_pres (inv_preserved 1 W H) hW k _ s0 (inv_init 1 W H input output) hk
    have hinv1 : Inv W H s1 := (inv_preserved 1 W H).setup s0 s1 hs hinv0
    have hinv : Inv W H s := output_rounds_pres (inv_preserved 1 W H) hW j s1 s hinv1 hj
    obtain ⟨hh, hx⟩ := inv_full hW hinv hfull
    have hjh := (rounds_height hW j s1 s hj hc).2
    have hcmd : command 1 W s0 = .error .returnFalse := by
      unfold command
      rw [hs]
      simp only [ok_bind]
      rw [rounds_body j s1 s _ hj hc (by omega)]
      have : s1.height + 2 - j = (s1.height + 1 - j) + 1 := by omega
      rw [this]
      exact output_body_full _ hc (by omega) hh
    exact decompress_false hW hk (command_setup_input hs) hcmd
  · intro b output hb hlen hover
    exact fill_overrun W H b output hb hlen hover

theorem overrun_false_witness :
    bitmap_decompress1 2 2 [0x00, 0x00] [0, 0, 0, 0] = .error .returnFalse :=
  (overrun_false 2 2 (by decide)).2 0 [0, 0, 0, 0] (by decide) rfl (by decide)

/-! ### Copy runs of the 2-byte engine -/

theorem write_run_length : ∀ (vs out : List Nat) (i : Nat),
    (write_run out i vs).length = out.length := by
  intro vs
  induction vs with
  | nil => intro out i; rfl
  | cons v vs ih =>
    intro out i
    simp only [write_run]
    rw [ih, List.length_set]

theorem write_run_get : ∀ (vs out : List Nat) (i j : Nat), i + vs.length ≤ out.length →
    (write_run out i vs)[j]? = if i ≤ j ∧ j < i + vs.length then vs[j - i]? else out[j]? := by
  intro vs
  induction vs with
  | nil =>
    intro out i j _
    have : ¬ (i ≤ j ∧ j < i + ([] : List Nat).length) := by
      simp only [List.length_nil]; omega
    rw [if_neg this]
    rfl
  | cons v vs ih =>
    intro out i j hlen
    simp only [List.length_cons] at hlen
    simp only [write_run]
    rw [ih (out.set i v) (i + 1) j (by rw [List.length_set]; omega)]
    by_cases h1 : i + 1 ≤ j ∧ j < i + 1 + vs.length
    · rw [if_pos h1, if_pos (by simp only [List.length_cons]; omega)]
      have : j - i = (j - (i + 1)) + 1 := by omega
      rw [this, List.getElem?_cons_succ]
    · rw [if_neg h1]
      by_cases h2 : j = i
      · subst h2
        rw [if_pos (by simp only [List.length_cons]; omega), Nat.sub_self,
          List.getElem?_cons_zero, List.getElem?_set, if_pos rfl, if_pos (by omega)]
      · rw [if_neg (by simp only [List.length_cons]; omega),
          List.getElem?_set_ne (fun h => h2 h.symm)]

theorem le16_join {v : Nat} (hv : v < 65536) :
    ((v &&& 0xFF) % 256) ||| (((v >>> 8) % 256) <<< 8) = v := by
  have h1 : v &&& 0xFF = v % 256 := Nat.and_pow_two_sub_one_eq_mod v 8
  have h2 : v >>> 8 = v / 256 := by rw [Nat.shiftRight_eq_div_pow]
  have h3 : v / 256 < 256 := by omega
  rw [h1, h2, Nat.mod_mod, Nat.mod_eq_of_lt h3, Nat.shiftLeft_eq, Nat.lor_comm,
    Nat.mul_comm]
  have := Nat.mul_add_lt_is_or (i := 8) (Nat.mod_lt v (by decide : 0 < 2 ^ 8)) (v / 256)
  rw [← this]
  omega

theorem copy_step {s : Engine} {v base : Nat} {rest : List Nat} (hv : v < 65536)
    (hin : s.input = (v &&& 0xFF) :: (v >>> 8) :: rest) (hl : s.line = some base)
    (hb : base + s.x < s.output.length) :
    repeat_step (copy_statement 2) s
      = .ok { s with input := rest, output := s.output.set (base + s.x) v,
                     written := s.written + 1, count := s.count - 1, x := s.x + 1 } := by
  simp [repeat_step, copy_statement, readPixel, CVAL2, hin, Engine.store, hl, hb,
    le16_join hv]

theorem copy_tail (width : Nat) :
    ∀ (vs : List Nat) (s : Engine) (fuel base : Nat) (rest : List Nat),
      s.input = pixels_le vs ++ rest → (∀ v ∈ vs, v < 65536) → s.line = some base →
      base + s.x + vs.length ≤ s.output.length → vs.length ≤ s.count →
      s.x + vs.length ≤ width → (vs.length = s.count ∨ s.x + vs.length = width) →
      vs.length < fuel →
      repeat_tail (copy_statement 2) width fuel s
        = .ok { s with input := rest, output := write_run s.output (base + s.x) vs,
                       written := s.written + vs.length, count := s.count - vs.length,
                       x := s.x + vs.length } := by
  intro vs
  induction vs with
  | nil =>
    intro s fuel base rest hin _ _ _ _ _ hend hf
    cases fuel with
    | zero => omega
    | succ f =>
      simp only [List.length_nil] at hend
      rw [repeat_tail_exit _ _ _ _ (by omega)]
      simp only [pixels_le, List.nil_append] at hin
      cases s
      simp only [write_run, List.length_nil, Nat.add_zero, Nat.sub_zero] at hin ⊢
      subst hin
      rfl
  | cons v vs ih =>
    intro s fuel base rest hin hv hl hb hc hx hend hf
    simp only [List.length_cons] at hb hc hx hend hf
    cases fuel with
    | zero => omega
    | succ f =>
      rw [repeat_tail_succ _ _ _ _ (by omega) (by omega)]
      have hin' : s.input = (v &&& 0xFF) :: (v >>> 8) :: (pixels_le vs ++ rest) := by
        rw [hin]; rfl
      rw [copy_step (hv v (List.mem_cons_self v vs)) hin' hl (by omega)]
      simp only [ok_bind]
      refine (ih _ f base rest ?_ (fun w hw => hv w (List.mem_cons_of_mem v hw)) ?_
        ?_ ?_ ?_ ?_ (by omega)).trans ?_
      · rfl
      · exact hl
      · simp only [List.length_set]; omega
      · simp only; omega
      · simp only; omega
      · simp only; omega
      · simp only [write_run, List.length_cons, Except.ok.injEq, Engine.mk.injEq, true_and,
          and_true]
        refine ⟨?_, ?_, ?_, ?_⟩ <;> first | rfl | omega

theorem pixels_le_append : ∀ (a b : List Nat), pixels_le (a ++ b) = pixels_le a ++ pixels_le b := by
  intro a
  induction a with
  | nil => intro b; rfl
  | cons v a ih =>
    intro b
    show (v &&& 0xFF) :: (v >>> 8) :: pixels_le (a ++ b) = _
    rw [ih]
    rfl

theorem pixels_le_length : ∀ (a : List Nat), (pixels_le a).length = 2 * a.length := by
  intro a
  induction a with
  | nil => rfl
  | cons v a ih =>
    simp only [pixels_le, List.length_cons, ih]
    omega

theorem switch_copy {width : Nat} {s : Engine} (hop : s.opcode = 4) :
    output_switch 2 width s = repeat_tail (copy_statement 2) width (width + 1) s := by
  rw [← REPEAT_eq_tail (good_copy 2)]
  simp [output_switch, hop]

theorem copy_rows {width : Nat} (hw : 1 ≤ width) :
    ∀ (m : Nat) (ps : List Nat) (s : Engine) (fuel : Nat), s.opcode = 4 → s.x = width →
      s.height = m → s.count = m * width → s.input = pixels_le ps →
      ps.length = m * width → (∀ v ∈ ps, v < 65536) → m * width ≤ s.output.length →
      m < fuel →
      ∃ t, output_body 2 width fuel s = .ok t ∧ t.input = [] ∧
        t.output.length = s.output.length ∧
        (∀ r c, r < m → c < width → t.output[(m - 1 - r) * width + c]? = ps[r * width + c]?) ∧
        (∀ j, m * width ≤ j → t.output[j]? = s.output[j]?) := by
  intro m
  induction m with
  | zero =>
    intro ps s fuel _ _ _ hc hin hlen _ _ hf
    cases fuel with
    | zero => omega
    | succ f =>
      simp only [Nat.zero_mul] at hc hlen
      have hps : ps = [] := List.length_eq_zero.mp hlen
      subst hps
      refine ⟨s, ?_, hin, rfl, ?_, fun _ _ => rfl⟩
      · unfold output_body
        rw [if_neg (by omega)]
      · intro r c hr; omega
  | succ m ih =>
    intro ps s fuel hop hx hh hc hin hlen hv hout hf
    have hmul : (m + 1) * width = m * width + width := Nat.succ_mul m width
    cases fuel with
    | zero => omega
    | succ f =>
      have hadv : advance width s = .ok (next_line width s) := by
        unfold advance
        rw [if_pos (by omega), if_neg (by omega)]
      have hsplit : (next_line width s).input
          = pixels_le (ps.take width) ++ pixels_le (ps.drop width) := by
        show s.input = _
        rw [hin, ← pixels_le_append, List.take_append_drop]
      have htake : (ps.take width).length = width := by
        rw [List.length_take]; omega
      have hdrop : (ps.drop width).length = m * width := by
        rw [List.length_drop]; omega
      have hbase : (next_line width s).line = some (m * width) := by
        show some ((s.height - 1) * width) = _
        rw [hh]; rfl
      have hrow := copy_tail width (ps.take width) (next_line width s) (width + 1)
        (m * width) (pixels_le (ps.drop width)) hsplit
        (fun v hv' => hv v (List.mem_of_mem_take hv')) hbase
        (by rw [htake]; show m * width + 0 + width ≤ s.output.length; omega)
        (by rw [htake]; show width ≤ s.count; omega)
        (by rw [htake]; show 0 + width ≤ width; omega)
        (Or.inr (by rw [htake]; show 0 + width = width; omega))
        (by omega)
      obtain ⟨t1, ht1⟩ : ∃ t1, repeat_tail (copy_statement 2) width (width + 1)
          (next_line width s) = .ok t1 ∧ t1.opcode = 4 ∧ t1.x = width ∧ t1.height = m ∧
          t1.count = m * width ∧ t1.input = pixels_le (ps.drop width) ∧
          t1.output = write_run s.output (m * width + 0) (ps.take width) := by
        refine ⟨_, hrow, hop, ?_, ?_, ?_, rfl, rfl⟩
        · show 0 + (ps.take width).length = width; omega
        · show s.height - 1 = m; omega
        · show s.count - (ps.take width).length = m * width; omega
      obtain ⟨hrow', h1op, h1x, h1h, h1c, h1i, h1o⟩ := ht1
      obtain ⟨t, ht, hti, htl, htr, htf⟩ := ih (ps.drop width) t1 f h1op h1x h1h h1c h1i
        hdrop (fun v hv' => hv v (List.mem_of_mem_drop hv'))
        (by rw [h1o, write_run_length]; omega) (by omega)
      rw [h1o] at htl htf
      refine ⟨t, ?_, hti, ?_, ?_, ?_⟩
      · unfold output_body
        rw [if_pos (by omega), hadv]
        simp only [ok_bind]
        rw [switch_copy (by exact hop), hrow']
        exact ht
      · rw [htl]
        exact write_run_length _ _ _
      · intro r c hr hcw
        cases r with
        | zero =>
          have h1 : (m + 1 - 1 - 0) * width + c = m * width + c := by
            simp only [Nat.add_sub_cancel, Nat.sub_zero]
          rw [h1, htf (m * width + c) (by omega)]
          rw [write_run_get _ _ _ _ (by rw [htake]; omega),
            if_pos (by rw [htake]; omega)]
          have h2 : m * width + c - (m * width + 0) = c := by omega
          rw [h2, List.getElem?_take_of_lt hcw, Nat.zero_mul, Nat.zero_add]
        | succ r =>
          have h1 : (m + 1 - 1 - (r + 1)) * width + c = (m - 1 - r) * width + c := by
            have : m + 1 - 1 - (r + 1) = m - 1 - r := by omega
            rw [this]
          rw [h1, htr r c (by omega) hcw, List.getElem?_drop]
          have h2 : width + (r * width + c) = (r + 1) * width + c := by
            rw [Nat.succ_mul]; omega
          rw [h2]
      · intro j hj
        rw [htf j (by omega)]
        rw [write_run_get _ _ _ _ (by rw [htake]; omega), if_neg (by rw [htake]; omega)]

theorem copy_setup (W H n : Nat) (rest output : List Nat) (hn : n < 65536) :
    command_setup 2 W (Engine.init 2 W H ([0xF4, n &&& 0xFF, n >>> 8] ++ rest) output)
      = .ok { (Engine.init 2 W H rest output) with opcode := 4, count := n, lastopcode := 4 } := by
  have h1 : (244 : Nat) &&& 15 = 4 := by decide
  have h2 : (244 : Nat) >>> 4 = 15 := by decide
  simp [command_setup, decode_header, opcode_form, strange_count, preliminary, Engine.init,
    le16_join hn, h1, h2]

/-- Claim C1. A long-form Copy command of `n = W * H` pixels followed by the pixels in
little-endian order makes `bitmap_decompress2` return `True` with pixel
`(H - 1 - r) * W + c` of the raster equal to `p[r * W + c]`: runs go left to right
within a scanline and scanlines are filled bottom to top. -/
theorem copy_raster (W H : Nat) (p output : List Nat) (hW : 1 ≤ W)
    (hn : p.length = W * H) (hmax : W * H ≤ 65535) (hp : ∀ v ∈ p, v < 65536)
    (hout : output.length = W * H) :
    ∃ s, bitmap_decompress2 W H
        ([0xF4, (W * H) &&& 0xFF, (W * H) >>> 8] ++ pixels_le p) output = .ok s ∧
      s.output.length = W * H ∧
      ∀ r c, r < H → c < W → s.output[(H - 1 - r) * W + c]? = p[r * W + c]? := by
  have hcomm : W * H = H * W := Nat.mul_comm W H
  obtain ⟨t, ht, hti, htl, htr, _⟩ := copy_rows hW H p
    { (Engine.init 2 W H (pixels_le p) output) with
        opcode := 4, count := W * H, lastopcode := 4 }
    (H + 2) rfl rfl rfl hcomm rfl (hn.trans hcomm) hp
    (by show H * W ≤ output.length; omega) (by omega)
  refine ⟨t, ?_, htl.trans hout, htr⟩
  unfold bitmap_decompress2 bitmap_decompress
  have hcmd : command 2 W (Engine.init 2 W H
      ([0xF4, (W * H) &&& 0xFF, (W * H) >>> 8] ++ pixels_le p) output) = .ok t := by
    unfold command
    rw [copy_setup W H (W * H) (pixels_le p) output (by omega)]
    exact ht
  have hne : (Engine.init 2 W H
      ([0xF4, (W * H) &&& 0xFF, (W * H) >>> 8] ++ pixels_le p) output).input ≠ [] := by
    simp [Engine.init]
  have hlen : ([0xF4, (W * H) &&& 0xFF, (W * H) >>> 8] ++ pixels_le p).length + 1
      = (2 + 2 * p.length) + 1 + 1 := by
    simp only [List.length_append, List.length_cons, List.length_nil, pixels_le_length]
    omega
  rw [hlen]
  unfold commands
  rw [if_pos hne, hcmd]
  simp only [ok_bind]
  unfold commands
  rw [if_neg (by rw [hti]; simp)]

theorem copy_raster_witness :
    ∃ s, bitmap_decompress2 2 2
        ([0xF4, (2 * 2) &&& 0xFF, (2 * 2) >>> 8] ++ pixels_le [1, 2, 3, 0xF800]) [7, 7, 7, 7]
          = .ok s ∧
      s.output.length = 2 * 2 ∧
      ∀ r c, r < 2 → c < 2 →
        s.output[(2 - 1 - r) * 2 + c]? = [1, 2, 3, 0xF800][r * 2 + c]? :=
  copy_raster 2 2 [1, 2, 3, 0xF800] [7, 7, 7, 7] (by decide) rfl (by decide)
    (by decide) rfl

/-! ### The plane decoder -/

theorem revcode_eq {c : Nat} (hc : c < 256) :
    ((c &&& 0xF) <<< 4) ||| ((c >>> 4) &&& 0xF) = (c % 16) * 16 + c / 16 ∧
    (c >>> 4) &&& 0xF = c / 16 ∧ c &&& 0xF = c % 16 ∧ c >>> 4 = c / 16 := by
  have h1 : c &&& 0xF = c % 16 := Nat.and_pow_two_sub_one_eq_mod c 4
  have h2 : c >>> 4 = c / 16 := by rw [Nat.shiftRight_eq_div_pow]
  have h3 : (c >>> 4) &&& 0xF = c / 16 := by
    have : (c >>> 4) &&& 0xF = (c >>> 4) % 16 := Nat.and_pow_two_sub_one_eq_mod _ 4
    rw [this, h2]
    omega
  refine ⟨?_, h3, h1, h2⟩
  rw [h3, h1, Nat.shiftLeft_eq, Nat.mul_comm]
  have hlt : c / 16 < 2 ^ 4 := by omega
  have := Nat.mul_add_lt_is_or hlt (c % 16)
  rw [← this, Nat.mul_comm]

/-- Claim C8. A plane code byte `c` gives `col_len = (c >> 4) & 0xF` and
`repl_len = c & 0xF`, except that for `16 ≤ revcode ≤ 47` it gives `col_len = 0` and
`repl_len = revcode`; the escape fires exactly when the low nibble is 1 or 2, and
the loops of the first row and of the later rows both decode their code byte
with this rule. -/
theorem plane_code_rule (c : Nat) (hc : c < 256) :
    (¬ (16 ≤ ((c &&& 0xF) <<< 4) ||| (c >>> 4) ∧ ((c &&& 0xF) <<< 4) ||| (c >>> 4) ≤ 47) →
      plane_code c = ((c >>> 4) &&& 0xF, c &&& 0xF)) ∧
    ((16 ≤ ((c &&& 0xF) <<< 4) ||| (c >>> 4) ∧ ((c &&& 0xF) <<< 4) ||| (c >>> 4) ≤ 47) →
      plane_code c = (0, ((c &&& 0xF) <<< 4) ||| (c >>> 4))) ∧
    ((16 ≤ ((c &&& 0xF) <<< 4) ||| (c >>> 4) ∧ ((c &&& 0xF) <<< 4) ||| (c >>> 4) ≤ 47) ↔
      (c &&& 0xF = 1 ∨ c &&& 0xF = 2)) ∧
    (∀ (width fuel : Nat) (s : Plane) (rest : List Nat), s.input = c :: rest →
      s.indexw < width →
      first_row width (fuel + 1) s
        = (first_raw (plane_code c).1 { s with input := rest } >>= fun t =>
            first_repl (plane_code c).2 t >>= first_row width fuel)) ∧
    (∀ (width last_line fuel : Nat) (s : Plane) (rest : List Nat), s.input = c :: rest →
      s.indexw < width →
      later_row width last_line (fuel + 1) s
        = (later_delta last_line (plane_code c).1 { s with input := rest } >>= fun t =>
            later_repl last_line (plane_code c).2 t >>= later_row width last_line fuel)) := by
  obtain ⟨hrev, h3, h1, h2⟩ := revcode_eq hc
  have hrev' : ((c &&& 0xF) <<< 4) ||| (c >>> 4) = (c % 16) * 16 + c / 16 := by
    rw [← hrev, h3, h2]
  have h4 : (c >>> 4) &&& 0xF = c >>> 4 := h3.trans h2.symm
  have hdef : plane_code c
      = if ((c &&& 0xF) <<< 4) ||| (c >>> 4) ≤ 47 ∧ 16 ≤ ((c &&& 0xF) <<< 4) ||| (c >>> 4)
        then (0, ((c &&& 0xF) <<< 4) ||| (c >>> 4)) else ((c >>> 4) &&& 0xF, c &&& 0xF) := by
    unfold plane_code
    simp only [h4]
  refine ⟨?_, ?_, ?_, ?_, ?_⟩
  · intro h
    rw [hdef, if_neg (fun h' => h ⟨h'.2, h'.1⟩)]
  · intro h
    rw [hdef, if_pos ⟨h.2, h.1⟩]
  · rw [hrev', h1]
    omega
  · intro width fuel s rest hin hw
    simp [first_row, hw, hin, Nat.mod_eq_of_lt hc]
  · intro width last_line fuel s rest hin hw
    simp [later_row, hw, hin, Nat.mod_eq_of_lt hc]

theorem plane_code_rule_witness :
    plane_code 0x21 = (0, ((0x21 &&& 0xF) <<< 4) ||| (0x21 >>> 4)) :=
  (plane_code_rule 0x21 (by decide)).2.1 (by decide)

theorem zigzag_eq (d : Nat) :
    zigzag d = if d % 2 = 1 then -((d / 2 : Nat) : Int) - 1 else ((d / 2 : Nat) : Int) := by
  have h1 : d &&& 1 = d % 2 := Nat.and_pow_two_sub_one_eq_mod d 1
  have h2 : d >>> 1 = d / 2 := by rw [Nat.shiftRight_eq_div_pow, Nat.pow_one]
  unfold zigzag
  rw [h1, h2]
  by_cases h : d % 2 = 1
  · rw [if_pos (by omega), if_pos h]
    push_cast
    omega
  · rw [if_neg (by omega), if_neg h]

/-- Claim C10. The zigzag decoding of the delta bytes maps 0, 1, 2, 3 to 0, -1, 1, -2,
is a bijection from the bytes onto the signed deltas -128..127, and for every
previous-row byte `p` and target byte `t` exactly one delta byte `d` gives
`(p + zigzag d) mod 256 = t`. -/
theorem zigzag_bijection :
    (zigzag 0x00 = 0 ∧ zigzag 0x01 = -1 ∧ zigzag 0x02 = 1 ∧ zigzag 0x03 = -2) ∧
    (∀ d, d < 256 → -128 ≤ zigzag d ∧ zigzag d ≤ 127) ∧
    (∀ d e, d < 256 → e < 256 → zigzag d = zigzag e → d = e) ∧
    (∀ z : Int, -128 ≤ z → z ≤ 127 → ∃ d, d < 256 ∧ zigzag d = z) ∧
    (∀ p t : Nat, p < 256 → t < 256 →
      ∃! d, d < 256 ∧ (((p : Int) + zigzag d) % 256).toNat = t) := by
  refine ⟨⟨by decide, by decide, by decide, by decide⟩, ?_, ?_, ?_, ?_⟩
  · intro d hd
    rw [zigzag_eq]
    split <;> omega
  · intro d e hd he h
    rw [zigzag_eq, zigzag_eq] at h
    split at h <;> split at h <;> omega
  · intro z h1 h2
    by_cases hz : 0 ≤ z
    · refine ⟨(2 * z).toNat, by omega, ?_⟩
      rw [zigzag_eq]
      split <;> omega
    · refine ⟨(-2 * z - 1).toNat, by omega, ?_⟩
      rw [zigzag_eq]
      split <;> omega
  · intro p t hp ht
    have key : ∀ d, d < 256 →
        ((((p : Int) + zigzag d) % 256).toNat = t ↔
          zigzag d = (if ((t : Int) - p) % 256 < 128 then ((t : Int) - p) % 256
            else ((t : Int) - p) % 256 - 256)) := by
      intro d hd
      rw [zigzag_eq]
      split <;> split <;> omega
    by_cases hk : ((t : Int) - p) % 256 < 128
    · refine ⟨(2 * (((t : Int) - p) % 256)).toNat, ⟨by omega, ?_⟩, ?_⟩
      · rw [key _ (by omega), if_pos hk, zigzag_eq]
        split <;> omega
      · intro e ⟨he, h⟩
        rw [key e he, if_pos hk, zigzag_eq] at h
        split at h <;> omega
    · refine ⟨(2 * (256 - ((t : Int) - p) % 256) - 1).toNat, ⟨by omega, ?_⟩, ?_⟩
      · rw [key _ (by omega), if_neg hk, zigzag_eq]
        split <;> omega
      · intro e ⟨he, h⟩
        rw [key e he, if_neg hk, zigzag_eq] at h
        split at h <;> omega

theorem decompress4_ok (output : List Nat) (width height : Nat) (input : List Nat)
    (size : Int) (res : List Nat) :
    bitmap_decompress4 output width height input size = .ok res ↔
      ∃ b rest n1 o1 n2 o2 n3 o3 n4,
        input = b :: rest ∧ b % 256 = 0x10 ∧
        process_plane rest width height 3 output = .ok (n1, o1) ∧
        process_plane (rest.drop n1) width height 2 o1 = .ok (n2, o2) ∧
        process_plane ((rest.drop n1).drop n2) width height 1 o2 = .ok (n3, o3) ∧
        process_plane (((rest.drop n1).drop n2).drop n3) width height 0 o3 = .ok (n4, res) ∧
        size = 1 + (n1 : Int) + n2 + n3 + n4 := by
  cases input with
  | nil =>
    constructor
    · intro h
      simp [bitmap_decompress4] at h
    · rintro ⟨b, rest, _, _, _, _, _, _, _, h, _⟩
      simp at h
  | cons b rest =>
    unfold bitmap_decompress4
    simp only [CVAL_cons, ok_bind]
    by_cases hb : b % 256 = 0x10
    · rw [if_neg (by simp [hb])]
      constructor
      · intro h
        obtain ⟨⟨n1, o1⟩, h1, h⟩ := bind_eq_ok.mp h
        obtain ⟨⟨n2, o2⟩, h2, h⟩ := bind_eq_ok.mp h
        obtain ⟨⟨n3, o3⟩, h3, h⟩ := bind_eq_ok.mp h
        obtain ⟨⟨n4, o4⟩, h4, h⟩ := bind_eq_ok.mp h
        simp only at h1 h2 h3 h4 h
        split at h
        · rename_i hs
          simp only [Except.ok.injEq] at h
          subst h
          exact ⟨b, rest, n1, o1, n2, o2, n3, o3, n4, rfl, hb, h1, h2, h3, h4, hs⟩
        · simp at h
      · rintro ⟨b', rest', n1, o1, n2, o2, n3, o3, n4, hin, _, h1, h2, h3, h4, hs⟩
        simp only [List.cons.injEq] at hin
        obtain ⟨rfl, rfl⟩ := hin
        rw [h1]
        simp only [ok_bind]
        rw [h2]
        simp only [ok_bind]
        rw [h3]
        simp only [ok_bind]
        rw [h4]
        simp only [ok_bind]
        rw [if_pos hs]
    · rw [if_pos (by simpa using hb)]
      constructor
      · intro h
        simp at h
      · rintro ⟨b', rest', _, _, _, _, _, _, _, hin, hb', _⟩
        simp only [List.cons.injEq] at hin
        obtain ⟨rfl, rfl⟩ := hin
        exact absurd hb' hb

/-- Claim C6. `bitmap_decompress4` returns `True` if and only if the first input byte is
`0x10` and 1 plus the byte counts of the four `process_plane` calls, each on the
input where the previous one stopped, equals `size`; with another first byte it
returns `False` whatever follows. -/
theorem decompress4_iff (output : List Nat) (width height : Nat) (input : List Nat)
    (size : Int) :
    (∀ res, bitmap_decompress4 output width height input size = .ok res ↔
      ∃ b rest n1 o1 n2 o2 n3 o3 n4,
        input = b :: rest ∧ b % 256 = 0x10 ∧
        process_plane rest width height 3 output = .ok (n1, o1) ∧
        process_plane (rest.drop n1) width height 2 o1 = .ok (n2, o2) ∧
        process_plane ((rest.drop n1).drop n2) width height 1 o2 = .ok (n3, o3) ∧
        process_plane (((rest.drop n1).drop n2).drop n3) width height 0 o3 = .ok (n4, res) ∧
        size = 1 + (n1 : Int) + n2 + n3 + n4) ∧
    (∀ b rest, input = b :: rest → b % 256 ≠ 0x10 →
      bitmap_decompress4 output width height input size = .error .returnFalse) := by
  constructor
  · intro res
    exact decompress4_ok output width height input size res
  · intro b rest hin hb
    subst hin
    unfold bitmap_decompress4
    simp only [CVAL_cons, ok_bind]
    rw [if_pos (by simpa using hb)]

theorem later_repl_succ (last_line replen : Nat) (s : Plane) (a : Nat)
    (ha : s.buffer[last_line + s.indexw * 4]? = some a) (hout : s.out < s.buffer.length) :
    later_repl last_line (replen + 1) s
      = later_repl last_line replen
          { s with buffer := s.buffer.set s.out (((a : Int) + s.color) % 256).toNat,
                   out := s.out + 4, indexw := s.indexw + 1 } := by
  simp [later_repl, Plane.last, Plane.put, ha, hout]

theorem later_delta_succ (last_line collen : Nat) (s : Plane) (d a : Nat) (rest : List Nat)
    (hin : s.input = d :: rest)
    (ha : s.buffer[last_line + s.indexw * 4]? = some a) (hout : s.out < s.buffer.length) :
    later_delta last_line (collen + 1) s
      = later_delta last_line collen
          { input := rest,
            buffer := s.buffer.set s.out (((a : Int) + zigzag (d % 256)) % 256).toNat,
            out := s.out + 4, indexw := s.indexw + 1, color := zigzag (d % 256) } := by
  simp [later_delta, Plane.last, Plane.put, hin, ha, hout]

theorem later_repl_inv {B : List Nat} {o width : Nat} (hB : ∀ v ∈ B, v < 256)
    (hb : ∀ i, i < width → o + 4 * width + 4 * i < B.length) :
    ∀ (r : Nat) (t : Plane) (n : Nat), RowInv B o width n t → n + r ≤ width →
      ∃ t', later_repl (o + 4 * width) r t = .ok t' ∧ RowInv B o width (n + r) t' ∧
        t'.input = t.input := by
  intro r
  induction r with
  | zero =>
    intro t n ht _
    exact ⟨t, rfl, ht, rfl⟩
  | succ r ih =>
    intro t n ht hn
    obtain ⟨h1, h2, h3, h4, h5, h6⟩ := ht
    have hlt := hb n (by omega)
    have hget : t.buffer[o + 4 * width + t.indexw * 4]? = some B[o + 4 * width + 4 * n] := by
      rw [h2, h6 _ (by omega)]
      have : o + 4 * width + n * 4 = o + 4 * width + 4 * n := by omega
      rw [this, List.getElem?_eq_getElem hlt]
    have ha : B[o + 4 * width + 4 * n] < 256 := hB _ (List.getElem_mem _)
    rw [later_repl_succ _ _ _ _ hget (by omega)]
    have hval : (((B[o + 4 * width + 4 * n] : Nat) : Int) + t.color) % 256
        = ((B[o + 4 * width + 4 * n] : Nat) : Int) := by
      rw [h3]; omega
    rw [hval, Int.toNat_ofNat]
    have hinv2 : RowInv B o width (n + 1)
        { t with buffer := t.buffer.set t.out B[o + 4 * width + 4 * n],
                 out := t.out + 4, indexw := t.indexw + 1 } := by
      refine ⟨?_, ?_, h3, ?_, ?_, ?_⟩
      · show t.out + 4 = o + 4 * (n + 1); omega
      · show t.indexw + 1 = n + 1; omega
      · show (t.buffer.set t.out _).length = B.length
        rw [List.length_set]; exact h4
      · intro i hi
        show (t.buffer.set t.out _)[o + 4 * i]? = _
        by_cases hin : i = n
        · subst hin
          rw [h1, List.getElem?_set, if_pos rfl, if_pos (by omega),
            List.getElem?_eq_getElem hlt]
        · rw [List.getElem?_set_ne (by omega)]
          exact h5 i (by omega)
      · intro j hj
        show (t.buffer.set t.out _)[j]? = _
        rw [List.getElem?_set_ne (by omega)]
        exact h6 j hj
    obtain ⟨t', ht', hinv, hin⟩ := ih _ (n + 1) hinv2 (by omega)
    refine ⟨t', ht', ?_, hin⟩
    have : n + (r + 1) = n + 1 + r := by omega
    rw [this]
    exact hinv

theorem later_row_inv {B : List Nat} {o width : Nat} (rest : List Nat)
    (hB : ∀ v ∈ B, v < 256)
    (hb : ∀ i, i < width → o + 4 * width + 4 * i < B.length) :
    ∀ (cs : List Nat) (t : Plane) (n fuel : Nat), RowInv B o width n t →
      t.input = cs ++ rest →
      (∀ c ∈ cs, c < 256 ∧ (plane_code c).1 = 0 ∧ 0 < (plane_code c).2) →
      n + (cs.map (fun c => (plane_code c).2)).sum = width → cs.length < fuel →
      ∃ t', later_row width (o + 4 * width) fuel t = .ok t' ∧ RowInv B o width width t' ∧
        t'.input = rest := by
  intro cs
  induction cs with
  | nil =>
    intro t n fuel ht hin _ hsum hf
    simp only [List.map_nil, List.sum_nil, Nat.add_zero] at hsum
    subst hsum
    cases fuel with
    | zero => omega
    | succ f =>
      refine ⟨t, ?_, ht, hin⟩
      unfold later_row
      rw [if_neg (by rw [ht.2.1]; omega)]
  | cons c cs ih =>
    intro t n fuel ht hin hcs hsum hf
    simp only [List.map_cons, List.sum_cons] at hsum
    simp only [List.length_cons] at hf
    obtain ⟨hc, hcol, hrep⟩ := hcs c (List.mem_cons_self c cs)
    cases fuel with
    | zero => omega
    | succ f =>
      have hstep : later_row width (o + 4 * width) (f + 1) t
          = (later_repl (o + 4 * width) (plane_code c).2 { t with input := cs ++ rest }
              >>= later_row width (o + 4 * width) f) := by
        have hw : t.indexw < width := by rw [ht.2.1]; omega
        simp [later_row, hw, hin, Nat.mod_eq_of_lt hc, hcol, later_delta]
      obtain ⟨t1, ht1, hinv1, hin1⟩ := later_repl_inv hB hb (plane_code c).2
        { t with input := cs ++ rest } n ht (by omega)
      rw [hstep, ht1]
      simp only [ok_bind]
      exact ih t1 (n + (plane_code c).2) f hinv1 hin1
        (fun c' hc' => hcs c' (List.mem_cons_of_mem c hc')) (by omega) (by omega)

theorem row_start_prev {W H org indexh : Nat} (hi : 1 ≤ indexh) (hH : indexh < H) :
    row_start W H org (indexh - 1) = row_start W H org indexh + 4 * W ∧
    (org < 4 → ∀ i, i < W → row_start W H org indexh + 4 * W + 4 * i < W * H * 4) := by
  unfold row_start
  have h1 : (indexh + 1) * W ≤ H * W := Nat.mul_le_mul_right W (by omega)
  have h2 : (indexh - 1 + 1) * W = indexh * W := by
    have : indexh - 1 + 1 = indexh := by omega
    rw [this]
  have h3 : (indexh + 1) * W = indexh * W + W := Nat.succ_mul indexh W
  have h4 : 1 * W ≤ indexh * W := Nat.mul_le_mul_right W hi
  have h5 : W * H = H * W := Nat.mul_comm W H
  rw [h2, h3, h5]
  rw [h3] at h1
  constructor
  · omega
  · intro horg i hiw
    omega

/-- Claim C9. On a row after the first decoded one, a delta byte `d` sets `color` to
`d >> 1` when `d` is even and to `-((d >> 1) + 1)` when it is odd, and the byte
stored at column `i` is `(prev_row[i] + color) mod 256`; each repeated pixel is
`(prev_row[i] + color) mod 256` at its own column with the last `color`; `color`
is 0 when a row starts, so a row made of repeat codes only, of total length
`W`, equals the row decoded before it. -/
theorem later_row_rule (W H org indexh : Nat) (s : Plane) (cs rest : List Nat)
    (hi : 1 ≤ indexh) (hH : indexh < H) (horg : org < 4)
    (hlen : s.buffer.length = W * H * 4) (hbytes : ∀ v ∈ s.buffer, v < 256)
    (hin : s.input = cs ++ rest)
    (hcs : ∀ c ∈ cs, c < 256 ∧ (plane_code c).1 = 0 ∧ 0 < (plane_code c).2)
    (hsum : (cs.map (fun c => (plane_code c).2)).sum = W) :
    (∀ d : Nat, zigzag d
      = if d % 2 = 0 then ((d >>> 1 : Nat) : Int) else -(((d >>> 1) + 1 : Nat) : Int)) ∧
    (∀ (last_line collen : Nat) (p : Plane) (d a : Nat) (tl : List Nat),
      p.input = d :: tl → p.buffer[last_line + p.indexw * 4]? = some a →
      p.out < p.buffer.length →
      later_delta last_line (collen + 1) p
        = later_delta last_line collen
            { input := tl,
              buffer := p.buffer.set p.out (((a : Int) + zigzag (d % 256)) % 256).toNat,
              out := p.out + 4, indexw := p.indexw + 1, color := zigzag (d % 256) }) ∧
    (∀ (last_line replen : Nat) (p : Plane) (a : Nat),
      p.buffer[last_line + p.indexw * 4]? = some a → p.out < p.buffer.length →
      later_repl last_line (replen + 1) p
        = later_repl last_line replen
            { p with buffer := p.buffer.set p.out (((a : Int) + p.color) % 256).toNat,
                     out := p.out + 4, indexw := p.indexw + 1 }) ∧
    (∀ (last_line : Nat) (p : Plane),
      plane_row W H org indexh (some last_line) p
        = later_row W last_line (p.input.length + 1)
            { p with out := row_start W H org indexh, color := 0, indexw := 0 }) ∧
    (∃ t, plane_row W H org indexh (some (row_start W H org (indexh - 1))) s = .ok t ∧
      t.input = rest ∧
      ∀ i, i < W → t.buffer[row_start W H org indexh + 4 * i]?
        = s.buffer[row_start W H org (indexh - 1) + 4 * i]?) := by
  refine ⟨?_, ?_, ?_, ?_, ?_⟩
  · intro d
    have h1 : d &&& 1 = d % 2 := Nat.and_pow_two_sub_one_eq_mod d 1
    unfold zigzag
    rw [h1]
    by_cases h : d % 2 = 0
    · rw [if_neg (by omega), if_pos h]
    · rw [if_pos (by omega), if_neg h]
  · intro last_line collen p d a tl h1 h2 h3
    exact later_delta_succ last_line collen p d a tl h1 h2 h3
  · intro last_line replen p a h1 h2
    exact later_repl_succ last_line replen p a h1 h2
  · intro last_line p
    rfl
  · obtain ⟨hprev, hbound⟩ := @row_start_prev W H org indexh hi hH
    have hb : ∀ i, i < W → row_start W H org indexh + 4 * W + 4 * i < s.buffer.length := by
      rw [hlen]; exact hbound horg
    have hinv0 : RowInv s.buffer (row_start W H org indexh) W 0
        { s with out := row_start W H org indexh, color := 0, indexw := 0 } :=
      ⟨rfl, rfl, rfl, rfl, fun i hi0 => absurd hi0 (Nat.not_lt_zero i), fun _ _ => rfl⟩
    obtain ⟨t, ht, hinv, htin⟩ := later_row_inv rest hbytes hb cs _ 0 (s.input.length + 1)
      hinv0 hin hcs (by omega) (by rw [hin, List.length_append]; omega)
    refine ⟨t, ?_, htin, ?_⟩
    · rw [hprev]
      exact ht
    · intro i hiw
      rw [hprev]
      exact hinv.2.2.2.2.1 i hiw

theorem later_row_rule_witness :
    ∃ t, plane_row 3 2 0 1 (some (row_start 3 2 0 (1 - 1)))
        { input := [0x03, 9],
          buffer := [0, 0, 0, 0, 0, 0, 0, 0, 0, 0, 0, 0, 5, 0, 0, 0, 6, 0, 0, 0, 7, 0, 0, 0],
          out := 0, indexw := 0, color := 0 } = .ok t ∧
      t.input = [9] ∧
      ∀ i, i < 3 → t.buffer[row_start 3 2 0 1 + 4 * i]?
        = [0, 0, 0, 0, 0, 0, 0, 0, 0, 0, 0, 0, 5, 0, 0, 0, 6, 0, 0, 0, 7, 0, 0, 0][
            row_start 3 2 0 (1 - 1) + 4 * i]? :=
  (later_row_rule 3 2 0 1
    { input := [0x03, 9],
      buffer := [0, 0, 0, 0, 0, 0, 0, 0, 0, 0, 0, 0, 5, 0, 0, 0, 6, 0, 0, 0, 7, 0, 0, 0],
      out := 0, indexw := 0, color := 0 } [0x03] [9]
    (by decide) (by decide) (by decide) rfl (by decide) rfl (by decide) (by decide)).2.2.2.2

/-! ### The conversion loops -/

theorem for_loop_succ (n : Nat) (body : Nat → List Nat → Except Stop (List Nat))
    (out : List Nat) :
    for_loop (n + 1) body out = (for_loop n body out >>= body n) := by
  unfold for_loop
  rw [List.range_succ, List.foldlM_append]
  apply bind_congr_ok
  intro mid _
  simp [List.foldlM]

theorem put_ok {output res : List Nat} {i v : Nat} (h : put output i v = .ok res) :
    i < output.length ∧ res = output.set i v := by
  unfold put at h
  split at h
  · rename_i hi
    simp only [Except.ok.injEq] at h
    exact ⟨hi, h.symm⟩
  · simp at h

theorem put_rgba_ok {output res : List Nat} {output_width y x r g b a : Nat}
    (h : put_rgba output output_width y x r g b a = .ok res) :
    res.length = output.length ∧
    res[(y * output_width + x) * 4 + 0]? = some r ∧
    res[(y * output_width + x) * 4 + 1]? = some g ∧
    res[(y * output_width + x) * 4 + 2]? = some b ∧
    res[(y * output_width + x) * 4 + 3]? = some a ∧
    (∀ j, j / 4 ≠ y * output_width + x → res[j]? = output[j]?) := by
  unfold put_rgba at h
  obtain ⟨o1, h1, h⟩ := bind_eq_ok.mp h
  obtain ⟨o2, h2, h⟩ := bind_eq_ok.mp h
  obtain ⟨o3, h3, h⟩ := bind_eq_ok.mp h
  obtain ⟨l1, rfl⟩ := put_ok h1
  obtain ⟨l2, rfl⟩ := put_ok h2
  obtain ⟨l3, rfl⟩ := put_ok h3
  obtain ⟨l4, rfl⟩ := put_ok h
  simp only [List.length_set] at l2 l3 l4 ⊢
  refine ⟨trivial, ?_, ?_, ?_, ?_, ?_⟩
  · rw [List.getElem?_set_ne (by omega), List.getElem?_set_ne (by omega),
      List.getElem?_set_ne (by omega), List.getElem?_set, if_pos rfl, if_pos l1]
  · rw [List.getElem?_set_ne (by omega), List.getElem?_set_ne (by omega),
      List.getElem?_set, if_pos rfl, if_pos (by simpa using l2)]
  · rw [List.getElem?_set_ne (by omega), List.getElem?_set, if_pos rfl,
      if_pos (by simpa using l3)]
  · rw [List.getElem?_set, if_pos rfl, if_pos (by simpa using l4)]
  · intro j hj
    rw [List.getElem?_set_ne (by omega), List.getElem?_set_ne (by omega),
      List.getElem?_set_ne (by omega), List.getElem?_set_ne (by omega)]

theorem convert_row (pixel : Nat → Nat → Except Stop (Nat × Nat × Nat × Nat))
    (output_width y : Nat) :
    ∀ (n : Nat) (out res : List Nat),
      for_loop n (fun x output => do
        let (r, g, b, a) ← pixel y x
        put_rgba output output_width y x r g b a) out = .ok res →
      res.length = out.length ∧
      (∀ x, x < n → ∃ r g b a, pixel y x = .ok (r, g, b, a) ∧
        res[(y * output_width + x) * 4 + 0]? = some r ∧
        res[(y * output_width + x) * 4 + 1]? = some g ∧
        res[(y * output_width + x) * 4 + 2]? = some b ∧
        res[(y * output_width + x) * 4 + 3]? = some a) ∧
      (∀ j, (∀ x, x < n → j / 4 ≠ y * output_width + x) → res[j]? = out[j]?) := by
  intro n
  induction n with
  | zero =>
    intro out res h
    simp only [for_loop, List.range_zero, List.foldlM_nil] at h
    have : res = out := by
      have h' : (Except.ok out : Except Stop (List Nat)) = Except.ok res := h
      simp only [Except.ok.injEq] at h'
      exact h'.symm
    subst this
    exact ⟨rfl, fun x hx => absurd hx (Nat.not_lt_zero x), fun _ _ => rfl⟩
  | succ n ih =>
    intro out res h
    rw [for_loop_succ] at h
    obtain ⟨mid, hmid, h⟩ := bind_eq_ok.mp h
    obtain ⟨hl, hpix, hfr⟩ := ih out mid hmid
    obtain ⟨⟨r, g, b, a⟩, hp, h⟩ := bind_eq_ok.mp h
    obtain ⟨k0, k1, k2, k3, k4, k5⟩ := put_rgba_ok h
    refine ⟨k0.trans hl, ?_, ?_⟩
    · intro x hx
      by_cases hxn : x = n
      · subst hxn
        exact ⟨r, g, b, a, hp, k1, k2, k3, k4⟩
      · obtain ⟨r', g', b', a', hp', m1, m2, m3, m4⟩ := hpix x (by omega)
        refine ⟨r', g', b', a', hp', ?_, ?_, ?_, ?_⟩
        · rw [k5 _ (by omega)]; exact m1
        · rw [k5 _ (by omega)]; exact m2
        · rw [k5 _ (by omega)]; exact m3
        · rw [k5 _ (by omega)]; exact m4
    · intro j hj
      rw [k5 j (hj n (by omega))]
      exact hfr j (fun x hx => hj x (by omega))

/-- What the conversion loops leave in the output buffer: the four bytes of every
pixel of the overlap are the values computed for it, every other byte is as it
was. -/
theorem convert_ok (pixel : Nat → Nat → Except Stop (Nat × Nat × Nat × Nat))
    (output_width cols : Nat) (hc : cols ≤ output_width) :
    ∀ (rows : Nat) (out res : List Nat),
      convert pixel output_width rows cols out = .ok res →
      res.length = out.length ∧
      (∀ y x, y < rows → x < cols → ∃ r g b a, pixel y x = .ok (r, g, b, a) ∧
        res[(y * output_width + x) * 4 + 0]? = some r ∧
        res[(y * output_width + x) * 4 + 1]? = some g ∧
        res[(y * output_width + x) * 4 + 2]? = some b ∧
        res[(y * output_width + x) * 4 + 3]? = some a) ∧
      (∀ j, (∀ y x, y < rows → x < cols → j / 4 ≠ y * output_width + x) →
        res[j]? = out[j]?) := by
  intro rows
  induction rows with
  | zero =>
    intro out res h
    simp only [convert, for_loop, List.range_zero, List.foldlM_nil] at h
    have : res = out := by
      have h' : (Except.ok out : Except Stop (List Nat)) = Except.ok res := h
      simp only [Except.ok.injEq] at h'
      exact h'.symm
    subst this
    exact ⟨rfl, fun y x hy => absurd hy (Nat.not_lt_zero y), fun _ _ => rfl⟩
  | succ rows ih =>
    intro out res h
    unfold convert at h
    rw [for_loop_succ] at h
    obtain ⟨mid, hmid, h⟩ := bind_eq_ok.mp h
    obtain ⟨hl, hpix, hfr⟩ := ih out mid hmid
    obtain ⟨k0, k1, k2⟩ := convert_row pixel output_width rows cols mid res h
    refine ⟨k0.trans hl, ?_, ?_⟩
    · intro y x hy hx
      by_cases hyn : y = rows
      · subst hyn
        exact k1 x hx
      · obtain ⟨r', g', b', a', hp', m1, m2, m3, m4⟩ := hpix y x (by omega) hx
        have hlt : (y + 1) * output_width ≤ rows * output_width :=
          Nat.mul_le_mul_right _ (by omega)
        rw [Nat.succ_mul] at hlt
        have hne : ∀ k, k < 4 → ∀ x', x' < cols →
            ((y * output_width + x) * 4 + k) / 4 ≠ rows * output_width + x' := by
          intro k hk x' hx'
          omega
        refine ⟨r', g', b', a', hp', ?_, ?_, ?_, ?_⟩
        · rw [k2 _ (hne 0 (by omega))]; exact m1
        · rw [k2 _ (hne 1 (by omega))]; exact m2
        · rw [k2 _ (hne 2 (by omega))]; exact m3
        · rw [k2 _ (hne 3 (by omega))]; exact m4
    · intro j hj
      rw [k2 j (fun x hx => hj rows x (by omega) hx)]
      exact hfr j (fun y x hy hx => hj y x (by omega) hx)

/-! ### Planes do not disturb each other -/

theorem plane_put_frame {c : Nat} {B : List Nat} {t t' : Plane} {v : Int}
    (h : t.put v = .ok t') (hf : PlaneFrame c B t) :
    PlaneFrame c B { t' with out := t'.out + 4, indexw := t'.indexw + 1 } := by
  unfold Plane.put at h
  split at h
  · simp only [Except.ok.injEq] at h
    subst h
    obtain ⟨h1, h2⟩ := hf
    refine ⟨?_, ?_⟩
    · show (t.out + 4) % 4 = c
      omega
    · intro j hj
      show (t.buffer.set t.out _)[j]? = _
      rw [List.getElem?_set_ne (by omega)]
      exact h2 j hj
  · simp at h

theorem first_raw_frame {c : Nat} {B : List Nat} :
    ∀ (n : Nat) (t t' : Plane), first_raw n t = .ok t' → PlaneFrame c B t →
      PlaneFrame c B t' := by
  intro n
  induction n with
  | zero =>
    intro t t' h hf
    simp only [first_raw, Except.ok.injEq] at h
    subst h
    exact hf
  | succ n ih =>
    intro t t' h hf
    unfold first_raw at h
    obtain ⟨⟨b, input⟩, _, h⟩ := bind_eq_ok.mp h
    obtain ⟨u, hu, h⟩ := bind_eq_ok.mp h
    exact ih _ t' h (plane_put_frame hu hf)

theorem first_repl_frame {c : Nat} {B : List Nat} :
    ∀ (n : Nat) (t t' : Plane), first_repl n t = .ok t' → PlaneFrame c B t →
      PlaneFrame c B t' := by
  intro n
  induction n with
  | zero =>
    intro t t' h hf
    simp only [first_repl, Except.ok.injEq] at h
    subst h
    exact hf
  | succ n ih =>
    intro t t' h hf
    unfold first_repl at h
    obtain ⟨u, hu, h⟩ := bind_eq_ok.mp h
    exact ih _ t' h (plane_put_frame hu hf)

theorem later_delta_frame {c : Nat} {B : List Nat} (last_line : Nat) :
    ∀ (n : Nat) (t t' : Plane), later_delta last_line n t = .ok t' → PlaneFrame c B t →
      PlaneFrame c B t' := by
  intro n
  induction n with
  | zero =>
    intro t t' h hf
    simp only [later_delta, Except.ok.injEq] at h
    subst h
    exact hf
  | succ n ih =>
    intro t t' h hf
    unfold later_delta at h
    obtain ⟨⟨b, input⟩, _, h⟩ := bind_eq_ok.mp h
    obtain ⟨a, _, h⟩ := bind_eq_ok.mp h
    obtain ⟨u, hu, h⟩ := bind_eq_ok.mp h
    exact ih _ t' h (plane_put_frame hu hf)

theorem later_repl_frame {c : Nat} {B : List Nat} (last_line : Nat) :
    ∀ (n : Nat) (t t' : Plane), later_repl last_line n t = .ok t' → PlaneFrame c B t →
      PlaneFrame c B t' := by
  intro n
  induction n with
  | zero =>
    intro t t' h hf
    simp only [later_repl, Except.ok.injEq] at h
    subst h
    exact hf
  | succ n ih =>
    intro t t' h hf
    unfold later_repl at h
    obtain ⟨a, _, h⟩ := bind_eq_ok.mp h
    obtain ⟨u, hu, h⟩ := bind_eq_ok.mp h
    exact ih _ t' h (plane_put_frame hu hf)

theorem first_row_frame {c : Nat} {B : List Nat} (width : Nat) :
    ∀ (fuel : Nat) (t t' : Plane), first_row width fuel t = .ok t' → PlaneFrame c B t →
      PlaneFrame c B t' := by
  intro fuel
  induction fuel with
  | zero => intro t t' h; simp [first_row] at h
  | succ fuel ih =>
    intro t t' h hf
    unfold first_row at h
    split at h
    · obtain ⟨⟨code, input⟩, _, h⟩ := bind_eq_ok.mp h
      obtain ⟨u, hu, h⟩ := bind_eq_ok.mp h
      obtain ⟨v, hv, h⟩ := bind_eq_ok.mp h
      exact ih v t' h (first_repl_frame _ u v hv (first_raw_frame _ _ u hu hf))
    · simp only [Except.ok.injEq] at h
      subst h
      exact hf

theorem later_row_frame {c : Nat} {B : List Nat} (width last_line : Nat) :
    ∀ (fuel : Nat) (t t' : Plane), later_row width last_line fuel t = .ok t' →
      PlaneFrame c B t → PlaneFrame c B t' := by
  intro fuel
  induction fuel with
  | zero => intro t t' h; simp [later_row] at h
  | succ fuel ih =>
    intro t t' h hf
    unfold later_row at h
    split at h
    · obtain ⟨⟨code, input⟩, _, h⟩ := bind_eq_ok.mp h
      obtain ⟨u, hu, h⟩ := bind_eq_ok.mp h
      obtain ⟨v, hv, h⟩ := bind_eq_ok.mp h
      exact ih v t' h (later_repl_frame _ _ u v hv (later_delta_frame _ _ _ u hu hf))
    · simp only [Except.ok.injEq] at h
      subst h
      exact hf

theorem row_start_mod {W H org indexh : Nat} (hH : indexh < H) (horg : org < 4) :
    row_start W H org indexh % 4 = org := by
  unfold row_start
  have h1 : (indexh + 1) * W ≤ H * W := Nat.mul_le_mul_right W (by omega)
  have h5 : W * H = H * W := Nat.mul_comm W H
  rw [h5]
  omega

theorem plane_rows_frame {c : Nat} {B : List Nat} (width height : Nat) (hc : c < 4) :
    ∀ (fuel indexh : Nat) (last_line : Option Nat) (t t' : Plane),
      plane_rows width height c fuel indexh last_line t = .ok t' →
      (∀ j, j % 4 ≠ c → t.buffer[j]? = B[j]?) →
      (∀ j, j % 4 ≠ c → t'.buffer[j]? = B[j]?) := by
  intro fuel
  induction fuel with
  | zero => intro indexh last_line t t' h; simp [plane_rows] at h
  | succ fuel ih =>
    intro indexh last_line t t' h hf
    unfold plane_rows at h
    split at h
    · rename_i hlt
      obtain ⟨u, hu, h⟩ := bind_eq_ok.mp h
      have hstart : PlaneFrame c B
          { t with out := row_start width height c indexh, color := 0, indexw := 0 } :=
        ⟨row_start_mod hlt hc, hf⟩
      have hfu : PlaneFrame c B u := by
        unfold plane_row at hu
        cases last_line with
        | none => exact first_row_frame width _ _ u hu hstart
        | some l => exact later_row_frame width l _ _ u hu hstart
      exact ih _ _ u t' h hfu.2
    · simp only [Except.ok.injEq] at h
      subst h
      exact hf

theorem process_plane_frame {input B B' : List Nat} {width height c n : Nat} (hc : c < 4)
    (h : process_plane input width height c B = .ok (n, B')) :
    ∀ j, j % 4 ≠ c → B'[j]? = B[j]? := by
  unfold process_plane at h
  obtain ⟨t, ht, h⟩ := bind_eq_ok.mp h
  simp only [Except.ok.injEq, Prod.mk.injEq] at h
  rw [← h.2]
  exact plane_rows_frame width height hc _ _ _ _ t ht (fun _ _ => rfl)

theorem load_ok {buf : List Nat} {i v : Nat} (h : load buf i = .ok v) : buf[i]? = some v := by
  unfold load at h
  split at h
  · simp at h
  · rename_i w hw
    simp only [Except.ok.injEq] at h
    rw [hw, h]

theorem pixel_32_ok {temp : List Nat} {input_width y x r g b a : Nat}
    (h : pixel_32 temp input_width y x = .ok (r, g, b, a)) :
    temp[(y * input_width + x) * 4 + 2]? = some r ∧
    temp[(y * input_width + x) * 4 + 1]? = some g ∧
    temp[(y * input_width + x) * 4 + 0]? = some b ∧
    temp[(y * input_width + x) * 4 + 3]? = some a := by
  unfold pixel_32 at h
  obtain ⟨b', hb, h⟩ := bind_eq_ok.mp h
  obtain ⟨g', hg, h⟩ := bind_eq_ok.mp h
  obtain ⟨r', hr, h⟩ := bind_eq_ok.mp h
  obtain ⟨a', ha, h⟩ := bind_eq_ok.mp h
  simp only [Except.ok.injEq, Prod.mk.injEq] at h
  obtain ⟨rfl, rfl, rfl, rfl⟩ := h
  exact ⟨load_ok hr, load_ok hg, load_ok hb, load_ok ha⟩

theorem decompress_32_ok {output res temp : List Nat} {ow oh iw ih ret : Nat}
    {input : List Nat} {size : Int}
    (h : bitmap_decompress_32 output ow oh iw ih input size (some temp) = .ok (ret, res))
    (hret : ret ≠ 0) :
    ∃ t, bitmap_decompress4 temp iw ih input size = .ok t ∧
      convert (pixel_32 t iw) ow (min oh ih) (min ow iw) output = .ok res := by
  unfold bitmap_decompress_32 at h
  simp only at h
  cases hd : bitmap_decompress4 temp iw ih input size with
  | error e =>
    rw [hd] at h
    cases e <;> simp at h
    exact absurd h.1.symm hret
  | ok t =>
    rw [hd] at h
    simp only at h
    obtain ⟨o, ho, h⟩ := bind_eq_ok.mp h
    simp only [Except.ok.injEq, Prod.mk.injEq] at h
    rw [← h.2]
    exact ⟨t, rfl, ho⟩

theorem row_start_eq {W H off i : Nat} (hi : i < H) :
    row_start W H off i = off + (H - 1 - i) * W * 4 := by
  unfold row_start
  obtain ⟨k, hk⟩ : ∃ k, H = i + 1 + k := ⟨H - (i + 1), by omega⟩
  subst hk
  have h1 : i + 1 + k - 1 - i = k := by omega
  have h2 : W * (i + 1 + k) = (i + 1) * W + k * W := by ring
  rw [h1, h2]
  omega

theorem plane_one (v c : Nat) (rest buf : List Nat) (hv : v < 256) (hc : c < buf.length) :
    process_plane (0x10 :: v :: rest) 1 1 c buf = .ok (2, buf.set c v) := by
  have hcode : plane_code 16 = (1, 0) := by decide
  have e1 : (((v : Nat) : Int) % 256).toNat = v := by omega
  have hrow : row_start 1 1 c 0 = c := by
    unfold row_start
    omega
  simp [process_plane, plane_rows, plane_row, first_row, first_raw, first_repl, hcode, hrow,
    Plane.put, Nat.mod_eq_of_lt hv, e1, hc]
  omega

theorem decompress_32_one (a r g b : Nat) (out0 temp0 : List Nat)
    (ha : a < 256) (hr : r < 256) (hg : g < 256) (hb : b < 256)
    (hout : out0.length = 4) (htemp : temp0.length = 4) :
    bitmap_decompress_32 out0 1 1 1 1 [0x10, 0x10, a, 0x10, r, 0x10, g, 0x10, b] 9
      (some temp0) = .ok (1, [r, g, b, a]) := by
  match out0, hout with
  | [p0, p1, p2, p3], _ =>
    match temp0, htemp with
    | [t0, t1, t2, t3], _ =>
      have h4 : bitmap_decompress4 [t0, t1, t2, t3] 1 1
          [0x10, 0x10, a, 0x10, r, 0x10, g, 0x10, b] 9 = .ok [b, g, r, a] := by
        unfold bitmap_decompress4
        simp only [CVAL_cons, ok_bind]
        rw [if_neg (by decide), plane_one a 3 _ _ ha (by simp)]
        simp only [ok_bind, List.drop_succ_cons, List.drop_zero]
        rw [plane_one r 2 _ _ hr (by simp)]
        simp only [ok_bind, List.drop_succ_cons, List.drop_zero]
        rw [plane_one g 1 _ _ hg (by simp)]
        simp only [ok_bind, List.drop_succ_cons, List.drop_zero]
        rw [plane_one b 0 _ _ hb (by simp)]
        simp only [ok_bind]
        rw [if_pos (by decide)]
        rfl
      unfold bitmap_decompress_32
      simp only [h4]
      rfl

/-- Claim C7. On success with output dimensions equal to the input dimensions, output
pixel `(y, x)` of `bitmap_decompress_32` is `(R, G, B, A) = (P2, P3, P4, P1)` at
`(y, x)`, where plane `k` in stream order is the byte grid left at byte offset
`4 - k` of the native buffer by the `k`-th `process_plane` call, its `i`-th decoded
row starting at grid row `H - 1 - i`; the 1x1 input
`[0x10, 0x10, a, 0x10, r, 0x10, g, 0x10, b]` gives `(r, g, b, a)`. -/
theorem decompress_32_channels (W H : Nat) (input : List Nat) (size : Int)
    (temp output res : List Nat) (ret : Nat)
    (h : bitmap_decompress_32 output W H W H input size (some temp) = .ok (ret, res))
    (hret : ret ≠ 0) :
    (∃ c rest n1 o1 n2 o2 n3 o3 n4 o4,
      input = c :: rest ∧ c % 256 = 0x10 ∧
      process_plane rest W H 3 temp = .ok (n1, o1) ∧
      process_plane (rest.drop n1) W H 2 o1 = .ok (n2, o2) ∧
      process_plane ((rest.drop n1).drop n2) W H 1 o2 = .ok (n3, o3) ∧
      process_plane (((rest.drop n1).drop n2).drop n3) W H 0 o3 = .ok (n4, o4) ∧
      ∀ y x, y < H → x < W → ∃ r g b a,
        o2[(y * W + x) * 4 + 2]? = some r ∧ o3[(y * W + x) * 4 + 1]? = some g ∧
        o4[(y * W + x) * 4 + 0]? = some b ∧ o1[(y * W + x) * 4 + 3]? = some a ∧
        res[(y * W + x) * 4 + 0]? = some r ∧ res[(y * W + x) * 4 + 1]? = some g ∧
        res[(y * W + x) * 4 + 2]? = some b ∧ res[(y * W + x) * 4 + 3]? = some a) ∧
    (∀ off i, i < H → row_start W H off i = off + (H - 1 - i) * W * 4) ∧
    (∀ (a r g b : Nat) (out0 temp0 : List Nat), a < 256 → r < 256 → g < 256 → b < 256 →
      out0.length = 4 → temp0.length = 4 →
      bitmap_decompress_32 out0 1 1 1 1 [0x10, 0x10, a, 0x10, r, 0x10, g, 0x10, b] 9
        (some temp0) = .ok (1, [r, g, b, a])) := by
  refine ⟨?_, fun off i hi => row_start_eq hi, decompress_32_one⟩
  obtain ⟨t, h4, hconv⟩ := decompress_32_ok h hret
  obtain ⟨c, rest, n1, o1, n2, o2, n3, o3, n4, hin, hc, p1, p2, p3, p4, _⟩ :=
    (decompress4_ok temp W H input size t).mp h4
  refine ⟨c, rest, n1, o1, n2, o2, n3, o3, n4, t, hin, hc, p1, p2, p3, p4, ?_⟩
  intro y x hy hx
  rw [Nat.min_self, Nat.min_self] at hconv
  obtain ⟨_, hpix, _⟩ := convert_ok (pixel_32 t W) W W (le_refl W) H output res hconv
  obtain ⟨r, g, b, a, hp, m1, m2, m3, m4⟩ := hpix y x hy hx
  obtain ⟨q1, q2, q3, q4⟩ := pixel_32_ok hp
  have f2 := process_plane_frame (by decide : 2 < 4) p2
  have f3 := process_plane_frame (by decide : 1 < 4) p3
  have f4 := process_plane_frame (by decide : 0 < 4) p4
  refine ⟨r, g, b, a, ?_, ?_, q3, ?_, m1, m2, m3, m4⟩
  · rw [← f3 _ (by omega), ← f4 _ (by omega)]
    exact q1
  · rw [← f4 _ (by omega)]
    exact q2
  · rw [← f2 _ (by omega), ← f3 _ (by omega), ← f4 _ (by omega)]
    exact q4

theorem decompress_32_channels_witness :
    bitmap_decompress_32 [0, 0, 0, 0] 1 1 1 1 [0x10, 0x10, 11, 0x10, 22, 0x10, 33, 0x10, 44] 9
      (some [0, 0, 0, 0]) = .ok (1, [22, 33, 44, 11]) :=
  (decompress_32_channels 1 1 [0x10, 0x10, 11, 0x10, 22, 0x10, 33, 0x10, 44] 9 [0, 0, 0, 0]
    [0, 0, 0, 0] [22, 33, 44, 11] 1 rfl (by decide)).2.2 11 22 33 44 [0, 0, 0, 0] [0, 0, 0, 0]
    (by decide) (by decide) (by decide) (by decide) rfl rfl

/-! ### The fuel of the loops suffices -/

theorem nofuel_ok {α : Type} (a : α) : NoFuel (Except.ok a : Except Stop α) := by
  intro h
  cases h

theorem nofuel_bind {α β : Type} {m : Except Stop α} {f : α → Except Stop β}
    (hm : NoFuel m) (hf : ∀ a, m = .ok a → NoFuel (f a)) : NoFuel (m >>= f) := by
  cases m with
  | error e =>
    intro h
    have h' : (Except.error e : Except Stop β) = .error .outOfFuel := h
    simp only [Except.error.injEq] at h'
    subst h'
    exact hm rfl
  | ok a => exact hf a rfl

theorem nofuel_oob {α : Type} : NoFuel (Except.error Stop.outOfBounds : Except Stop α) := by
  intro h
  cases h

theorem nofuel_false {α : Type} : NoFuel (Except.error Stop.returnFalse : Except Stop α) := by
  intro h
  cases h

theorem CVAL_nofuel (input : List Nat) : NoFuel (CVAL input) := by
  cases input with
  | nil => exact nofuel_oob
  | cons b rest => exact nofuel_ok _

theorem readPixel_nofuel (bpp : Nat) (input : List Nat) : NoFuel (readPixel bpp input) := by
  unfold readPixel
  split
  · exact CVAL_nofuel _
  · split
    · unfold CVAL2
      exact nofuel_bind (CVAL_nofuel _) fun _ _ =>
        nofuel_bind (CVAL_nofuel _) fun _ _ => nofuel_ok _
    · unfold CVAL3
      exact nofuel_bind (CVAL_nofuel _) fun _ _ =>
        nofuel_bind (CVAL_nofuel _) fun _ _ =>
          nofuel_bind (CVAL_nofuel _) fun _ _ => nofuel_ok _

theorem store_nofuel (s : Engine) (v : Nat) : NoFuel (s.store v) := by
  unfold Engine.store
  split
  · exact nofuel_oob
  · split
    · exact nofuel_ok _
    · exact nofuel_oob

theorem above_nofuel (s : Engine) : NoFuel s.above := by
  unfold Engine.above
  split
  · exact nofuel_oob
  · split
    · exact nofuel_oob
    · exact nofuel_ok _

theorem mask_update_nofuel (s : Engine) : NoFuel (MASK_UPDATE s) := by
  unfold MASK_UPDATE
  simp only
  split
  · split
    · exact nofuel_ok _
    · exact nofuel_bind (CVAL_nofuel _) fun _ _ => nofuel_ok _
  · exact nofuel_ok _

theorem fill_above_nofuel (s : Engine) : NoFuel (fill_above s) := by
  unfold fill_above
  exact nofuel_bind (above_nofuel _) fun _ _ => store_nofuel _ _

theorem mix_above_nofuel (s : Engine) : NoFuel (mix_above s) := by
  unfold mix_above
  exact nofuel_bind (above_nofuel _) fun _ _ => store_nofuel _ _

theorem fom_null_nofuel (s : Engine) : NoFuel (fom_null s) := by
  unfold fom_null
  refine nofuel_bind (mask_update_nofuel _) fun u _ => ?_
  split <;> exact store_nofuel _ _

theorem fom_above_nofuel (s : Engine) : NoFuel (fom_above s) := by
  unfold fom_above
  refine nofuel_bind (mask_update_nofuel _) fun u _ => ?_
  split <;> exact nofuel_bind (above_nofuel _) fun _ _ => store_nofuel _ _

theorem copy_nofuel (bpp : Nat) (s : Engine) : NoFuel (copy_statement bpp s) := by
  unfold copy_statement
  exact nofuel_bind (readPixel_nofuel _ _) fun _ _ => store_nofuel _ _

theorem bicolour_nofuel (s : Engine) : NoFuel (bicolour_statement s) := by
  unfold bicolour_statement
  split <;> exact nofuel_bind (store_nofuel _ _) fun _ _ => nofuel_ok _

theorem repeat_tail_nofuel {statement : Engine → Except Stop Engine}
    (hst : GoodStmt statement) (hnf : ∀ s, NoFuel (statement s)) (width : Nat) :
    ∀ (fuel : Nat) (s : Engine), width - s.x < fuel →
      NoFuel (repeat_tail statement width fuel s) := by
  intro fuel
  induction fuel with
  | zero => intro s hf; omega
  | succ fuel ih =>
    intro s hf
    by_cases hg : 0 < s.count ∧ s.x < width
    · rw [repeat_tail_succ _ _ _ _ hg.1 hg.2]
      refine nofuel_bind ?_ fun u hu => ?_
      · unfold repeat_step
        exact nofuel_bind (hnf s) fun _ _ => nofuel_ok _
      · have := (repeat_step_x hst hu).1
        exact ih u (by omega)
    · rw [repeat_tail_exit _ _ _ _ hg]
      exact nofuel_ok _

theorem REPEAT_nofuel {statement : Engine → Except Stop Engine}
    (hst : GoodStmt statement) (hnf : ∀ s, NoFuel (statement s)) (width : Nat) (s : Engine) :
    NoFuel (REPEAT statement width s) := by
  rw [REPEAT_eq_tail hst]
  exact repeat_tail_nofuel hst hnf width _ s (by omega)

theorem output_switch_nofuel (bpp width : Nat) (s : Engine) :
    NoFuel (output_switch bpp width s) := by
  unfold output_switch
  split
  · refine nofuel_bind ?_ fun u _ => ?_
    · unfold insert_mix
      split
      · refine nofuel_bind ?_ fun _ _ => nofuel_ok _
        split
        · exact store_nofuel _ _
        · exact mix_above_nofuel _
      · exact nofuel_ok _
    · split
      · exact REPEAT_nofuel good_fill_null (fun t => store_nofuel t _) width u
      · exact REPEAT_nofuel good_fill_above fill_above_nofuel width u
  · split
    · split
      · exact REPEAT_nofuel good_mix_null (fun t => store_nofuel t _) width s
      · exact REPEAT_nofuel good_mix_above mix_above_nofuel width s
    · split
      · split
        · exact REPEAT_nofuel good_fom_null fom_null_nofuel width s
        · exact REPEAT_nofuel good_fom_above fom_above_nofuel width s
      · split
        · exact REPEAT_nofuel (good_store _) (fun t => store_nofuel t _) width s
        · split
          · exact REPEAT_nofuel (good_copy bpp) (copy_nofuel bpp) width s
          · split
            · exact REPEAT_nofuel good_bicolour bicolour_nofuel width s
            · split
              · exact REPEAT_nofuel (good_store _) (fun t => store_nofuel t _) width s
              · split
                · exact REPEAT_nofuel (good_store _) (fun t => store_nofuel t _) width s
                · exact nofuel_false

theorem advance_nofuel (width : Nat) (s : Engine) : NoFuel (advance width s) := by
  unfold advance
  split
  · split
    · exact nofuel_false
    · exact nofuel_ok _
  · exact nofuel_ok _

theorem output_body_nofuel {bpp width : Nat} (hw : 1 ≤ width) :
    ∀ (fuel : Nat) (s : Engine),
      (s.height + 2 ≤ fuel ∨ ((width ≤ s.x ∨ s.count = 0) ∧ s.height + 1 ≤ fuel)) →
      NoFuel (output_body bpp width fuel s) := by
  intro fuel
  induction fuel with
  | zero => intro s hf; omega
  | succ fuel ih =>
    intro s hf
    unfold output_body
    split
    · rename_i hc
      refine nofuel_bind (advance_nofuel _ _) fun u hu => ?_
      refine nofuel_bind (output_switch_nofuel _ _ _) fun v hv => ?_
      obtain ⟨hvh, hve⟩ := switch_frame (advance_x hw hu) hv
      apply ih v
      right
      refine ⟨hve.symm, ?_⟩
      rcases advance_ok hu with ⟨hx, hh, rfl⟩ | ⟨hx, rfl⟩
      · simp only at hvh
        omega
      · omega
    · exact nofuel_ok _

theorem opcode_form_nofuel (code : Nat) (input : List Nat) :
    NoFuel (opcode_form code input) := by
  unfold opcode_form
  simp only
  split
  · exact nofuel_ok _
  · split
    · split
      · exact nofuel_bind (CVAL_nofuel _) fun _ _ =>
          nofuel_bind (CVAL_nofuel _) fun _ _ => nofuel_ok _
      · exact nofuel_ok _
    · exact nofuel_ok _

theorem strange_count_nofuel (h : Header) : NoFuel (strange_count h) := by
  unfold strange_count
  simp only
  split
  · split
    · split <;> exact nofuel_bind (CVAL_nofuel _) fun _ _ => nofuel_ok _
    · split <;> exact nofuel_ok _
  · exact nofuel_ok _

theorem preliminary_nofuel (bpp width : Nat) (s : Engine) :
    NoFuel (preliminary bpp width s) := by
  unfold preliminary
  split
  · split <;> exact nofuel_ok _
  · split
    · exact nofuel_bind (readPixel_nofuel _ _) fun _ _ =>
        nofuel_bind (readPixel_nofuel _ _) fun _ _ => nofuel_ok _
    · split
      · exact nofuel_bind (readPixel_nofuel _ _) fun _ _ => nofuel_ok _
      · split
        · exact nofuel_bind (readPixel_nofuel _ _) fun _ _ => nofuel_ok _
        · split
          · exact nofuel_ok _
          · split <;> exact nofuel_ok _

theorem command_nofuel {bpp width : Nat} (hw : 1 ≤ width) (s : Engine) :
    NoFuel (command bpp width s) := by
  unfold command
  refine nofuel_bind ?_ fun u _ => output_body_nofuel hw _ u (Or.inl (le_refl _))
  unfold command_setup
  simp only
  refine nofuel_bind ?_ fun h _ =>
    nofuel_bind (preliminary_nofuel _ _ _) fun _ _ => nofuel_ok _
  unfold decode_header
  exact nofuel_bind (CVAL_nofuel _) fun _ _ =>
    nofuel_bind (opcode_form_nofuel _ _) fun _ _ => strange_count_nofuel _

theorem commands_nofuel {bpp width : Nat} (hw : 1 ≤ width) :
    ∀ (fuel : Nat) (s : Engine), s.input.length < fuel →
      NoFuel (commands bpp width fuel s) := by
  intro fuel
  induction fuel with
  | zero => intro s hf; omega
  | succ fuel ih =>
    intro s hf
    unfold commands
    split
    · refine nofuel_bind (command_nofuel hw s) fun u hu => ?_
      have := command_len hw hu
      exact ih u (by omega)
    · exact nofuel_ok _

/-- The engines never stop for lack of fuel: every run of `bitmap_decompress1/2/3`
returns `True`, returns `False`, or makes an access outside its buffers. -/
theorem bitmap_decompress_nofuel (bpp width height : Nat) (input output : List Nat)
    (hw : 1 ≤ width) : NoFuel (bitmap_decompress bpp width height input output) := by
  unfold bitmap_decompress
  exact commands_nofuel hw _ _ (by simp [Engine.init])
theorem plane_put_nofuel (s : Plane) (v : Int) : NoFuel (s.put v) := by
  unfold Plane.put
  split
  · exact nofuel_ok _
  · exact nofuel_oob

theorem plane_put_input {s t : Plane} {v : Int} (h : s.put v = .ok t) :
    t.input = s.input := by
  unfold Plane.put at h
  split at h
  · simp only [Except.ok.injEq] at h
    subst h
    rfl
  · simp at h

theorem plane_last_nofuel (s : Plane) (l : Nat) : NoFuel (s.last l) := by
  unfold Plane.last
  split
  · exact nofuel_oob
  · exact nofuel_ok _

theorem first_raw_total : ∀ (n : Nat) (s : Plane), NoFuel (first_raw n s) ∧
    ∀ t, first_raw n s = .ok t → t.input.length ≤ s.input.length := by
  intro n
  induction n with
  | zero =>
    intro s
    refine ⟨nofuel_ok _, fun t h => ?_⟩
    simp only [first_raw, Except.ok.injEq] at h
    subst h
    exact le_refl _
  | succ n ih =>
    intro s
    unfold first_raw
    constructor
    · exact nofuel_bind (CVAL_nofuel _) fun _ _ =>
        nofuel_bind (plane_put_nofuel _ _) fun _ _ => (ih _).1
    · intro t h
      cases hin : s.input with
      | nil => rw [hin] at h; simp at h
      | cons b rest =>
        rw [hin] at h
        simp only [CVAL_cons, ok_bind] at h
        obtain ⟨u, hu, h⟩ := bind_eq_ok.mp h
        have h1 := plane_put_input hu
        have h2 := (ih _).2 t h
        simp only at h1 h2
        rw [h1] at h2
        simp only [List.length_cons]
        omega

theorem first_repl_total : ∀ (n : Nat) (s : Plane), NoFuel (first_repl n s) ∧
    ∀ t, first_repl n s = .ok t → t.input.length ≤ s.input.length := by
  intro n
  induction n with
  | zero =>
    intro s
    refine ⟨nofuel_ok _, fun t h => ?_⟩
    simp only [first_repl, Except.ok.injEq] at h
    subst h
    exact le_refl _
  | succ n ih =>
    intro s
    unfold first_repl
    constructor
    · exact nofuel_bind (plane_put_nofuel _ _) fun _ _ => (ih _).1
    · intro t h
      obtain ⟨u, hu, h⟩ := bind_eq_ok.mp h
      have h1 := plane_put_input hu
      have h2 := (ih _).2 t h
      simp only at h2
      rw [h1] at h2
      exact h2

theorem later_delta_total (l : Nat) : ∀ (n : Nat) (s : Plane), NoFuel (later_delta l n s) ∧
    ∀ t, later_delta l n s = .ok t → t.input.length ≤ s.input.length := by
  intro n
  induction n with
  | zero =>
    intro s
    refine ⟨nofuel_ok _, fun t h => ?_⟩
    simp only [later_delta, Except.ok.injEq] at h
    subst h
    exact le_refl _
  | succ n ih =>
    intro s
    unfold later_delta
    constructor
    · exact nofuel_bind (CVAL_nofuel _) fun _ _ =>
        nofuel_bind (plane_last_nofuel _ _) fun _ _ =>
          nofuel_bind (plane_put_nofuel _ _) fun _ _ => (ih _).1
    · intro t h
      cases hin : s.input with
      | nil => rw [hin] at h; simp at h
      | cons b rest =>
        rw [hin] at h
        simp only [CVAL_cons, ok_bind] at h
        obtain ⟨a, _, h⟩ := bind_eq_ok.mp h
        obtain ⟨u, hu, h⟩ := bind_eq_ok.mp h
        have h1 := plane_put_input hu
        have h2 := (ih _).2 t h
        simp only at h1 h2
        rw [h1] at h2
        simp only [List.length_cons]
        omega

theorem later_repl_total (l : Nat) : ∀ (n : Nat) (s : Plane), NoFuel (later_repl l n s) ∧
    ∀ t, later_repl l n s = .ok t → t.input.length ≤ s.input.length := by
  intro n
  induction n with
  | zero =>
    intro s
    refine ⟨nofuel_ok _, fun t h => ?_⟩
    simp only [later_repl, Except.ok.injEq] at h
    subst h
    exact le_refl _
  | succ n ih =>
    intro s
    unfold later_repl
    constructor
    · exact nofuel_bind (plane_last_nofuel _ _) fun _ _ =>
        nofuel_bind (plane_put_nofuel _ _) fun _ _ => (ih _).1
    · intro t h
      obtain ⟨a, _, h⟩ := bind_eq_ok.mp h
      obtain ⟨u, hu, h⟩ := bind_eq_ok.mp h
      have h1 := plane_put_input hu
      have h2 := (ih _).2 t h
      simp only at h2
      rw [h1] at h2
      exact h2

theorem first_row_nofuel (width : Nat) :
    ∀ (fuel : Nat) (s : Plane), s.input.length < fuel → NoFuel (first_row width fuel s) := by
  intro fuel
  induction fuel with
  | zero => intro s hf; omega
  | succ fuel ih =>
    intro s hf
    unfold first_row
    split
    · cases hin : s.input with
      | nil => exact nofuel_oob
      | cons b rest =>
        simp only [CVAL_cons, ok_bind]
        rw [hin] at hf
        simp only [List.length_cons] at hf
        refine nofuel_bind (first_raw_total _ _).1 fun u hu => ?_
        refine nofuel_bind (first_repl_total _ _).1 fun v hv => ?_
        have h1 := (first_raw_total _ _).2 u hu
        have h2 := (first_repl_total _ _).2 v hv
        simp only at h1
        exact ih v (by omega)
    · exact nofuel_ok _

theorem later_row_nofuel (width l : Nat) :
    ∀ (fuel : Nat) (s : Plane), s.input.length < fuel →
      NoFuel (later_row width l fuel s) := by
  intro fuel
  induction fuel with
  | zero => intro s hf; omega
  | succ fuel ih =>
    intro s hf
    unfold later_row
    split
    · cases hin : s.input with
      | nil => exact nofuel_oob
      | cons b rest =>
        simp only [CVAL_cons, ok_bind]
        rw [hin] at hf
        simp only [List.length_cons] at hf
        refine nofuel_bind (later_delta_total _ _ _).1 fun u hu => ?_
        refine nofuel_bind (later_repl_total _ _ _).1 fun v hv => ?_
        have h1 := (later_delta_total _ _ _).2 u hu
        have h2 := (later_repl_total _ _ _).2 v hv
        simp only at h1
        exact ih v (by omega)
    · exact nofuel_ok _

theorem plane_rows_nofuel (width height org_out : Nat) :
    ∀ (fuel indexh : Nat) (last_line : Option Nat) (s : Plane), height - indexh < fuel →
      NoFuel (plane_rows width height org_out fuel indexh last_line s) := by
  intro fuel
  induction fuel with
  | zero => intro indexh last_line s hf; omega
  | succ fuel ih =>
    intro indexh last_line s hf
    unfold plane_rows
    split
    · refine nofuel_bind ?_ fun u _ => ih _ _ u (by omega)
      unfold plane_row
      cases last_line with
      | none => exact first_row_nofuel width _ _ (by simp)
      | some l => exact later_row_nofuel width l _ _ (by simp)
    · exact nofuel_ok _

/-- The plane decoder never stops for lack of fuel. -/
theorem process_plane_nofuel (input : List Nat) (width height org_out : Nat)
    (buffer : List Nat) : NoFuel (process_plane input width height org_out buffer) := by
  unfold process_plane
  exact nofuel_bind (plane_rows_nofuel width height org_out _ _ _ _ (by omega))
    fun _ _ => nofuel_ok _

theorem bitmap_decompress4_nofuel (output : List Nat) (width height : Nat)
    (input : List Nat) (size : Int) :
    NoFuel (bitmap_decompress4 output width height input size) := by
  unfold bitmap_decompress4
  refine nofuel_bind (CVAL_nofuel _) fun cr _ => ?_
  obtain ⟨code, rest⟩ := cr
  simp only
  by_cases hcode : code ≠ 0x10
  · rw [if_pos hcode]
    exact nofuel_false
  · rw [if_neg hcode]
    refine nofuel_bind (process_plane_nofuel _ _ _ _ _) fun _ _ => ?_
    refine nofuel_bind (process_plane_nofuel _ _ _ _ _) fun _ _ => ?_
    refine nofuel_bind (process_plane_nofuel _ _ _ _ _) fun _ _ => ?_
    refine nofuel_bind (process_plane_nofuel _ _ _ _ _) fun _ _ => ?_
    split
    · exact nofuel_ok _
    · exact nofuel_false

/-! ## The 16-bit and 24-bit wrappers -/

theorem and_shift (p m k : Nat) : (p &&& (m <<< k)) >>> k = (p >>> k) &&& m := by
  apply Nat.eq_of_testBit_eq
  intro i
  simp [Nat.testBit_shiftRight, Nat.testBit_and, Nat.testBit_shiftLeft]

theorem scale_fits (f m : Nat) (hm : m = 31 ∨ m = 63) (hf : f ≤ m) :
    ((f % 256) * 255 / m) % 256 = f * 255 / m ∧ f * 255 / m ≤ 255 := by
  have hf' : f % 256 = f := Nat.mod_eq_of_lt (by omega)
  rw [hf']
  rcases hm with rfl | rfl <;> omega

theorem pixel_16_ok {temp : List Nat} {input_width y x r g b a : Nat}
    (h : pixel_16 temp input_width y x = .ok (r, g, b, a)) :
    ∃ cell, temp[y * input_width + x]? = some cell ∧
      r = (((cell % 65536) >>> 11) &&& 0x1F) * 255 / 31 ∧
      g = (((cell % 65536) >>> 5) &&& 0x3F) * 255 / 63 ∧
      b = ((cell % 65536) &&& 0x1F) * 255 / 31 ∧ a = 255 := by
  unfold pixel_16 at h
  obtain ⟨cell, hc, h⟩ := bind_eq_ok.mp h
  simp only [Except.ok.injEq, Prod.mk.injEq] at h
  obtain ⟨rfl, rfl, rfl, rfl⟩ := h
  have e1 : (cell % 65536 &&& 0xf800) >>> 11 = (cell % 65536) >>> 11 &&& 0x1F :=
    and_shift _ 31 11
  have e2 : (cell % 65536 &&& 0x07e0) >>> 5 = (cell % 65536) >>> 5 &&& 0x3F :=
    and_shift _ 63 5
  refine ⟨cell, load_ok hc, ?_, ?_, ?_, rfl⟩
  · rw [e1]
    exact (scale_fits _ 31 (Or.inl rfl) Nat.and_le_right).1
  · rw [e2]
    exact (scale_fits _ 63 (Or.inr rfl) Nat.and_le_right).1
  · exact (scale_fits _ 31 (Or.inl rfl) Nat.and_le_right).1

theorem decompress_16_ok {output res : List Nat} {temp : Option (List Nat)}
    {ow oh iw ih ret : Nat} {input : List Nat}
    (h : bitmap_decompress_16 output ow oh iw ih input temp = .ok (ret, res)) :
    (ret = 0 ∧ res = output) ∨
    (ret = 1 ∧ ∃ t s, temp = some t ∧ bitmap_decompress2 iw ih input t = .ok s ∧
      convert (pixel_16 s.output iw) ow (min oh ih) (min ow iw) output = .ok res) := by
  unfold bitmap_decompress_16 at h
  cases temp with
  | none =>
    simp only [Except.ok.injEq, Prod.mk.injEq] at h
    exact Or.inl ⟨h.1.symm, h.2.symm⟩
  | some t =>
    simp only at h
    cases hd : bitmap_decompress2 iw ih input t with
    | error e =>
      rw [hd] at h
      cases e <;> simp at h
      exact Or.inl ⟨h.1.symm, h.2.symm⟩
    | ok s =>
      rw [hd] at h
      simp only at h
      obtain ⟨o, ho, h⟩ := bind_eq_ok.mp h
      simp only [Except.ok.injEq, Prod.mk.injEq] at h
      rw [← h.2]
      exact Or.inr ⟨h.1.symm, t, s, rfl, hd, ho⟩

theorem pixel_24_ok {temp : List Nat} {input_width y x r g b a : Nat}
    (h : pixel_24 temp input_width y x = .ok (r, g, b, a)) :
    ∃ cell, temp[y * input_width + x]? = some cell ∧
      r = byte_of cell 2 ∧ g = byte_of cell 1 ∧ b = byte_of cell 0 ∧ a = 255 := by
  unfold pixel_24 at h
  obtain ⟨cell, hc, h⟩ := bind_eq_ok.mp h
  simp only [Except.ok.injEq, Prod.mk.injEq] at h
  obtain ⟨rfl, rfl, rfl, rfl⟩ := h
  exact ⟨cell, load_ok hc, rfl, rfl, rfl, rfl⟩

theorem decompress_24_ok {output res : List Nat} {temp : Option (List Nat)}
    {ow oh iw ih ret : Nat} {input : List Nat}
    (h : bitmap_decompress_24 output ow oh iw ih input temp = .ok (ret, res)) :
    (ret = 0 ∧ res = output) ∨
    (ret = 1 ∧ ∃ t s, temp = some t ∧ bitmap_decompress3 iw ih input t = .ok s ∧
      convert (pixel_24 s.output iw) ow (min oh ih) (min ow iw) output = .ok res) := by
  unfold bitmap_decompress_24 at h
  cases temp with
  | none =>
    simp only [Except.ok.injEq, Prod.mk.injEq] at h
    exact Or.inl ⟨h.1.symm, h.2.symm⟩
  | some t =>
    simp only at h
    cases hd : bitmap_decompress3 iw ih input t with
    | error e =>
      rw [hd] at h
      cases e <;> simp at h
      exact Or.inl ⟨h.1.symm, h.2.symm⟩
    | ok s =>
      rw [hd] at h
      simp only at h
      obtain ⟨o, ho, h⟩ := bind_eq_ok.mp h
      simp only [Except.ok.injEq, Prod.mk.injEq] at h
      rw [← h.2]
      exact Or.inr ⟨h.1.symm, t, s, rfl, hd, ho⟩

/-- A byte of an output pixel outside the overlap belongs to no pixel of the overlap. -/
theorem overlap_frame {ow rows cols y x k : Nat} (hx : x < ow) (hk : k < 4) (hc : cols ≤ ow)
    (h : rows ≤ y ∨ cols ≤ x) :
    ∀ y' x', y' < rows → x' < cols → ((y * ow + x) * 4 + k) / 4 ≠ y' * ow + x' := by
  intro y' x' hy' hx' heq
  have e1 : ((y * ow + x) * 4 + k) / 4 = y * ow + x := by omega
  rw [e1] at heq
  have hpos : 0 < ow := by omega
  have d1 : (y * ow + x) / ow = y := by
    rw [Nat.add_comm, Nat.add_mul_div_right _ _ hpos, Nat.div_eq_of_lt hx, Nat.zero_add]
  have d2 : (y' * ow + x') / ow = y' := by
    rw [Nat.add_comm, Nat.add_mul_div_right _ _ hpos, Nat.div_eq_of_lt (by omega), Nat.zero_add]
  have hy : y = y' := by rw [← d1, ← d2, heq]
  subst hy
  omega

theorem byte_of_pack (b0 b1 b2 : Nat) (h0 : b0 < 256) (h1 : b1 < 256) (h2 : b2 < 256) :
    byte_of (b0 ||| (b1 <<< 8) ||| (b2 <<< 16)) 0 = b0 ∧
    byte_of (b0 ||| (b1 <<< 8) ||| (b2 <<< 16)) 1 = b1 ∧
    byte_of (b0 ||| (b1 <<< 8) ||| (b2 <<< 16)) 2 = b2 := by
  have a1 : b0 ||| (b1 <<< 8) = 256 * b1 + b0 := by
    rw [Nat.shiftLeft_eq, Nat.lor_comm, Nat.mul_comm]
    have := Nat.mul_add_lt_is_or (i := 8) (by omega : b0 < 2 ^ 8) b1
    rw [← this]
  have a2 : (256 * b1 + b0) ||| (b2 <<< 16) = 65536 * b2 + (256 * b1 + b0) := by
    rw [Nat.shiftLeft_eq, Nat.lor_comm, Nat.mul_comm]
    have := Nat.mul_add_lt_is_or (i := 16) (by omega : 256 * b1 + b0 < 2 ^ 16) b2
    rw [← this]
  unfold byte_of
  rw [a1, a2]
  simp only [Nat.shiftRight_eq_div_pow]
  refine ⟨?_, ?_, ?_⟩ <;> omega

/-- Claim C12. On every successful call of `bitmap_decompress_16`, for every pixel
`(y, x)` of the overlap the four output bytes at offset `(y * output_width + x) * 4`
are `(((p >> 11) & 0x1F) * 255 / 31, ((p >> 5) & 0x3F) * 255 / 63,
(p & 0x1F) * 255 / 31, 255)` for the 16-bit native pixel `p` at index
`y * input_width + x`; each channel is at most 255, so the `uint8` assignment does
not truncate it, a zero field gives 0 and a full field gives 255. -/
theorem decompress_16_channels (ow oh iw ih : Nat) (input output res : List Nat)
    (temp : Option (List Nat)) (ret : Nat)
    (h : bitmap_decompress_16 output ow oh iw ih input temp = .ok (ret, res))
    (hret : ret ≠ 0) :
    ∃ t s, temp = some t ∧ bitmap_decompress2 iw ih input t = .ok s ∧
      ∀ y x, y < min oh ih → x < min ow iw →
        ∃ cell r g b, s.output[y * iw + x]? = some cell ∧
          r = (((cell % 65536) >>> 11) &&& 0x1F) * 255 / 31 ∧
          g = (((cell % 65536) >>> 5) &&& 0x3F) * 255 / 63 ∧
          b = ((cell % 65536) &&& 0x1F) * 255 / 31 ∧
          res[(y * ow + x) * 4 + 0]? = some r ∧ res[(y * ow + x) * 4 + 1]? = some g ∧
          res[(y * ow + x) * 4 + 2]? = some b ∧ res[(y * ow + x) * 4 + 3]? = some 255 ∧
          r ≤ 255 ∧ g ≤ 255 ∧ b ≤ 255 ∧
          ((((cell % 65536) >>> 11) &&& 0x1F) = 0 → r = 0) ∧
          ((((cell % 65536) >>> 11) &&& 0x1F) = 31 → r = 255) ∧
          ((((cell % 65536) >>> 5) &&& 0x3F) = 0 → g = 0) ∧
          ((((cell % 65536) >>> 5) &&& 0x3F) = 63 → g = 255) ∧
          (((cell % 65536) &&& 0x1F) = 0 → b = 0) ∧
          (((cell % 65536) &&& 0x1F) = 31 → b = 255) := by
  rcases decompress_16_ok h with ⟨h0, _⟩ | ⟨_, t, s, ht, hs, hconv⟩
  · exact absurd h0 hret
  refine ⟨t, s, ht, hs, ?_⟩
  intro y x hy hx
  obtain ⟨_, hpix, _⟩ :=
    convert_ok (pixel_16 s.output iw) ow (min ow iw) (Nat.min_le_left _ _) (min oh ih) output res
      hconv
  obtain ⟨r, g, b, a, hp, m1, m2, m3, m4⟩ := hpix y x hy hx
  obtain ⟨cell, hc, hr, hg, hb, ha⟩ := pixel_16_ok hp
  have b1 : ((cell % 65536) >>> 11) &&& 0x1F ≤ 31 := Nat.and_le_right
  have b2 : ((cell % 65536) >>> 5) &&& 0x3F ≤ 63 := Nat.and_le_right
  have b3 : (cell % 65536) &&& 0x1F ≤ 31 := Nat.and_le_right
  subst ha
  refine ⟨cell, r, g, b, hc, hr, hg, hb, m1, m2, m3, m4, ?_, ?_, ?_, ?_, ?_, ?_, ?_, ?_, ?_⟩
  · rw [hr]; exact (scale_fits _ 31 (Or.inl rfl) b1).2
  · rw [hg]; exact (scale_fits _ 63 (Or.inr rfl) b2).2
  · rw [hb]; exact (scale_fits _ 31 (Or.inl rfl) b3).2
  · intro e; rw [hr, e]
  · intro e; rw [hr, e]
  · intro e; rw [hg, e]
  · intro e; rw [hg, e]
  · intro e; rw [hb, e]
  · intro e; rw [hb, e]

theorem decompress_16_channels_witness :
    bitmap_decompress_16 [9, 9, 9, 9] 1 1 1 1 [0x81, 0xE0, 0xFF] (some [7])
      = .ok (1, [255, 255, 0, 255]) ∧
    ∃ t s, some [7] = some t ∧ bitmap_decompress2 1 1 [0x81, 0xE0, 0xFF] t = .ok s ∧
      ∀ y x, y < min 1 1 → x < min 1 1 →
        ∃ cell r g b, s.output[y * 1 + x]? = some cell ∧
          r = (((cell % 65536) >>> 11) &&& 0x1F) * 255 / 31 ∧
          g = (((cell % 65536) >>> 5) &&& 0x3F) * 255 / 63 ∧
          b = ((cell % 65536) &&& 0x1F) * 255 / 31 ∧
          [255, 255, 0, 255][(y * 1 + x) * 4 + 0]? = some r ∧
          [255, 255, 0, 255][(y * 1 + x) * 4 + 1]? = some g ∧
          [255, 255, 0, 255][(y * 1 + x) * 4 + 2]? = some b ∧
          [255, 255, 0, 255][(y * 1 + x) * 4 + 3]? = some 255 ∧
          r ≤ 255 ∧ g ≤ 255 ∧ b ≤ 255 ∧
          ((((cell % 65536) >>> 11) &&& 0x1F) = 0 → r = 0) ∧
          ((((cell % 65536) >>> 11) &&& 0x1F) = 31 → r = 255) ∧
          ((((cell % 65536) >>> 5) &&& 0x3F) = 0 → g = 0) ∧
          ((((cell % 65536) >>> 5) &&& 0x3F) = 63 → g = 255) ∧
          (((cell % 65536) &&& 0x1F) = 0 → b = 0) ∧
          (((cell % 65536) &&& 0x1F) = 31 → b = 255) :=
  ⟨rfl, decompress_16_channels 1 1 1 1 [0x81, 0xE0, 0xFF] [9, 9, 9, 9] [255, 255, 0, 255]
    (some [7]) 1 rfl (by decide)⟩

theorem copy_statement_3 {s t : Engine} {b0 b1 b2 : Nat} {rest : List Nat}
    (h0 : b0 < 256) (h1 : b1 < 256) (h2 : b2 < 256)
    (hin : s.input = b0 :: b1 :: b2 :: rest) (h : copy_statement 3 s = .ok t) :
    ∃ base, s.line = some base ∧ base + s.x < s.output.length ∧
      t = { s with input := rest,
                   output := s.output.set (base + s.x) (b0 ||| (b1 <<< 8) ||| (b2 <<< 16)),
                   written := s.written + 1 } := by
  unfold copy_statement at h
  have hr : readPixel 3 s.input = .ok (b0 ||| (b1 <<< 8) ||| (b2 <<< 16), rest) := by
    rw [hin]
    simp [readPixel, CVAL3, Nat.mod_eq_of_lt h0, Nat.mod_eq_of_lt h1, Nat.mod_eq_of_lt h2]
  rw [hr] at h
  obtain ⟨base, hl, hb, ht⟩ := store_ok h
  exact ⟨base, hl, hb, ht⟩

theorem copy24_run (e : Nat) :
    bitmap_decompress3 1 1 [0x81, 0x11, 0x22, 0x33] [e] = .ok
      { input := [], output := [0x332211], x := 1, height := 0, prevline := none,
        line := some 0, opcode := 4, count := 0, lastopcode := 4, insertmix := false,
        bicolour := false, colour1 := 0, colour2 := 0, mixmask := 0, mask := 0,
        mix := 0xffffff, fom_mask := 0, written := 1 } := by
  have h1 : (129 : Nat) &&& 31 = 1 := by decide
  have h2 : (129 : Nat) &&& 240 = 128 := by decide
  have h3 : (128 : Nat) >>> 4 = 8 := by decide
  have h4 : (8 : Nat) >>> 1 = 4 := by decide
  have h5 : (17 : Nat) ||| 34 <<< 8 ||| 51 <<< 16 = 0x332211 := by decide
  simp [bitmap_decompress3, bitmap_decompress, commands, Engine.init, command, command_setup,
    decode_header, opcode_form, strange_count, preliminary, output_body, advance, next_line,
    output_switch, REPEAT, repeat_unrolled, repeat_tail, clear_low3, repeat_step,
    copy_statement, readPixel, CVAL3, Engine.store, h1, h2, h3, h4, h5, white]

theorem list_len_four {l : List Nat} (h : l.length = 4) : ∃ a b c d, l = [a, b, c, d] := by
  match l, h with
  | [a, b, c, d], _ => exact ⟨a, b, c, d, rfl⟩

theorem list_len_one {l : List Nat} (h : l.length = 1) : ∃ a, l = [a] := by
  match l, h with
  | [a], _ => exact ⟨a, rfl⟩

theorem decompress_24_one (out0 temp0 : List Nat) (ho : out0.length = 4)
    (ht : temp0.length = 1) :
    bitmap_decompress_24 out0 1 1 1 1 [0x81, 0x11, 0x22, 0x33] (some temp0)
      = .ok (1, [0x33, 0x22, 0x11, 0xFF]) := by
  obtain ⟨a, b, c, d, rfl⟩ := list_len_four ho
  obtain ⟨e, rfl⟩ := list_len_one ht
  unfold bitmap_decompress_24
  simp only [copy24_run]
  rfl

/-- Claim C13. On every successful call of `bitmap_decompress_24`, output pixel
`(y, x)` of the overlap is `(n2, n1, n0, 255)` for the native bytes `n0, n1, n2` of
pixel `(y, x)`; a pixel stored by Copy from the stream bytes `(b0, b1, b2)` has these
as its native bytes, so it comes out as `(b2, b1, b0, 255)`; the 1x1 input
`[0x81, 0x11, 0x22, 0x33]` gives `(0x33, 0x22, 0x11, 0xFF)`. -/
theorem decompress_24_channels (ow oh iw ih : Nat) (input output res : List Nat)
    (temp : Option (List Nat)) (ret : Nat)
    (h : bitmap_decompress_24 output ow oh iw ih input temp = .ok (ret, res))
    (hret : ret ≠ 0) :
    (∃ t s, temp = some t ∧ bitmap_decompress3 iw ih input t = .ok s ∧
      ∀ y x, y < min oh ih → x < min ow iw →
        ∃ cell, s.output[y * iw + x]? = some cell ∧
          res[(y * ow + x) * 4 + 0]? = some (byte_of cell 2) ∧
          res[(y * ow + x) * 4 + 1]? = some (byte_of cell 1) ∧
          res[(y * ow + x) * 4 + 2]? = some (byte_of cell 0) ∧
          res[(y * ow + x) * 4 + 3]? = some 255) ∧
    (∀ (s t : Engine) (b0 b1 b2 : Nat) (rest : List Nat),
      b0 < 256 → b1 < 256 → b2 < 256 → s.input = b0 :: b1 :: b2 :: rest →
      copy_statement 3 s = .ok t →
      ∃ base cell, s.line = some base ∧ t.output[base + s.x]? = some cell ∧
        byte_of cell 0 = b0 ∧ byte_of cell 1 = b1 ∧ byte_of cell 2 = b2) ∧
    (∀ (out0 temp0 : List Nat), out0.length = 4 → temp0.length = 1 →
      bitmap_decompress_24 out0 1 1 1 1 [0x81, 0x11, 0x22, 0x33] (some temp0)
        = .ok (1, [0x33, 0x22, 0x11, 0xFF])) := by
  refine ⟨?_, ?_, decompress_24_one⟩
  · rcases decompress_24_ok h with ⟨h0, _⟩ | ⟨_, t, s, ht, hs, hconv⟩
    · exact absurd h0 hret
    refine ⟨t, s, ht, hs, ?_⟩
    intro y x hy hx
    obtain ⟨_, hpix, _⟩ :=
      convert_ok (pixel_24 s.output iw) ow (min ow iw) (Nat.min_le_left _ _) (min oh ih) output
        res hconv
    obtain ⟨r, g, b, a, hp, m1, m2, m3, m4⟩ := hpix y x hy hx
    obtain ⟨cell, hc, rfl, rfl, rfl, rfl⟩ := pixel_24_ok hp
    exact ⟨cell, hc, m1, m2, m3, m4⟩
  · intro s t b0 b1 b2 rest h0 h1 h2 hin hcopy
    obtain ⟨base, hl, hb, rfl⟩ := copy_statement_3 h0 h1 h2 hin hcopy
    obtain ⟨e0, e1, e2⟩ := byte_of_pack b0 b1 b2 h0 h1 h2
    refine ⟨base, _, hl, ?_, e0, e1, e2⟩
    simp only
    rw [List.getElem?_set, if_pos rfl]
    simp [hb]

theorem decompress_24_channels_witness :
    bitmap_decompress_24 [0, 0, 0, 0] 1 1 1 1 [0x81, 0x11, 0x22, 0x33] (some [0])
      = .ok (1, [0x33, 0x22, 0x11, 0xFF]) :=
  (decompress_24_channels 1 1 1 1 [0x81, 0x11, 0x22, 0x33] [0, 0, 0, 0]
    [0x33, 0x22, 0x11, 0xFF] (some [0]) 1 rfl (by decide)).2.2 [0, 0, 0, 0] [0] rfl rfl

/-- Claim C14. A call of `bitmap_decompress_16` leaves the output bytes of every
pixel `(y, x)` with `y ≥ min(output_height, input_height)` or
`x ≥ min(output_width, input_width)` as they were: a byte that changed belongs to a
pixel of the overlap, and on success the pixel `(y, x)` of the overlap is written at
offset `(y * output_width + x) * 4` from the native pixel at index
`y * input_width + x`. -/
theorem decompress_16_frame (ow oh iw ih : Nat) (input output res : List Nat)
    (temp : Option (List Nat)) (ret : Nat)
    (h : bitmap_decompress_16 output ow oh iw ih input temp = .ok (ret, res)) :
    res.length = output.length ∧
    (∀ y x k, x < ow → k < 4 → (min oh ih ≤ y ∨ min ow iw ≤ x) →
      res[(y * ow + x) * 4 + k]? = output[(y * ow + x) * 4 + k]?) ∧
    (∀ j, res[j]? ≠ output[j]? →
      ∃ y x, y < min oh ih ∧ x < min ow iw ∧ j / 4 = y * ow + x) ∧
    (ret ≠ 0 → ∃ t s, temp = some t ∧ bitmap_decompress2 iw ih input t = .ok s ∧
      ∀ y x, y < min oh ih → x < min ow iw →
        ∃ r g b a, pixel_16 s.output iw y x = .ok (r, g, b, a) ∧
          res[(y * ow + x) * 4 + 0]? = some r ∧ res[(y * ow + x) * 4 + 1]? = some g ∧
          res[(y * ow + x) * 4 + 2]? = some b ∧ res[(y * ow + x) * 4 + 3]? = some a) := by
  rcases decompress_16_ok h with ⟨h0, rfl⟩ | ⟨h1, t, s, ht, hs, hconv⟩
  · exact ⟨rfl, fun _ _ _ _ _ _ => rfl, fun j hj => absurd rfl hj, fun hr => absurd h0 hr⟩
  obtain ⟨hlen, hpix, hfr⟩ :=
    convert_ok (pixel_16 s.output iw) ow (min ow iw) (Nat.min_le_left _ _) (min oh ih) output res
      hconv
  refine ⟨hlen, ?_, ?_, fun _ => ⟨t, s, ht, hs, hpix⟩⟩
  · intro y x k hx hk hout
    exact hfr _ (overlap_frame hx hk (Nat.min_le_left _ _) hout)
  · intro j hj
    by_contra hno
    apply hj
    apply hfr
    intro y x hy hx heq
    exact hno ⟨y, x, hy, hx, heq⟩

theorem decompress_16_frame_witness :
    bitmap_decompress_16 [9, 9, 9, 9, 8, 8, 8, 8] 2 1 1 1 [0x81, 0x00, 0xF8] (some [7])
      = .ok (1, [255, 0, 0, 255, 8, 8, 8, 8]) ∧
    (∀ y x k, x < 2 → k < 4 → (min 1 1 ≤ y ∨ min 2 1 ≤ x) →
      [255, 0, 0, 255, 8, 8, 8, 8][(y * 2 + x) * 4 + k]?
        = [9, 9, 9, 9, 8, 8, 8, 8][(y * 2 + x) * 4 + k]?) :=
  ⟨rfl, (decompress_16_frame 2 1 1 1 [0x81, 0x00, 0xF8] [9, 9, 9, 9, 8, 8, 8, 8]
    [255, 0, 0, 255, 8, 8, 8, 8] (some [7]) 1 rfl).2.1⟩

theorem fom16_run (e : Nat) :
    bitmap_decompress2 1 1 [0x40, 0x00, 0xF8] [e] = .ok
      { input := [], output := [0], x := 1, height := 0, prevline := none,
        line := some 0, opcode := 2, count := 0, lastopcode := 2, insertmix := false,
        bicolour := false, colour1 := 0, colour2 := 0, mixmask := 1, mask := 0xF8,
        mix := 0xffff, fom_mask := 0, written := 1 } := by
  have h1 : (64 : Nat) &&& 31 = 0 := by decide
  have h2 : (64 : Nat) &&& 240 = 64 := by decide
  have h3 : (64 : Nat) >>> 4 = 4 := by decide
  have h4 : (4 : Nat) >>> 1 = 2 := by decide
  have h5 : (0 : Nat) <<< 1 = 0 := by decide
  have h6 : (248 : Nat) &&& 1 = 0 := by decide
  simp [bitmap_decompress2, bitmap_decompress, commands, Engine.init, command, command_setup,
    decode_header, opcode_form, strange_count, preliminary, output_body, advance, next_line,
    output_switch, REPEAT, repeat_unrolled, repeat_tail, clear_low3, repeat_step,
    fom_null, MASK_UPDATE, insert_mix, Engine.store, h1, h2, h3, h4, h5, h6, white]

theorem fom24_run (e : Nat) :
    bitmap_decompress3 1 1 [0x40, 0x11, 0x22, 0x33] [e] = .error .returnFalse := by
  have h1 : (64 : Nat) &&& 31 = 0 := by decide
  have h2 : (64 : Nat) &&& 240 = 64 := by decide
  have h3 : (64 : Nat) >>> 4 = 4 := by decide
  have h4 : (4 : Nat) >>> 1 = 2 := by decide
  have h5 : (0 : Nat) <<< 1 = 0 := by decide
  have h6 : (34 : Nat) &&& 1 = 0 := by decide
  simp [bitmap_decompress3, bitmap_decompress, commands, Engine.init, command, command_setup,
    decode_header, opcode_form, strange_count, preliminary, output_body, advance, next_line,
    output_switch, REPEAT, repeat_unrolled, repeat_tail, clear_low3, repeat_step,
    fom_null, MASK_UPDATE, insert_mix, Engine.store, h1, h2, h3, h4, h5, h6, white]

/-- Claim C15, counterexample. On the stream `[0x40, 0x00, 0xF8]` the 1x1 call of
`bitmap_decompress_16` writes `(0, 0, 0, 255)`, not `(255, 0, 0, 255)`. -/
theorem red_pixel_counterexample :
    bitmap_decompress_16 [0, 0, 0, 0] 1 1 1 1 [0x40, 0x00, 0xF8] (some [0])
      = .ok (1, [0, 0, 0, 255]) ∧
    bitmap_decompress_16 [0, 0, 0, 0] 1 1 1 1 [0x40, 0x00, 0xF8] (some [0])
      ≠ .ok (1, [255, 0, 0, 255]) := by
  refine ⟨rfl, fun h => ?_⟩
  have h2 : (Except.ok (1, [0, 0, 0, 255]) : Except Stop (Nat × List Nat))
      = .ok (1, [255, 0, 0, 255]) := h
  simp at h2

/-- Claim C15, amended. The command byte `0x40` is a regular Fill-Or-Mix command
whose count is the next byte plus one, here 1, and `0xF8` is its mask byte with bit 0
clear: the 1x1 call of `bitmap_decompress_16` on `[0x40, 0x00, 0xF8]` succeeds and
writes exactly the four output bytes `(0, 0, 0, 255)`. -/
theorem decompress_16_red (out0 temp0 : List Nat) (ho : out0.length = 4)
    (ht : temp0.length = 1) :
    decode_header [0x40, 0x00, 0xF8]
      = .ok { opcode := 2, count := 1, offset := 32, input := [0xF8] } ∧
    bitmap_decompress_16 out0 1 1 1 1 [0x40, 0x00, 0xF8] (some temp0)
      = .ok (1, [0, 0, 0, 255]) := by
  refine ⟨rfl, ?_⟩
  obtain ⟨a, b, c, d, rfl⟩ := list_len_four ho
  obtain ⟨e, rfl⟩ := list_len_one ht
  unfold bitmap_decompress_16
  simp only [fom16_run]
  rfl

theorem decompress_16_red_witness :
    bitmap_decompress_16 [1, 2, 3, 4] 1 1 1 1 [0x40, 0x00, 0xF8] (some [5])
      = .ok (1, [0, 0, 0, 255]) :=
  (decompress_16_red [1, 2, 3, 4] [5] rfl rfl).2

/-- Claim C16, counterexample. On the stream `[0x40, 0x11, 0x22, 0x33]` the 1x1 call
of `bitmap_decompress_24` returns 0 and writes nothing. -/
theorem copy_24_counterexample :
    bitmap_decompress_24 [0, 0, 0, 0] 1 1 1 1 [0x40, 0x11, 0x22, 0x33] (some [0])
      = .ok (0, [0, 0, 0, 0]) ∧
    bitmap_decompress_24 [0, 0, 0, 0] 1 1 1 1 [0x40, 0x11, 0x22, 0x33] (some [0])
      ≠ .ok (1, [0x33, 0x22, 0x11, 0xFF]) := by
  refine ⟨rfl, fun h => ?_⟩
  have h2 : (Except.ok (0, [0, 0, 0, 0]) : Except Stop (Nat × List Nat))
      = .ok (1, [0x33, 0x22, 0x11, 0xFF]) := h
  simp at h2

/-- Claim C16, amended. The command byte `0x40` is a regular Fill-Or-Mix command
whose count is the next byte plus one, here `0x11 + 1 = 18` pixels for a raster of
one: the 1x1 call of `bitmap_decompress_24` on `[0x40, 0x11, 0x22, 0x33]` fails, the
engine returns False, the wrapper returns 0 and leaves the output as it was. -/
theorem decompress_24_copy (out0 temp0 : List Nat) (ht : temp0.length = 1) :
    decode_header [0x40, 0x11, 0x22, 0x33]
      = .ok { opcode := 2, count := 18, offset := 32, input := [0x22, 0x33] } ∧
    bitmap_decompress3 1 1 [0x40, 0x11, 0x22, 0x33] temp0 = .error .returnFalse ∧
    bitmap_decompress_24 out0 1 1 1 1 [0x40, 0x11, 0x22, 0x33] (some temp0)
      = .ok (0, out0) := by
  obtain ⟨e, rfl⟩ := list_len_one ht
  refine ⟨rfl, fom24_run e, ?_⟩
  unfold bitmap_decompress_24
  simp only [fom24_run]

theorem decompress_24_copy_witness :
    bitmap_decompress_24 [1, 2, 3, 4] 1 1 1 1 [0x40, 0x11, 0x22, 0x33] (some [5])
      = .ok (0, [1, 2, 3, 4]) :=
  (decompress_24_copy [1, 2, 3, 4] [5] rfl).2.2

/-! ## Rows of a plane -/

theorem put_span {o : Nat} {B : List Nat} {t t' : Plane} {v : Int}
    (h : t.put v = .ok t') (hf : RowSpan o B t) :
    RowSpan o B { t' with out := t'.out + 4, indexw := t'.indexw + 1 } := by
  unfold Plane.put at h
  split at h
  · simp only [Except.ok.injEq] at h
    subst h
    obtain ⟨h1, h2, h3⟩ := hf
    refine ⟨?_, ?_, ?_⟩
    · show t.out + 4 = o + 4 * (t.indexw + 1)
      omega
    · show (t.buffer.set t.out _).length = _
      rw [List.length_set]
      exact h2
    · intro j hj
      show (t.buffer.set t.out _)[j]? = _
      have hne : t.out ≠ j := by
        have := hj t.indexw (Nat.lt_succ_self _)
        omega
      rw [List.getElem?_set_ne hne]
      exact h3 j (fun m hm => hj m (Nat.lt_succ_of_lt hm))
  · simp at h

theorem first_raw_span {o : Nat} {B : List Nat} :
    ∀ (n : Nat) (t t' : Plane), first_raw n t = .ok t' → RowSpan o B t → RowSpan o B t' := by
  intro n
  induction n with
  | zero =>
    intro t t' h hf
    simp only [first_raw, Except.ok.injEq] at h
    subst h
    exact hf
  | succ n ih =>
    intro t t' h hf
    unfold first_raw at h
    obtain ⟨⟨b, input⟩, _, h⟩ := bind_eq_ok.mp h
    obtain ⟨u, hu, h⟩ := bind_eq_ok.mp h
    exact ih _ t' h (put_span hu hf)

theorem first_repl_span {o : Nat} {B : List Nat} :
    ∀ (n : Nat) (t t' : Plane), first_repl n t = .ok t' → RowSpan o B t → RowSpan o B t' := by
  intro n
  induction n with
  | zero =>
    intro t t' h hf
    simp only [first_repl, Except.ok.injEq] at h
    subst h
    exact hf
  | succ n ih =>
    intro t t' h hf
    unfold first_repl at h
    obtain ⟨u, hu, h⟩ := bind_eq_ok.mp h
    exact ih _ t' h (put_span hu hf)

theorem later_delta_span {o : Nat} {B : List Nat} (last_line : Nat) :
    ∀ (n : Nat) (t t' : Plane), later_delta last_line n t = .ok t' → RowSpan o B t →
      RowSpan o B t' := by
  intro n
  induction n with
  | zero =>
    intro t t' h hf
    simp only [later_delta, Except.ok.injEq] at h
    subst h
    exact hf
  | succ n ih =>
    intro t t' h hf
    unfold later_delta at h
    obtain ⟨⟨b, input⟩, _, h⟩ := bind_eq_ok.mp h
    obtain ⟨a, _, h⟩ := bind_eq_ok.mp h
    obtain ⟨u, hu, h⟩ := bind_eq_ok.mp h
    exact ih _ t' h (put_span hu hf)

theorem later_repl_span {o : Nat} {B : List Nat} (last_line : Nat) :
    ∀ (n : Nat) (t t' : Plane), later_repl last_line n t = .ok t' → RowSpan o B t →
      RowSpan o B t' := by
  intro n
  induction n with
  | zero =>
    intro t t' h hf
    simp only [later_repl, Except.ok.injEq] at h
    subst h
    exact hf
  | succ n ih =>
    intro t t' h hf
    unfold later_repl at h
    obtain ⟨a, _, h⟩ := bind_eq_ok.mp h
    obtain ⟨u, hu, h⟩ := bind_eq_ok.mp h
    exact ih _ t' h (put_span hu hf)

theorem first_row_span {o : Nat} {B : List Nat} (width : Nat) :
    ∀ (fuel : Nat) (t t' : Plane), first_row width fuel t = .ok t' → RowSpan o B t →
      RowSpan o B t' ∧ width ≤ t'.indexw := by
  intro fuel
  induction fuel with
  | zero => intro t t' h; simp [first_row] at h
  | succ fuel ih =>
    intro t t' h hf
    unfold first_row at h
    split at h
    · obtain ⟨⟨code, input⟩, _, h⟩ := bind_eq_ok.mp h
      simp only at h
      obtain ⟨u, hu, h⟩ := bind_eq_ok.mp h
      obtain ⟨w, hw, h⟩ := bind_eq_ok.mp h
      exact ih _ t' h (first_repl_span _ _ _ hw (first_raw_span _ _ _ hu hf))
    · rename_i hx
      simp only [Except.ok.injEq] at h
      subst h
      exact ⟨hf, Nat.le_of_not_lt hx⟩

theorem later_row_span {o : Nat} {B : List Nat} (width last_line : Nat) :
    ∀ (fuel : Nat) (t t' : Plane), later_row width last_line fuel t = .ok t' →
      RowSpan o B t → RowSpan o B t' ∧ width ≤ t'.indexw := by
  intro fuel
  induction fuel with
  | zero => intro t t' h; simp [later_row] at h
  | succ fuel ih =>
    intro t t' h hf
    unfold later_row at h
    split at h
    · obtain ⟨⟨code, input⟩, _, h⟩ := bind_eq_ok.mp h
      simp only at h
      obtain ⟨u, hu, h⟩ := bind_eq_ok.mp h
      obtain ⟨w, hw, h⟩ := bind_eq_ok.mp h
      exact ih _ t' h (later_repl_span _ _ _ _ hw (later_delta_span _ _ _ _ hu hf))
    · rename_i hx
      simp only [Except.ok.injEq] at h
      subst h
      exact ⟨hf, Nat.le_of_not_lt hx⟩

theorem plane_row_span {width height org_out indexh : Nat} {last_line : Option Nat}
    {t u : Plane} (h : plane_row width height org_out indexh last_line t = .ok u) :
    RowSpan (row_start width height org_out indexh) t.buffer u ∧ width ≤ u.indexw := by
  unfold plane_row at h
  have h0 : RowSpan (row_start width height org_out indexh) t.buffer
      { t with out := row_start width height org_out indexh, color := 0, indexw := 0 } :=
    ⟨rfl, rfl, fun _ _ => rfl⟩
  cases last_line with
  | none => exact first_row_span width _ _ u h h0
  | some l => exact later_row_span width l _ _ u h h0

theorem plane_rows_after (width height org_out : Nat) (s : Plane) :
    ∀ k, k ≤ height →
      plane_rows width height org_out (height + 1) 0 none s
        = (after_rows width height org_out k s >>= fun t =>
            plane_rows width height org_out (height + 1 - k) k
              (last_line_at width height org_out k) t) := by
  intro k
  induction k with
  | zero => intro _; rfl
  | succ k ih =>
    intro hk
    rw [ih (by omega)]
    show _ = ((after_rows width height org_out k s >>= fun t =>
      plane_row width height org_out k (last_line_at width height org_out k) t) >>= _)
    rw [bind_assoc_ok]
    apply bind_congr_ok
    intro t _
    have e : height + 1 - k = (height - k) + 1 := by omega
    rw [e]
    show (if k < height then _ else _) = _
    rw [if_pos (by omega)]
    have e2 : height - k = height + 1 - (k + 1) := by omega
    rw [e2]
    rfl

theorem after_rows_initial (width height org_out : Nat) (s : Plane) :
    ∀ k u, after_rows width height org_out k s = .ok u →
      ∀ i, i ≤ k → ∃ t, after_rows width height org_out i s = .ok t := by
  intro k
  induction k with
  | zero =>
    intro u h i hi
    have : i = 0 := by omega
    subst this
    exact ⟨u, h⟩
  | succ k ih =>
    intro u h i hi
    by_cases hik : i = k + 1
    · subst hik
      exact ⟨u, h⟩
    · obtain ⟨t, ht, _⟩ := bind_eq_ok.mp h
      exact ih t ht i (by omega)

theorem process_plane_rows {width height org_out n : Nat} {input buffer res : List Nat}
    (h : process_plane input width height org_out buffer = .ok (n, res)) :
    ∃ final, after_rows width height org_out height
        { input := input, buffer := buffer, out := org_out, indexw := 0, color := 0 }
        = .ok final ∧
      res = final.buffer ∧ n = input.length - final.input.length := by
  unfold process_plane at h
  obtain ⟨s, hs, h⟩ := bind_eq_ok.mp h
  simp only [Except.ok.injEq, Prod.mk.injEq] at h
  rw [plane_rows_after width height org_out _ height (le_refl _)] at hs
  obtain ⟨t, ht, hs⟩ := bind_eq_ok.mp hs
  have e : height + 1 - height = 0 + 1 := by omega
  rw [e] at hs
  unfold plane_rows at hs
  rw [if_neg (Nat.lt_irrefl _)] at hs
  simp only [Except.ok.injEq] at hs
  subst hs
  exact ⟨t, ht, h.2.symm, h.1.symm⟩

theorem decoded_rows_least (width height org_out : Nat) (s : Plane) :
    ∀ k u, after_rows width height org_out k s = .ok u →
      ∃ n, decoded_rows width height org_out k s = .ok n ∧ width * k ≤ n := by
  intro k
  induction k with
  | zero => intro u _; exact ⟨0, rfl, by omega⟩
  | succ k ih =>
    intro u hu
    obtain ⟨t, ht, hrow⟩ := bind_eq_ok.mp hu
    obtain ⟨n, hn, hle⟩ := ih t ht
    obtain ⟨_, hw⟩ := plane_row_span hrow
    refine ⟨n + u.indexw, ?_, ?_⟩
    · show (decoded_rows width height org_out k s >>= fun n =>
        after_rows width height org_out (k + 1) s >>= fun t => .ok (n + t.indexw)) = _
      rw [hn, ok_bind, hu, ok_bind]
    · rw [Nat.mul_succ]
      omega

/-- Claim C11, counterexample. With `W = 1`, `H = 3` the plane
`[0x10, 5, 0x10, 2, 0x20, 2, 4]` is decoded to completion, yet its third row is a
run of two delta bytes: the row ends with `indexw = 2`, not `width = 1`, its second
pixel is stored over the row decoded before, and four bytes are decoded, not three. -/
theorem plane_row_counterexample :
    process_plane [0x10, 5, 0x10, 2, 0x20, 2, 4] 1 3 0 [0, 0, 0, 0, 0, 0, 0, 0, 0, 0, 0, 0]
      = .ok (7, [7, 0, 0, 0, 7, 0, 0, 0, 5, 0, 0, 0]) ∧
    after_rows 1 3 0 2
      { input := [0x10, 5, 0x10, 2, 0x20, 2, 4], buffer := [0, 0, 0, 0, 0, 0, 0, 0, 0, 0, 0, 0],
        out := 0, indexw := 0, color := 0 }
      = .ok { input := [0x20, 2, 4], buffer := [0, 0, 0, 0, 6, 0, 0, 0, 5, 0, 0, 0],
              out := 8, indexw := 1, color := 1 } ∧
    after_rows 1 3 0 3
      { input := [0x10, 5, 0x10, 2, 0x20, 2, 4], buffer := [0, 0, 0, 0, 0, 0, 0, 0, 0, 0, 0, 0],
        out := 0, indexw := 0, color := 0 }
      = .ok { input := [], buffer := [7, 0, 0, 0, 7, 0, 0, 0, 5, 0, 0, 0],
              out := 8, indexw := 2, color := 2 } ∧
    (2 : Nat) ≠ 1 ∧
    decoded_rows 1 3 0 3
      { input := [0x10, 5, 0x10, 2, 0x20, 2, 4], buffer := [0, 0, 0, 0, 0, 0, 0, 0, 0, 0, 0, 0],
        out := 0, indexw := 0, color := 0 } = .ok 4 ∧
    (4 : Nat) ≠ 1 * 3 :=
  ⟨rfl, rfl, rfl, by decide, rfl, by decide⟩

/-- Claim C11, amended. On every input on which `process_plane` runs to completion,
the plane decodes at least `W * H` bytes: each of the `H` rows receives at least `W`
pixels, the column counter `indexw` being at least `width` when the row ends (a run
is stored in full, also past the end of its row), the `i`-th decoded row starts at
raster row `H - 1 - i`, and its pixels are stored one every four bytes from there
on, all other bytes staying as they were. -/
theorem plane_rows_least (W H org n : Nat) (input buffer res : List Nat)
    (h : process_plane input W H org buffer = .ok (n, res)) :
    ∃ final,
      after_rows W H org H
        { input := input, buffer := buffer, out := org, indexw := 0, color := 0 }
        = .ok final ∧
      res = final.buffer ∧ n = input.length - final.input.length ∧
      (∃ m, decoded_rows W H org H
          { input := input, buffer := buffer, out := org, indexw := 0, color := 0 } = .ok m ∧
        W * H ≤ m) ∧
      ∀ i, i < H → ∃ t u,
        after_rows W H org i
          { input := input, buffer := buffer, out := org, indexw := 0, color := 0 } = .ok t ∧
        after_rows W H org (i + 1)
          { input := input, buffer := buffer, out := org, indexw := 0, color := 0 } = .ok u ∧
        W ≤ u.indexw ∧
        row_start W H org i = org + (H - 1 - i) * W * 4 ∧
        u.out = row_start W H org i + 4 * u.indexw ∧
        u.buffer.length = t.buffer.length ∧
        ∀ j, (∀ m, m < u.indexw → j ≠ row_start W H org i + 4 * m) →
          u.buffer[j]? = t.buffer[j]? := by
  obtain ⟨final, hf, hres, hn⟩ := process_plane_rows h
  refine ⟨final, hf, hres, hn, decoded_rows_least W H org _ H final hf, ?_⟩
  intro i hi
  obtain ⟨u, hu⟩ := after_rows_initial W H org _ H final hf (i + 1) (by omega)
  obtain ⟨t, ht, hrow⟩ := bind_eq_ok.mp hu
  obtain ⟨⟨s1, s2, s3⟩, hw⟩ := plane_row_span hrow
  exact ⟨t, u, ht, hu, hw, row_start_eq hi, s1, s2, s3⟩

theorem plane_rows_least_witness :
    ∃ final,
      after_rows 1 2 0 2
        { input := [0x10, 5, 0x10, 2], buffer := [0, 0, 0, 0, 0, 0, 0, 0], out := 0,
          indexw := 0, color := 0 }
        = .ok final ∧
      [6, 0, 0, 0, 5, 0, 0, 0] = final.buffer ∧
      4 = [0x10, 5, 0x10, 2].length - final.input.length ∧
      (∃ m, decoded_rows 1 2 0 2
          { input := [0x10, 5, 0x10, 2], buffer := [0, 0, 0, 0, 0, 0, 0, 0], out := 0,
            indexw := 0, color := 0 } = .ok m ∧
        1 * 2 ≤ m) ∧
      ∀ i, i < 2 → ∃ t u,
        after_rows 1 2 0 i
          { input := [0x10, 5, 0x10, 2], buffer := [0, 0, 0, 0, 0, 0, 0, 0], out := 0,
            indexw := 0, color := 0 } = .ok t ∧
        after_rows 1 2 0 (i + 1)
          { input := [0x10, 5, 0x10, 2], buffer := [0, 0, 0, 0, 0, 0, 0, 0], out := 0,
            indexw := 0, color := 0 } = .ok u ∧
        1 ≤ u.indexw ∧
        row_start 1 2 0 i = 0 + (2 - 1 - i) * 1 * 4 ∧
        u.out = row_start 1 2 0 i + 4 * u.indexw ∧
        u.buffer.length = t.buffer.length ∧
        ∀ j, (∀ m, m < u.indexw → j ≠ row_start 1 2 0 i + 4 * m) →
          u.buffer[j]? = t.buffer[j]? :=
  plane_rows_least 1 2 0 4 [0x10, 5, 0x10, 2] [0, 0, 0, 0, 0, 0, 0, 0]
    [6, 0, 0, 0, 5, 0, 0, 0] rfl

/-! ## The geometry of a run -/

theorem cell_parts {W H e : Nat} (hW : 1 ≤ W) :
    cell W H e / W = H - 1 - e / W ∧ cell W H e % W = e % W := by
  unfold cell
  have hr : e % W < W := Nat.mod_lt _ (by omega)
  constructor
  · rw [Nat.add_comm, Nat.add_mul_div_right _ _ (by omega), Nat.div_eq_of_lt hr, Nat.zero_add]
  · rw [Nat.add_comm, Nat.add_mul_mod_self_right, Nat.mod_mod]

theorem cell_lt {W H e : Nat} (hW : 1 ≤ W) (he : e < W * H) : cell W H e < W * H := by
  unfold cell
  have hr : e % W < W := Nat.mod_lt _ (by omega)
  have hq : e / W < H := Nat.div_lt_of_lt_mul he
  generalize e / W = q at hq
  generalize e % W = r at hr
  have h1 : (H - 1 - q + 1) * W ≤ H * W := Nat.mul_le_mul_right _ (by omega)
  rw [Nat.add_mul, Nat.one_mul] at h1
  rw [Nat.mul_comm W H]
  omega

theorem cell_inj {W H e1 e2 : Nat} (hW : 1 ≤ W) (h1 : e1 < W * H) (h2 : e2 < W * H)
    (h : cell W H e1 = cell W H e2) : e1 = e2 := by
  obtain ⟨a1, b1⟩ := @cell_parts W H e1 hW
  obtain ⟨a2, b2⟩ := @cell_parts W H e2 hW
  rw [h] at a1 b1
  have hq1 : e1 / W < H := Nat.div_lt_of_lt_mul h1
  have hq2 : e2 / W < H := Nat.div_lt_of_lt_mul h2
  have hq : e1 / W = e2 / W := by omega
  have hr : e1 % W = e2 % W := by omega
  rw [← Nat.div_add_mod e1 W, ← Nat.div_add_mod e2 W, hq, hr]

theorem cell_above {W H e : Nat} (hW : 1 ≤ W) (h1 : W ≤ e) (h2 : e < W * H) :
    cell W H (e - W) = cell W H e + W := by
  unfold cell
  have hq : e / W < H := Nat.div_lt_of_lt_mul h2
  have hq1 : 1 ≤ e / W := (Nat.one_le_div_iff (by omega)).mpr h1
  have e1 : (e - W) / W = e / W - 1 := by
    have := Nat.sub_mul_div e W 1 (by omega)
    rw [Nat.mul_one] at this
    exact this
  have e2 : (e - W) % W = e % W := (Nat.mod_eq_sub_mod h1).symm
  rw [e1, e2]
  have e3 : H - 1 - (e / W - 1) = (H - 1 - e / W) + 1 := by omega
  rw [e3, Nat.add_mul, Nat.one_mul]
  omega

/-- Where the engine stands in the raster, from its pixel count. -/
theorem geo_cell {W H : Nat} {s : Engine} (hW : 1 ≤ W) (hg : Geo W H s) (hx : s.x < W) :
    s.line = some (s.height * W) ∧ s.height * W + s.x = cell W H s.written ∧
    s.written < W * H ∧
    (s.written < W → s.prevline = none) ∧
    (W ≤ s.written → s.prevline = some ((s.height + 1) * W) ∧
      (s.height + 1) * W + s.x = cell W H (s.written - W)) := by
  obtain ⟨⟨i1, i2, i3⟩, hl, hlen⟩ := hg
  rcases hl with ⟨_, _, _, h4⟩ | ⟨l1, l2, l3⟩
  · omega
  obtain ⟨d, hd⟩ : ∃ d, H = s.height + 1 + d := ⟨H - s.height - 1, by omega⟩
  have hw : s.written = d * W + s.x := by
    have e : H - s.height = d + 1 := by omega
    rw [e, Nat.add_mul, Nat.one_mul] at i1
    omega
  have hq : s.written / W = d := by
    rw [hw, Nat.add_comm, Nat.add_mul_div_right _ _ (by omega), Nat.div_eq_of_lt hx,
      Nat.zero_add]
  have hr : s.written % W = s.x := by
    rw [hw, Nat.add_comm, Nat.add_mul_mod_self_right, Nat.mod_eq_of_lt hx]
  have hc : s.height * W + s.x = cell W H s.written := by
    unfold cell
    rw [hq, hr]
    have : H - 1 - d = s.height := by omega
    rw [this]
  have hlt : s.written < W * H := by
    rw [hw, hd, Nat.mul_comm W, Nat.add_mul, Nat.add_mul, Nat.one_mul]
    omega
  refine ⟨l2, hc, hlt, ?_, ?_⟩
  · intro h
    have hd0 : d = 0 := by
      rcases Nat.eq_zero_or_pos d with h0 | h0
      · exact h0
      · have : W ≤ d * W := Nat.le_mul_of_pos_left W h0
        omega
    rw [l3, if_pos (by omega)]
  · intro h
    have hd0 : d ≠ 0 := by
      intro h0
      rw [h0] at hw
      omega
    refine ⟨by rw [l3, if_neg (by omega)], ?_⟩
    rw [cell_above hW h hlt, ← hc, Nat.add_mul, Nat.one_mul]
    omega

theorem lines_preserved (bpp W H : Nat) : Preserved bpp W (Lines W H) where
  step := by
    intro s u hx hr hl
    rcases hl with ⟨_, _, _, h4⟩ | ⟨l1, l2, l3⟩
    · omega
    · refine Or.inr ⟨?_, ?_, ?_⟩
      · show u.height < H
        rw [hr.height]; exact l1
      · show u.line = some (u.height * W)
        rw [hr.line, hr.height]; exact l2
      · show u.prevline = _
        rw [hr.prevline, hr.height]; exact l3
  insertmix := by
    intro s hs
    exact hs
  advance := by
    intro s t h hl
    rcases advance_ok h with ⟨hx, hh, rfl⟩ | ⟨_, rfl⟩
    · rcases hl with ⟨l1, l2, l3, l4⟩ | ⟨l1, l2, l3⟩
      · refine Or.inr ⟨?_, ?_, ?_⟩
        · show s.height - 1 < H
          omega
        · rfl
        · show s.line = _
          rw [l1, if_pos]
          show s.height - 1 + 1 = H
          omega
      · refine Or.inr ⟨?_, ?_, ?_⟩
        · show s.height - 1 < H
          omega
        · rfl
        · show s.line = _
          rw [l2, if_neg]
          · have : s.height - 1 + 1 = s.height := by omega
            show some (s.height * W) = some ((s.height - 1 + 1) * W)
            rw [this]
          · show ¬ (s.height - 1 + 1 = H)
            omega
    · exact hl
  setup := by
    intro s t h hl
    obtain ⟨hd, _, h1, h2, _, _, h5, h6, _, _⟩ := command_setup_ok h
    unfold Lines
    rw [h1, h2, h5, h6]
    exact hl

theorem length_preserved (bpp W n : Nat) : Preserved bpp W (fun s => s.output.length = n) where
  step := by
    intro s u _ hr hl
    show u.output.length = n
    rw [hr.output]; exact hl
  insertmix := by
    intro s hs
    exact hs
  advance := by
    intro s t h hl
    rcases advance_ok h with ⟨_, _, rfl⟩ | ⟨_, rfl⟩
    · exact hl
    · exact hl
  setup := by
    intro s t h hl
    obtain ⟨hd, _, _, _, _, h4, _⟩ := command_setup_ok h
    show t.output.length = n
    rw [h4]; exact hl

theorem geo_preserved (bpp W H : Nat) : Preserved bpp W (Geo W H) where
  step := fun s u hx hr ⟨h1, h2, h3⟩ =>
    ⟨(inv_preserved bpp W H).step s u hx hr h1, (lines_preserved bpp W H).step s u hx hr h2,
      (length_preserved bpp W (W * H)).step s u hx hr h3⟩
  insertmix := fun _ hs => hs
  advance := fun s t h ⟨h1, h2, h3⟩ =>
    ⟨(inv_preserved bpp W H).advance s t h h1, (lines_preserved bpp W H).advance s t h h2,
      (length_preserved bpp W (W * H)).advance s t h h3⟩
  setup := fun s t h ⟨h1, h2, h3⟩ =>
    ⟨(inv_preserved bpp W H).setup s t h h1, (lines_preserved bpp W H).setup s t h h2,
      (length_preserved bpp W (W * H)).setup s t h h3⟩

theorem geo_init (bpp W H : Nat) (input output : List Nat) (hlen : output.length = W * H) :
    Geo W H (Engine.init bpp W H input output) :=
  ⟨inv_init bpp W H input output, Or.inl ⟨rfl, rfl, rfl, Nat.le_refl _⟩, hlen⟩

/-- The scanline advance succeeds while the raster has room, and changes only the
scanline variables. -/
theorem advance_geo {W H : Nat} {s : Engine} (hW : 1 ≤ W) (hg : Geo W H s)
    (hroom : s.written < W * H) :
    ∃ a, advance W s = .ok a ∧ a.x < W ∧ Geo W H a ∧ a.written = s.written ∧
      a.output = s.output := by
  have hs : ∃ a, advance W s = .ok a := by
    unfold advance
    by_cases hx : W ≤ s.x
    · rw [if_pos hx]
      by_cases hh : s.height = 0
      · exfalso
        obtain ⟨⟨i1, i2, i3⟩, _, _⟩ := hg
        rw [hh, Nat.sub_zero, Nat.mul_comm H W] at i1
        omega
      · rw [if_neg hh]
        exact ⟨_, rfl⟩
    · rw [if_neg hx]
      exact ⟨_, rfl⟩
  obtain ⟨a, ha⟩ := hs
  refine ⟨a, ha, advance_x hW ha, (geo_preserved 2 W H).advance s a ha hg, ?_, ?_⟩
  · rcases advance_ok ha with ⟨_, _, rfl⟩ | ⟨_, rfl⟩ <;> rfl
  · rcases advance_ok ha with ⟨_, _, rfl⟩ | ⟨_, rfl⟩ <;> rfl

/-! ## The output loop as one loop over the pixels -/

theorem repeat_step_rel {statement : Engine → Except Stop Engine} (hst : GoodStmt statement)
    {s t : Engine} (h : repeat_step statement s = .ok t) :
    t.x = s.x + 1 ∧ t.prevline = s.prevline ∧ t.height = s.height ∧ t.opcode = s.opcode ∧
    t.insertmix = s.insertmix := by
  unfold repeat_step at h
  obtain ⟨u, hu, h⟩ := bind_eq_ok.mp h
  simp only [Except.ok.injEq] at h
  subst h
  have hr := hst s u hu
  exact ⟨by simp [hr.x], hr.prevline, hr.height, hr.opcode, hr.insertmix⟩

theorem advance_stay {W : Nat} {s : Engine} (hx : s.x < W) : advance W s = .ok s := by
  unfold advance
  rw [if_neg (by omega)]

theorem advance_keeps {W : Nat} {s a : Engine} (h : advance W s = .ok a) :
    a.count = s.count ∧ a.opcode = s.opcode ∧ a.insertmix = s.insertmix ∧
    (W ≤ s.x → a.height + 1 = s.height) ∧ (s.x < W → a = s) := by
  rcases advance_ok h with ⟨hx, hh, rfl⟩ | ⟨hx, rfl⟩
  · refine ⟨rfl, rfl, rfl, fun _ => ?_, fun h => by omega⟩
    show s.height - 1 + 1 = s.height
    omega
  · exact ⟨rfl, rfl, rfl, fun h => by omega, fun _ => rfl⟩

theorem flat_succ (sel : Engine → Engine → Except Stop Engine) (W n : Nat) (s : Engine)
    (hc : 0 < s.count) :
    flat sel W (n + 1) s
      = (advance W s >>= fun a => repeat_step (sel a) a >>= flat sel W n) := by
  show (if 0 < s.count then _ else _) = _
  rw [if_pos hc]

theorem flat_done (sel : Engine → Engine → Except Stop Engine) (W n : Nat) (s : Engine)
    (hc : s.count = 0) : flat sel W (n + 1) s = .ok s := by
  show (if 0 < s.count then _ else _) = _
  rw [if_neg (by omega)]

theorem flat_ok_pos {sel : Engine → Engine → Except Stop Engine} {W m : Nat} {s t : Engine}
    (h : flat sel W m s = .ok t) : ∃ m0, m = m0 + 1 := by
  cases m with
  | zero => simp [flat] at h
  | succ m0 => exact ⟨m0, rfl⟩

/-- The tail loop of `REPEAT` runs the pixels of the flat loop up to the end of the
scanline. -/
theorem tail_flat {sel : Engine → Engine → Except Stop Engine}
    (hgood : ∀ a, GoodStmt (sel a)) (hsel : ∀ a b, a.prevline = b.prevline → sel a = sel b)
    (W : Nat) (a0 : Engine) :
    ∀ (g : Nat) (a : Engine) (m : Nat) (t : Engine), a.prevline = a0.prevline →
      flat sel W m a = .ok t → W - a.x < g →
      ∃ u m', repeat_tail (sel a0) W g a = .ok u ∧ flat sel W m' u = .ok t ∧
        (u.count = 0 ∨ W ≤ u.x) ∧ u.height = a.height ∧ u.opcode = a.opcode ∧
        u.insertmix = a.insertmix := by
  intro g
  induction g with
  | zero => intro a m t _ _ hg; omega
  | succ g ih =>
    intro a m t hp hf hg
    by_cases hgd : 0 < a.count ∧ a.x < W
    · obtain ⟨m0, rfl⟩ := flat_ok_pos hf
      rw [flat_succ sel W m0 a hgd.1, advance_stay hgd.2, ok_bind] at hf
      obtain ⟨a', ha', hf'⟩ := bind_eq_ok.mp hf
      have hs : sel a = sel a0 := hsel a a0 hp
      rw [hs] at ha'
      obtain ⟨r1, r2, r3, r4, r5⟩ := repeat_step_rel (hgood a0) ha'
      obtain ⟨u, m', hu, hfu, hend, h1, h2, h3⟩ :=
        ih a' m0 t (r2.trans hp) hf' (by omega)
      refine ⟨u, m', ?_, hfu, hend, h1.trans r3, h2.trans r4, h3.trans r5⟩
      rw [repeat_tail_succ _ _ _ _ hgd.1 hgd.2, ha']
      exact hu
    · refine ⟨a, m, repeat_tail_exit _ _ _ _ hgd, hf, ?_, rfl, rfl, rfl⟩
      by_cases hc : a.count = 0
      · exact Or.inl hc
      · exact Or.inr (by omega)

/-- The output loop of a command whose `switch` case is one `REPEAT` returns what
the flat loop over its pixels returns. -/
theorem flat_body {bpp W : Nat} (hW : 1 ≤ W) {sel : Engine → Engine → Except Stop Engine}
    (hgood : ∀ a, GoodStmt (sel a)) (hsel : ∀ a b, a.prevline = b.prevline → sel a = sel b)
    (o : Nat)
    (hsw : ∀ a, a.opcode = o → (o = 0 → a.insertmix = false) →
      output_switch bpp W a = REPEAT (sel a) W a) :
    ∀ (f : Nat) (s : Engine) (m : Nat) (t : Engine), flat sel W m s = .ok t →
      s.opcode = o → (o = 0 → s.insertmix = false) →
      (s.height + 2 ≤ f ∨ ((W ≤ s.x ∨ s.count = 0) ∧ s.height + 1 ≤ f)) →
      output_body bpp W f s = .ok t := by
  intro f
  induction f with
  | zero => intro s m t _ _ _ hf; omega
  | succ f ih =>
    intro s m t hfl ho hi hfuel
    obtain ⟨m0, rfl⟩ := flat_ok_pos hfl
    unfold output_body
    by_cases hc : 0 < s.count
    · rw [if_pos hc]
      rw [flat_succ sel W m0 s hc] at hfl
      obtain ⟨a, ha, hfl⟩ := bind_eq_ok.mp hfl
      obtain ⟨k1, k2, k3, k4, k5⟩ := advance_keeps ha
      have hax : a.x < W := advance_x hW ha
      have hfa : flat sel W (m0 + 1) a = .ok t := by
        rw [flat_succ sel W m0 a (by omega), advance_stay hax, ok_bind]
        exact hfl
      obtain ⟨u, m', hu, hfu, hend, h1, h2, h3⟩ :=
        tail_flat hgood hsel W a (W + 1) a (m0 + 1) t rfl hfa (by omega)
      rw [ha]
      show (output_switch bpp W a >>= fun s => output_body bpp W f s) = _
      rw [hsw a (k2.trans ho) (fun h0 => k3.trans (hi h0)), REPEAT_eq_tail (hgood a), hu]
      refine ih u m' t hfu (h2.trans (k2.trans ho))
        (fun h0 => h3.trans (k3.trans (hi h0))) (Or.inr ⟨?_, ?_⟩)
      · rcases hend with h | h
        · exact Or.inr h
        · exact Or.inl h
      · rw [h1]
        by_cases hx : W ≤ s.x
        · have := k4 hx
          omega
        · have := k5 (by omega)
          subst this
          omega
    · rw [if_neg hc]
      rw [flat_done sel W m0 s (by omega)] at hfl
      exact hfl

/-- The rest of a round of the output loop, from a state inside a scanline. -/
theorem flat_switch {bpp W : Nat} (hW : 1 ≤ W) {sel : Engine → Engine → Except Stop Engine}
    (hgood : ∀ a, GoodStmt (sel a)) (hsel : ∀ a b, a.prevline = b.prevline → sel a = sel b)
    (o : Nat)
    (hsw : ∀ a, a.opcode = o → (o = 0 → a.insertmix = false) →
      output_switch bpp W a = REPEAT (sel a) W a)
    {f m : Nat} {b t : Engine} (hfl : flat sel W m b = .ok t) (ho : b.opcode = o)
    (hi : o = 0 → b.insertmix = false) (hfuel : b.height + 1 ≤ f) :
    (REPEAT (sel b) W b >>= fun s => output_body bpp W f s) = .ok t := by
  obtain ⟨u, m', hu, hfu, hend, h1, h2, h3⟩ :=
    tail_flat hgood hsel W b (W + 1) b m t rfl hfl (by omega)
  rw [REPEAT_eq_tail (hgood b), hu]
  refine flat_body hW hgood hsel o hsw f u m' t hfu (h2.trans ho)
    (fun h0 => h3.trans (hi h0)) (Or.inr ⟨?_, by omega⟩)
  rcases hend with h | h
  · exact Or.inr h
  · exact Or.inl h

/-- The pixels of a flat run: if pixel `j` of the run stores `val j above` and takes
the state from `A j` to `A (j + 1)`, then the run of `n` pixels from the `e0`-th
pixel of the raster on succeeds, and leaves these values in the cells of the pixels
`e0 .. e0 + n - 1` and the other cells as they were. -/
theorem flat_run {W H : Nat} (hW : 1 ≤ W) {sel : Engine → Engine → Except Stop Engine}
    (hgood : ∀ a, GoodStmt (sel a)) (e0 n : Nat) (A : Nat → Engine → Prop)
    (val : Nat → Nat → Nat)
    (hadv : ∀ j s a, advance W s = .ok a → A j s → A j a)
    (hpos : ∀ j s, j < n → A j s → 0 < s.count)
    (hend : ∀ s, A n s → s.count = 0)
    (hstep : ∀ j a, j < n → A j a → Geo W H a → a.x < W → a.written = e0 + j →
      ∃ u, sel a a = .ok u ∧ A (j + 1) { u with count := u.count - 1, x := u.x + 1 } ∧
        u.output = a.output.set (cell W H (e0 + j))
          (val j (pixel_above W H a.output (e0 + j))))
    (hfit : e0 + n ≤ W * H) :
    ∀ (d j : Nat) (s : Engine), j + d = n → A j s → Geo W H s → s.written = e0 + j →
      ∃ t, flat sel W (d + 1) s = .ok t ∧ A n t ∧ Geo W H t ∧ t.written = e0 + n ∧
        (∀ i, j ≤ i → i < n →
          t.output[cell W H (e0 + i)]? = some (val i (pixel_above W H t.output (e0 + i)))) ∧
        (∀ c, (∀ i, j ≤ i → i < n → c ≠ cell W H (e0 + i)) → t.output[c]? = s.output[c]?) := by
  intro d
  induction d with
  | zero =>
    intro j s hj hA hg hw
    have hjn : j = n := by omega
    subst hjn
    refine ⟨s, flat_done sel W 0 s (hend s hA), hA, hg, hw, ?_, fun _ _ => rfl⟩
    intro i h1 h2
    omega
  | succ d ih =>
    intro j s hj hA hg hw
    have hjn : j < n := by omega
    have hc := hpos j s hjn hA
    obtain ⟨a, ha, hax, hga, haw, hao⟩ := advance_geo hW hg (by omega)
    obtain ⟨u, hu, hAu, huo⟩ := hstep j a hjn (hadv j s a ha hA) hga hax (by omega)
    have hrel := hgood a a u hu
    have hgs := (geo_preserved 2 W H).step a u hax hrel hga
    have hstep' : repeat_step (sel a) a
        = .ok { u with count := u.count - 1, x := u.x + 1 } := by
      unfold repeat_step
      rw [hu]
      rfl
    obtain ⟨t, ht, hAt, hgt, htw, hpix, hfr⟩ :=
      ih (j + 1) { u with count := u.count - 1, x := u.x + 1 } (by omega) hAu hgs
        (by show u.written = _; rw [hrel.written]; omega)
    have hcj : cell W H (e0 + j) < a.output.length := by
      rw [hga.2.2]
      exact cell_lt hW (by omega)
    have hne : ∀ i, j + 1 ≤ i → i < n → cell W H (e0 + j) ≠ cell W H (e0 + i) := by
      intro i h1 h2 heq
      have := cell_inj hW (by omega) (by omega) heq
      omega
    refine ⟨t, ?_, hAt, hgt, htw, ?_, ?_⟩
    · rw [flat_succ sel W (d + 1) s hc, ha, ok_bind, hstep', ok_bind]
      exact ht
    · intro i h1 h2
      by_cases hij : i = j
      · subst hij
        rw [hfr _ hne]
        show u.output[_]? = _
        rw [huo, List.getElem?_set, if_pos rfl]
        simp only [hcj, if_true]
        have hab : pixel_above W H t.output (e0 + i) = pixel_above W H a.output (e0 + i) := by
          unfold pixel_above
          by_cases hb : e0 + i < W
          · rw [if_pos hb, if_pos hb]
          · rw [if_neg hb, if_neg hb]
            have hne2 : ∀ k, i + 1 ≤ k → k < n →
                cell W H (e0 + i - W) ≠ cell W H (e0 + k) := by
              intro k h1 h2 heq
              have := cell_inj hW (by omega) (by omega) heq
              omega
            rw [hfr _ hne2]
            show (u.output[_]?).getD 0 = _
            rw [huo, List.getElem?_set_ne]
            intro heq
            have := cell_inj hW (by omega) (by omega) heq
            omega
        rw [hab]
      · exact hpix i (by omega) h2
    · intro c hcne
      rw [hfr c (fun i h1 h2 => hcne i (by omega) h2)]
      show u.output[c]? = _
      rw [huo, List.getElem?_set_ne (fun h => hcne j (Nat.le_refl _) hjn h.symm), hao]

/-! ## The bicolour toggle -/

theorem store_toggle {s t : Engine} {v : Nat} (h : s.store v = .ok t) :
    t.bicolour = s.bicolour := by
  obtain ⟨base, _, _, rfl⟩ := store_ok h
  rfl

theorem mask_update_toggle {s t : Engine} (h : MASK_UPDATE s = .ok t) :
    t.bicolour = s.bicolour := by
  unfold MASK_UPDATE at h
  simp only at h
  split at h
  · split at h
    · simp only [Except.ok.injEq] at h
      subst h
      rfl
    · cases hin : s.input with
      | nil => rw [hin] at h; simp at h
      | cons b tl =>
        rw [hin] at h
        simp only [CVAL_cons, ok_bind, Except.ok.injEq] at h
        subst h
        rfl
  · simp only [Except.ok.injEq] at h
    subst h
    rfl

theorem keeps_store (f : Engine → Nat) : KeepsToggle (fun s => s.store (f s)) :=
  fun _ _ h => store_toggle h

theorem keeps_fill_null : KeepsToggle fill_null :=
  fun _ _ h => store_toggle h

theorem keeps_fill_above : KeepsToggle fill_above := by
  intro s t h
  unfold fill_above at h
  obtain ⟨a, _, h⟩ := bind_eq_ok.mp h
  exact store_toggle h

theorem keeps_mix_null : KeepsToggle mix_null :=
  fun _ _ h => store_toggle h

theorem keeps_mix_above : KeepsToggle mix_above := by
  intro s t h
  unfold mix_above at h
  obtain ⟨a, _, h⟩ := bind_eq_ok.mp h
  exact store_toggle h

theorem keeps_fom_null : KeepsToggle fom_null := by
  intro s t h
  unfold fom_null at h
  obtain ⟨u, hu, h⟩ := bind_eq_ok.mp h
  have key : t.bicolour = u.bicolour := by
    split at h <;> exact store_toggle h
  exact key.trans (mask_update_toggle hu)

theorem keeps_fom_above : KeepsToggle fom_above := by
  intro s t h
  unfold fom_above at h
  obtain ⟨u, hu, h⟩ := bind_eq_ok.mp h
  have key : t.bicolour = u.bicolour := by
    split at h
    · obtain ⟨a, _, h⟩ := bind_eq_ok.mp h
      exact store_toggle h
    · obtain ⟨a, _, h⟩ := bind_eq_ok.mp h
      exact store_toggle h
  exact key.trans (mask_update_toggle hu)

theorem keeps_copy (bpp : Nat) : KeepsToggle (copy_statement bpp) := by
  intro s t h
  unfold copy_statement at h
  obtain ⟨⟨v, rest⟩, _, h⟩ := bind_eq_ok.mp h
  have key : t.bicolour = ({ s with input := rest } : Engine).bicolour := store_toggle h
  exact key

/-- A property that every `statement; count--; x++;` keeps holds after the tail
loop of `REPEAT`. -/
theorem repeat_tail_inv {statement : Engine → Except Stop Engine} {W : Nat}
    (P : Engine → Prop)
    (hP : ∀ s u, 0 < s.count → P s → repeat_step statement s = .ok u → P u) :
    ∀ (g : Nat) (s t : Engine), P s → repeat_tail statement W g s = .ok t → P t := by
  intro g
  induction g with
  | zero => intro s t _ h; simp [repeat_tail] at h
  | succ g ih =>
    intro s t hs h
    by_cases hgd : 0 < s.count ∧ s.x < W
    · rw [repeat_tail_succ _ _ _ _ hgd.1 hgd.2] at h
      obtain ⟨u, hu, h⟩ := bind_eq_ok.mp h
      exact ih u t (hP s u hgd.1 hs hu) h
    · rw [repeat_tail_exit _ _ _ _ hgd] at h
      simp only [Except.ok.injEq] at h
      subst h
      exact hs

theorem REPEAT_toggle {statement : Engine → Except Stop Engine} (hst : GoodStmt statement)
    (hk : KeepsToggle statement) {W : Nat} {s t : Engine}
    (h : REPEAT statement W s = .ok t) : t.bicolour = s.bicolour := by
  rw [REPEAT_eq_tail hst] at h
  refine repeat_tail_inv (fun u => u.bicolour = s.bicolour) ?_ _ s t rfl h
  intro a u _ ha hu
  unfold repeat_step at hu
  obtain ⟨w, hw, hu⟩ := bind_eq_ok.mp hu
  simp only [Except.ok.injEq] at hu
  subst hu
  exact (hk a w hw).trans ha

theorem REPEAT_bicolour {W : Nat} {s t : Engine}
    (h : REPEAT bicolour_statement W s = .ok t) (hs : s.bicolour = true → 0 < s.count) :
    t.bicolour = true → 0 < t.count := by
  rw [REPEAT_eq_tail good_bicolour] at h
  refine repeat_tail_inv (fun u => u.bicolour = true → 0 < u.count) ?_ _ s t hs h
  intro a u hc _ hu
  unfold repeat_step at hu
  obtain ⟨w, hw, hu⟩ := bind_eq_ok.mp hu
  simp only [Except.ok.injEq] at hu
  subst hu
  unfold bicolour_statement at hw
  split at hw
  · obtain ⟨v, hv, hw⟩ := bind_eq_ok.mp hw
    simp only [Except.ok.injEq] at hw
    subst hw
    intro hb
    simp at hb
  · obtain ⟨v, hv, hw⟩ := bind_eq_ok.mp hw
    simp only [Except.ok.injEq] at hw
    subst hw
    intro _
    show 0 < v.count + 1 - 1
    rw [store_count hv]
    omega

theorem insert_mix_toggle {s t : Engine} (h : insert_mix s = .ok t) :
    t.bicolour = s.bicolour := by
  unfold insert_mix at h
  split at h
  · obtain ⟨u, hu, h⟩ := bind_eq_ok.mp h
    simp only [Except.ok.injEq] at h
    subst h
    show u.bicolour = s.bicolour
    split at hu
    · exact keeps_mix_null s u hu
    · exact keeps_mix_above s u hu
  · simp only [Except.ok.injEq] at h
    subst h
    rfl

theorem switch_toggle {bpp W : Nat} {a u : Engine} (hx : a.x < W)
    (h : output_switch bpp W a = .ok u) (hk : ToggleInv a) : ToggleInv u := by
  have hop : u.opcode = a.opcode :=
    (output_switch_pres (frame_run W a) hx (frame_refl a) h).1.2.2.2.1
  by_cases h8 : a.opcode = 8
  · have hsw : output_switch bpp W a = REPEAT bicolour_statement W a := by
      unfold output_switch
      simp [h8]
    rw [hsw] at h
    intro hb
    exact ⟨REPEAT_bicolour h (fun hb => (hk hb).1) hb, hop.trans h8⟩
  · have hb : a.bicolour = false := by
      cases hbv : a.bicolour with
      | false => rfl
      | true => exact absurd (hk hbv).2 h8
    have hub : u.bicolour = false := by
      unfold output_switch at h
      by_cases h0 : a.opcode = 0
      · rw [if_pos h0] at h
        obtain ⟨b, hb1, h⟩ := bind_eq_ok.mp h
        have e1 := insert_mix_toggle hb1
        split at h
        · exact ((REPEAT_toggle good_fill_null keeps_fill_null h).trans e1).trans hb
        · exact ((REPEAT_toggle good_fill_above keeps_fill_above h).trans e1).trans hb
      rw [if_neg h0] at h
      by_cases h1 : a.opcode = 1
      · rw [if_pos h1] at h
        split at h
        · exact (REPEAT_toggle good_mix_null keeps_mix_null h).trans hb
        · exact (REPEAT_toggle good_mix_above keeps_mix_above h).trans hb
      rw [if_neg h1] at h
      by_cases h2 : a.opcode = 2
      · rw [if_pos h2] at h
        split at h
        · exact (REPEAT_toggle good_fom_null keeps_fom_null h).trans hb
        · exact (REPEAT_toggle good_fom_above keeps_fom_above h).trans hb
      rw [if_neg h2] at h
      by_cases h3 : a.opcode = 3
      · rw [if_pos h3] at h
        exact (REPEAT_toggle (good_store _) (keeps_store _) h).trans hb
      rw [if_neg h3] at h
      by_cases h4 : a.opcode = 4
      · rw [if_pos h4] at h
        exact (REPEAT_toggle (good_copy bpp) (keeps_copy bpp) h).trans hb
      rw [if_neg h4, if_neg h8] at h
      by_cases hd : a.opcode = 0xd
      · rw [if_pos hd] at h
        exact (REPEAT_toggle (good_store _) (keeps_store _) h).trans hb
      rw [if_neg hd] at h
      by_cases he : a.opcode = 0xe
      · rw [if_pos he] at h
        exact (REPEAT_toggle (good_store _) (keeps_store _) h).trans hb
      rw [if_neg he] at h
      simp at h
    intro hbt
    rw [hub] at hbt
    simp at hbt

theorem output_body_toggle {bpp W : Nat} (hW : 1 ≤ W) :
    ∀ (f : Nat) (s t : Engine), ToggleInv s → output_body bpp W f s = .ok t →
      t.bicolour = false := by
  intro f
  induction f with
  | zero => intro s t _ h; simp [output_body] at h
  | succ f ih =>
    intro s t hk h
    unfold output_body at h
    split at h
    · obtain ⟨a, ha, h⟩ := bind_eq_ok.mp h
      obtain ⟨u, hu, h⟩ := bind_eq_ok.mp h
      have hka : ToggleInv a := by
        rcases advance_ok ha with ⟨_, _, rfl⟩ | ⟨_, rfl⟩
        · exact hk
        · exact hk
      exact ih u t (switch_toggle (advance_x hW ha) hu hka) h
    · rename_i hc
      simp only [Except.ok.injEq] at h
      subst h
      cases hb : s.bicolour with
      | false => rfl
      | true => exact absurd (hk hb).1 hc

theorem preliminary_toggle {bpp W : Nat} {s t : Engine} (h : preliminary bpp W s = .ok t) :
    t.bicolour = s.bicolour := by
  unfold preliminary at h
  split at h
  · split at h <;>
    · simp only [Except.ok.injEq] at h
      subst h
      rfl
  · split at h
    · obtain ⟨⟨c1, i1⟩, _, h⟩ := bind_eq_ok.mp h
      obtain ⟨⟨c2, i2⟩, _, h⟩ := bind_eq_ok.mp h
      simp only [Except.ok.injEq] at h
      subst h
      rfl
    · split at h
      · obtain ⟨⟨c2, i2⟩, _, h⟩ := bind_eq_ok.mp h
        simp only [Except.ok.injEq] at h
        subst h
        rfl
      · split at h
        · obtain ⟨⟨c2, i2⟩, _, h⟩ := bind_eq_ok.mp h
          simp only [Except.ok.injEq] at h
          subst h
          rfl
        · split at h
          · simp only [Except.ok.injEq] at h
            subst h
            rfl
          · split at h <;>
            · simp only [Except.ok.injEq] at h
              subst h
              rfl

theorem setup_toggle {bpp W : Nat} {s t : Engine} (h : command_setup bpp W s = .ok t) :
    t.bicolour = s.bicolour := by
  unfold command_setup at h
  simp only at h
  obtain ⟨hd, _, h⟩ := bind_eq_ok.mp h
  obtain ⟨u, hu, h⟩ := bind_eq_ok.mp h
  simp only [Except.ok.injEq] at h
  subst h
  have key := preliminary_toggle hu
  exact key

theorem command_toggle {bpp W : Nat} (hW : 1 ≤ W) {s t : Engine}
    (h : command bpp W s = .ok t) (hs : s.bicolour = false) : t.bicolour = false := by
  unfold command at h
  obtain ⟨u, hu, h⟩ := bind_eq_ok.mp h
  refine output_body_toggle hW _ u t ?_ h
  intro hb
  rw [setup_toggle hu, hs] at hb
  simp at hb

/-- The `bicolour` toggle is clear at every command boundary. -/
theorem after_commands_toggle {bpp W : Nat} (hW : 1 ≤ W) :
    ∀ (k : Nat) (s t : Engine), s.bicolour = false → after_commands bpp W k s = .ok t →
      t.bicolour = false := by
  intro k
  induction k with
  | zero =>
    intro s t hs h
    simp only [after_commands, Except.ok.injEq] at h
    subst h
    exact hs
  | succ k ih =>
    intro s t hs h
    unfold after_commands at h
    obtain ⟨u, hu, h⟩ := bind_eq_ok.mp h
    exact ih u t (command_toggle hW hu hs) h

/-! ## The pixels of a run -/

theorem store_eq {s : Engine} {base : Nat} (hl : s.line = some base)
    (hb : base + s.x < s.output.length) (v : Nat) :
    s.store v = .ok { s with output := s.output.set (base + s.x) v,
                             written := s.written + 1 } := by
  unfold Engine.store
  rw [hl]
  simp only
  rw [if_pos hb]

theorem above_eq {s : Engine} {pb v : Nat} (hp : s.prevline = some pb)
    (hv : s.output[pb + s.x]? = some v) : s.above = .ok v := by
  unfold Engine.above
  rw [hp]
  simp only
  rw [hv]

/-- The cell the next pixel goes to and the pixel above it. -/
theorem geo_pixel {W H : Nat} {s : Engine} (hW : 1 ≤ W) (hg : Geo W H s) (hx : s.x < W) :
    ∃ base, s.line = some base ∧ base + s.x = cell W H s.written ∧
      base + s.x < s.output.length ∧
      ((s.prevline = none ∧ pixel_above W H s.output s.written = 0) ∨
       (∃ pb, s.prevline = some pb ∧
         s.output[pb + s.x]? = some (pixel_above W H s.output s.written))) := by
  obtain ⟨h1, h2, h3, h4, h5⟩ := geo_cell hW hg hx
  have hlen := hg.2.2
  refine ⟨_, h1, h2, ?_, ?_⟩
  · rw [h2, hlen]
    exact cell_lt hW h3
  · by_cases hw : s.written < W
    · refine Or.inl ⟨h4 hw, ?_⟩
      unfold pixel_above
      rw [if_pos hw]
    · obtain ⟨p1, p2⟩ := h5 (by omega)
      refine Or.inr ⟨_, p1, ?_⟩
      unfold pixel_above
      rw [if_neg hw, p2]
      have hlt : cell W H (s.written - W) < s.output.length := by
        rw [hlen]
        exact cell_lt hW (by omega)
      rw [List.getElem?_eq_getElem hlt]
      rfl

theorem command_eq {bpp W : Nat} {s0 s1 : Engine} (hs : command_setup bpp W s0 = .ok s1) :
    command bpp W s0 = output_body bpp W (s1.height + 2) s1 := by
  unfold command
  rw [hs]
  rfl

theorem reach_geo {W H k : Nat} {input output : List Nat} {s0 : Engine} (hW : 1 ≤ W)
    (hlen : output.length = W * H)
    (hk : after_commands 2 W k (Engine.init 2 W H input output) = .ok s0) : Geo W H s0 :=
  after_commands_pres (geo_preserved 2 W H) hW k _ s0 (geo_init 2 W H input output hlen) hk

theorem switch_bicolour {bpp W : Nat} (a : Engine) (h : a.opcode = 8) :
    output_switch bpp W a = REPEAT bicolour_statement W a := by
  unfold output_switch
  simp [h]

theorem bicolour_step {W H : Nat} (hW : 1 ≤ W) {a : Engine} (hg : Geo W H a) (hx : a.x < W)
    {j c c1 c2 : Nat} (hb : a.bicolour = decide (j % 2 = 1)) (hc : a.count = c - j / 2)
    (h1 : a.colour1 = c1) (h2 : a.colour2 = c2) :
    ∃ u, bicolour_statement a = .ok u ∧
      (u.bicolour = decide ((j + 1) % 2 = 1) ∧ (j < 2 * c → u.count - 1 = c - (j + 1) / 2) ∧
        u.colour1 = c1 ∧ u.colour2 = c2) ∧
      u.output = a.output.set (cell W H a.written) (if j % 2 = 0 then c1 else c2) := by
  obtain ⟨base, hl, hcell, hlt, _⟩ := geo_pixel hW hg hx
  unfold bicolour_statement
  by_cases hj : j % 2 = 1
  · have hbt : a.bicolour = true := by rw [hb]; simp [hj]
    rw [hbt, if_pos rfl, store_eq hl hlt, ok_bind]
    refine ⟨_, rfl, ⟨?_, ?_, h1, h2⟩, ?_⟩
    · have : (j + 1) % 2 ≠ 1 := by omega
      simp [this]
    · intro hjc
      show a.count - 1 = _
      omega
    · show a.output.set (base + a.x) a.colour2 = _
      rw [hcell, h2, if_neg (by omega)]
  · have hbf : a.bicolour = false := by rw [hb]; simp [hj]
    rw [hbf]
    simp only [Bool.false_eq_true, if_false]
    rw [store_eq hl hlt, ok_bind]
    refine ⟨_, rfl, ⟨?_, ?_, h1, h2⟩, ?_⟩
    · have : (j + 1) % 2 = 1 := by omega
      simp [this]
    · intro hjc
      show a.count + 1 - 1 = _
      omega
    · show a.output.set (base + a.x) a.colour1 = _
      rw [hcell, h1, if_pos (by omega)]

/-- Claim C19. Every Bicolour command of a stream decoded by `bitmap_decompress2`,
with count `n`, whose `2 * n` pixels fit in the rest of the raster, completes, emits
exactly `2 * n` pixels, the `i`-th being `colour1` for even `i` and `colour2` for odd
`i`, wherever the scanline boundaries fall, and leaves the other cells as they are;
the `bicolour` toggle is clear when the command starts and when it ends. -/
theorem bicolour_run (W H : Nat) (input output : List Nat) (k : Nat) (s0 s1 : Engine)
    (hW : 1 ≤ W) (hlen : output.length = W * H)
    (hk : after_commands 2 W k (Engine.init 2 W H input output) = .ok s0)
    (hs : command_setup 2 W s0 = .ok s1) (hop : s1.opcode = 8)
    (hfit : s0.written + 2 * s1.count ≤ W * H) :
    ∃ t, command 2 W s0 = .ok t ∧ t.written = s0.written + 2 * s1.count ∧
      s0.bicolour = false ∧ t.bicolour = false ∧
      (∀ i, i < 2 * s1.count →
        t.output[cell W H (s0.written + i)]?
          = some (if i % 2 = 0 then s1.colour1 else s1.colour2)) ∧
      (∀ c, (∀ i, i < 2 * s1.count → c ≠ cell W H (s0.written + i)) →
        t.output[c]? = s0.output[c]?) := by
  have hg0 := reach_geo hW hlen hk
  have hb0 : s0.bicolour = false := after_commands_toggle hW k _ s0 rfl hk
  obtain ⟨hd, _, _, _, hwr, hout, _, _, _, _⟩ := command_setup_ok hs
  have hg1 : Geo W H s1 := (geo_preserved 2 W H).setup s0 s1 hs hg0
  have hb1 : s1.bicolour = false := (setup_toggle hs).trans hb0
  obtain ⟨t, hflat, hA, hgt, htw, hpix, hfr⟩ :=
    @flat_run W H hW (fun _ => bicolour_statement) (fun _ => good_bicolour) s0.written
      (2 * s1.count)
      (fun j s => s.bicolour = decide (j % 2 = 1) ∧ s.count = s1.count - j / 2 ∧
        s.colour1 = s1.colour1 ∧ s.colour2 = s1.colour2)
      (fun j _ => if j % 2 = 0 then s1.colour1 else s1.colour2)
      (by
        intro j s a ha hA
        rcases advance_ok ha with ⟨_, _, rfl⟩ | ⟨_, rfl⟩
        · exact hA
        · exact hA)
      (by
        intro j s hj hA
        have := hA.2.1
        omega)
      (by
        intro s hA
        have := hA.2.1
        omega)
      (by
        intro j a hj hA hga hax haw
        obtain ⟨u, hu, ⟨b1, b2, b3, b4⟩, huo⟩ :=
          bicolour_step hW hga hax hA.1 hA.2.1 hA.2.2.1 hA.2.2.2
        refine ⟨u, hu, ⟨b1, b2 hj, b3, b4⟩, ?_⟩
        rw [huo, haw])
      hfit (2 * s1.count) 0 s1 (by omega) ⟨by simp [hb1], by simp, rfl, rfl⟩ hg1
      (by omega)
  have hbody : output_body 2 W (s1.height + 2) s1 = .ok t :=
    flat_body hW (fun _ => good_bicolour) (fun _ _ _ => rfl) 8
      (fun a h _ => switch_bicolour a h) (s1.height + 2) s1 _ t hflat hop
      (fun h => absurd h (by decide)) (Or.inl (le_refl _))
  refine ⟨t, by rw [command_eq hs]; exact hbody, htw, hb0, ?_, ?_, ?_⟩
  · have := hA.1
    rw [this]
    simp
  · intro i hi
    exact hpix i (Nat.zero_le _) hi
  · intro c hc
    rw [hfr c (fun i _ hi => hc i hi), hout]

theorem bicolour_run_witness :
    ∃ t, command 2 3 (Engine.init 2 3 2 [0xE2, 0x11, 0x22, 0x33, 0x44] [0, 0, 0, 0, 0, 0])
        = .ok t ∧
      t.written = 0 + 2 * 2 ∧
      (Engine.init 2 3 2 [0xE2, 0x11, 0x22, 0x33, 0x44] [0, 0, 0, 0, 0, 0]).bicolour = false ∧
      t.bicolour = false ∧
      (∀ i, i < 2 * 2 →
        t.output[cell 3 2 (0 + i)]? = some (if i % 2 = 0 then 0x2211 else 0x4433)) ∧
      (∀ c, (∀ i, i < 2 * 2 → c ≠ cell 3 2 (0 + i)) →
        t.output[c]? = [0, 0, 0, 0, 0, 0][c]?) :=
  bicolour_run 3 2 [0xE2, 0x11, 0x22, 0x33, 0x44] [0, 0, 0, 0, 0, 0] 0
    (Engine.init 2 3 2 [0xE2, 0x11, 0x22, 0x33, 0x44] [0, 0, 0, 0, 0, 0])
    { input := [], output := [0, 0, 0, 0, 0, 0], x := 3, height := 2, prevline := none,
      line := none, opcode := 8, count := 2, lastopcode := 8, insertmix := false,
      bicolour := false, colour1 := 0x2211, colour2 := 0x4433, mixmask := 0, mask := 0,
      mix := 65535, fom_mask := 0, written := 0 }
    (by decide) rfl rfl rfl rfl (by decide)

/-! ## Fill-Or-Mix runs -/

theorem and_pow_iff (m b : Nat) : m &&& 2 ^ b ≠ 0 ↔ m.testBit b = true := by
  constructor
  · intro h
    by_contra hb
    apply h
    apply Nat.eq_of_testBit_eq
    intro i
    rw [Nat.testBit_and, Nat.testBit_two_pow, Nat.zero_testBit]
    by_cases hi : b = i
    · subst hi
      simp [hb]
    · simp [hi]
  · intro hb h
    have := congrArg (fun x => Nat.testBit x b) h
    simp [Nat.testBit_and, Nat.testBit_two_pow, hb] at this

theorem shift_mask (e : Nat) (he : e < 8) :
    (2 ^ e <<< 1) % 256 = if e = 7 then 0 else 2 ^ (e + 1) := by
  have h : e = 0 ∨ e = 1 ∨ e = 2 ∨ e = 3 ∨ e = 4 ∨ e = 5 ∨ e = 6 ∨ e = 7 := by omega
  rcases h with rfl | rfl | rfl | rfl | rfl | rfl | rfl | rfl <;> decide

theorem pow_ne_zero_two (e : Nat) : 2 ^ e ≠ 0 := Nat.pos_iff_ne_zero.mp (Nat.two_pow_pos e)

/-- The macro `MASK_UPDATE` before pixel `j` of a Fill-Or-Mix run of `c` pixels:
the bit of pixel `j` is selected, and a new mask byte is taken every eighth pixel,
from the stream when `fom_mask` is 0. -/
theorem mask_update_at {s : Engine} {j c fm : Nat} {ms rest : List Nat}
    (hj : j < c) (hms : fm = 0 → ms.length = (c + 7) / 8)
    (hfm : s.fom_mask = fm)
    (hmm : s.mixmask = if j = 0 then 0 else 2 ^ ((j - 1) % 8))
    (hmask : 0 < j → s.mask = mask_at fm ms (j - 1))
    (hin : s.input = if fm ≠ 0 then rest else ms.drop ((j + 7) / 8) ++ rest) :
    ∃ u, MASK_UPDATE s = .ok u ∧ u.mixmask = 2 ^ (j % 8) ∧ u.mask = mask_at fm ms j ∧
      u.input = (if fm ≠ 0 then rest else ms.drop ((j + 8) / 8) ++ rest) ∧
      u.fom_mask = s.fom_mask ∧ u.mix = s.mix ∧ u.count = s.count ∧ u.line = s.line ∧
      u.prevline = s.prevline ∧ u.x = s.x ∧ u.output = s.output ∧
      u.written = s.written := by
  unfold MASK_UPDATE
  simp only
  by_cases h8 : j % 8 = 0
  · have hz : (s.mixmask <<< 1) % 256 = 0 := by
      rw [hmm]
      by_cases h0 : j = 0
      · rw [if_pos h0]
        rfl
      · rw [if_neg h0, shift_mask _ (Nat.mod_lt _ (by decide)), if_pos (by omega)]
    rw [if_pos hz]
    by_cases hf : fm = 0
    · have hlen := hms hf
      have hidx : j / 8 < ms.length := by omega
      have e1 : (j + 7) / 8 = j / 8 := by omega
      have e2 : (j + 8) / 8 = j / 8 + 1 := by omega
      have hin' : s.input = ms[j / 8] :: (ms.drop (j / 8 + 1) ++ rest) := by
        rw [hin, if_neg (by omega), e1, List.drop_eq_getElem_cons hidx]
        rfl
      rw [if_neg (by rw [hfm]; omega), hin']
      simp only [CVAL_cons, ok_bind]
      have hone : (1 : Nat) = 2 ^ (j % 8) := by rw [h8]; rfl
      refine ⟨_, rfl, hone, ?_, ?_, rfl, rfl, rfl, rfl, rfl, rfl, rfl, rfl⟩
      · show ms[j / 8] % 256 = mask_at fm ms j
        unfold mask_at
        rw [if_neg (by omega), List.getD_eq_getElem?_getD, List.getElem?_eq_getElem hidx]
        rfl
      · show ms.drop (j / 8 + 1) ++ rest = _
        rw [if_neg (by omega), e2]
    · rw [if_pos (by rw [hfm]; exact hf)]
      have hone : (1 : Nat) = 2 ^ (j % 8) := by rw [h8]; rfl
      refine ⟨_, rfl, hone, ?_, ?_, rfl, rfl, rfl, rfl, rfl, rfl, rfl, rfl⟩
      · show s.fom_mask % 256 = mask_at fm ms j
        unfold mask_at
        rw [if_pos hf, hfm]
      · show s.input = _
        rw [hin, if_pos hf, if_pos hf]
  · have hj0 : j ≠ 0 := by
      intro h
      rw [h] at h8
      exact h8 rfl
    have hsh : (s.mixmask <<< 1) % 256 = 2 ^ (j % 8) := by
      rw [hmm, if_neg hj0, shift_mask _ (Nat.mod_lt _ (by decide)), if_neg (by omega)]
      have : (j - 1) % 8 + 1 = j % 8 := by omega
      rw [this]
    rw [if_neg (by rw [hsh]; exact pow_ne_zero_two _)]
    refine ⟨_, rfl, hsh, ?_, ?_, rfl, rfl, rfl, rfl, rfl, rfl, rfl, rfl⟩
    · show s.mask = _
      rw [hmask (by omega)]
      unfold mask_at
      have : (j - 1) / 8 = j / 8 := by omega
      rw [this]
    · show s.input = _
      rw [hin]
      have : (j + 7) / 8 = (j + 8) / 8 := by omega
      rw [this]

theorem good_fom (a : Engine) : GoodStmt (fom_statement a) := by
  unfold fom_statement
  split
  · exact good_fom_null
  · exact good_fom_above

theorem fom_sel (a b : Engine) (h : a.prevline = b.prevline) :
    fom_statement a = fom_statement b := by
  unfold fom_statement
  rw [h]

theorem switch_fom {bpp W : Nat} (a : Engine) (h : a.opcode = 2) :
    output_switch bpp W a = REPEAT (fom_statement a) W a := by
  by_cases hp : a.prevline = none <;> simp [output_switch, fom_statement, h, hp]

theorem fom_step {W H : Nat} (hW : 1 ≤ W) {a : Engine} (hg : Geo W H a) (hx : a.x < W)
    {j c fm mix0 : Nat} {ms rest : List Nat} (hj : j < c)
    (hms : fm = 0 → ms.length = (c + 7) / 8) (hA : FomAt fm mix0 c ms rest j a) :
    ∃ u, fom_statement a a = .ok u ∧
      FomAt fm mix0 c ms rest (j + 1) { u with count := u.count - 1, x := u.x + 1 } ∧
      u.output = a.output.set (cell W H a.written)
        (if mask_at fm ms j &&& 2 ^ (j % 8) ≠ 0
          then pixel_above W H a.output a.written ^^^ mix0
          else pixel_above W H a.output a.written) := by
  obtain ⟨a1, a2, a3, a4, a5, a6⟩ := hA
  obtain ⟨m, hm, m1, m2, m3, m4, m5, m6, m7, m8, m9, m10, m11⟩ :=
    mask_update_at hj hms a1 a4 a5 a6
  obtain ⟨base, hl, hcell, hlt, hab⟩ := geo_pixel hW hg hx
  have hl' : m.line = some base := m7.trans hl
  have hlt' : base + m.x < m.output.length := by rw [m9, m10]; exact hlt
  have hnext : ∀ (v : Nat),
      FomAt fm mix0 c ms rest (j + 1)
        { ({ m with output := m.output.set (base + m.x) v, written := m.written + 1 } : Engine)
          with count := m.count - 1, x := m.x + 1 } := by
    intro v
    refine ⟨m4.trans a1, m5.trans a2, ?_, ?_, ?_, ?_⟩
    · show m.count - 1 = _
      rw [m6, a3]
      omega
    · show m.mixmask = _
      rw [m1, if_neg (by omega)]
      rfl
    · intro _
      show m.mask = _
      rw [m2]
      rfl
    · show m.input = _
      rw [m3]
  have hset : ∀ (v : Nat), m.output.set (base + m.x) v = a.output.set (cell W H a.written) v := by
    intro v
    rw [m10, m9, hcell]
  unfold fom_statement
  rcases hab with ⟨hp, hz⟩ | ⟨pb, hp, hv⟩
  · rw [if_pos hp]
    unfold fom_null
    rw [hm, ok_bind, m2, m1]
    by_cases hbit : mask_at fm ms j &&& 2 ^ (j % 8) ≠ 0
    · rw [if_pos hbit, if_pos hbit, store_eq hl' hlt']
      refine ⟨_, rfl, hnext _, ?_⟩
      show m.output.set (base + m.x) m.mix = _
      rw [hset, hz, Nat.zero_xor, m5, a2]
    · rw [if_neg hbit, if_neg hbit, store_eq hl' hlt']
      refine ⟨_, rfl, hnext _, ?_⟩
      show m.output.set (base + m.x) 0 = _
      rw [hset, hz]
  · have hpn : ¬ a.prevline = none := by rw [hp]; simp
    have hab' : m.above = .ok (pixel_above W H a.output a.written) :=
      above_eq (m8.trans hp) (by rw [m10, m9]; exact hv)
    rw [if_neg hpn]
    unfold fom_above
    rw [hm, ok_bind, m2, m1]
    by_cases hbit : mask_at fm ms j &&& 2 ^ (j % 8) ≠ 0
    · rw [if_pos hbit, if_pos hbit, hab', ok_bind, store_eq hl' hlt']
      refine ⟨_, rfl, hnext _, ?_⟩
      show m.output.set (base + m.x) (_ ^^^ m.mix) = _
      rw [hset, m5, a2]
    · rw [if_neg hbit, if_neg hbit, hab', ok_bind, store_eq hl' hlt']
      refine ⟨_, rfl, hnext _, ?_⟩
      show m.output.set (base + m.x) _ = _
      rw [hset]

/-- The pixels of a Fill-Or-Mix run, with the mask bytes `ms` read from the stream
or the fixed mask `fom_mask`. -/
theorem fom_run {W H : Nat} (hW : 1 ≤ W) {s1 : Engine} (hg1 : Geo W H s1)
    (hop : s1.opcode = 2) (hmm : s1.mixmask = 0) {ms rest : List Nat}
    (hin : s1.input = if s1.fom_mask ≠ 0 then rest else ms ++ rest)
    (hms : s1.fom_mask = 0 → ms.length = (s1.count + 7) / 8)
    (hfit : s1.written + s1.count ≤ W * H) :
    ∃ t, output_body 2 W (s1.height + 2) s1 = .ok t ∧ t.input = rest ∧
      t.written = s1.written + s1.count ∧
      (∀ i, i < s1.count →
        t.output[cell W H (s1.written + i)]? = some
          (if mask_at s1.fom_mask ms i &&& 2 ^ (i % 8) ≠ 0
            then pixel_above W H t.output (s1.written + i) ^^^ s1.mix
            else pixel_above W H t.output (s1.written + i))) ∧
      (∀ c, (∀ i, i < s1.count → c ≠ cell W H (s1.written + i)) →
        t.output[c]? = s1.output[c]?) := by
  obtain ⟨t, hflat, hA, hgt, htw, hpix, hfr⟩ :=
    @flat_run W H hW fom_statement good_fom s1.written s1.count
      (FomAt s1.fom_mask s1.mix s1.count ms rest)
      (fun j ab => if mask_at s1.fom_mask ms j &&& 2 ^ (j % 8) ≠ 0 then ab ^^^ s1.mix else ab)
      (by
        intro j s a ha hA
        rcases advance_ok ha with ⟨_, _, rfl⟩ | ⟨_, rfl⟩
        · exact hA
        · exact hA)
      (by
        intro j s hj hA
        have := hA.2.2.1
        omega)
      (by
        intro s hA
        have := hA.2.2.1
        omega)
      (by
        intro j a hj hA hga hax haw
        obtain ⟨u, hu, hAu, huo⟩ := fom_step hW hga hax hj hms hA
        refine ⟨u, hu, hAu, ?_⟩
        rw [huo, haw])
      hfit s1.count 0 s1 (by omega)
      ⟨rfl, rfl, by omega, by rw [if_pos rfl]; exact hmm, fun h => absurd h (by omega), by
        rw [hin]
        rfl⟩
      hg1 (by omega)
  have hbody : output_body 2 W (s1.height + 2) s1 = .ok t :=
    flat_body hW good_fom fom_sel 2 (fun a h _ => switch_fom a h) (s1.height + 2) s1 _ t hflat
      hop (fun h => absurd h (by decide)) (Or.inl (le_refl _))
  refine ⟨t, hbody, ?_, htw, fun i hi => hpix i (Nat.zero_le _) hi,
    fun c hc => hfr c (fun i _ hi => hc i hi)⟩
  have h6 := hA.2.2.2.2.2
  rw [h6]
  by_cases hf : s1.fom_mask = 0
  · rw [if_neg (by omega)]
    have : (s1.count + 7) / 8 = ms.length := (hms hf).symm
    rw [this, List.drop_length]
    rfl
  · rw [if_pos hf]

theorem setup_fom {bpp W : Nat} {s0 s1 : Engine} {hd : Header}
    (hs : command_setup bpp W s0 = .ok s1) (hdec : decode_header s0.input = .ok hd)
    (hop : hd.opcode = 2 ∨ hd.opcode = 7) :
    s1.opcode = 2 ∧ s1.fom_mask = 0 ∧ s1.mixmask = 0 ∧ s1.count = hd.count := by
  unfold command_setup at hs
  simp only at hs
  obtain ⟨hd', hdec', hs⟩ := bind_eq_ok.mp hs
  have e : hd' = hd := by
    have h2 : (Except.ok hd' : Except Stop Header) = .ok hd := hdec'.symm.trans hdec
    simp only [Except.ok.injEq] at h2
    exact h2
  subst e
  obtain ⟨u, hu, hs⟩ := bind_eq_ok.mp hs
  simp only [Except.ok.injEq] at hs
  subst hs
  unfold preliminary at hu
  rcases hop with h2 | h7
  · simp only [h2] at hu
    simp only [show ¬ ((2 : Nat) = 0) by decide, show ¬ ((2 : Nat) = 8) by decide,
      show ¬ ((2 : Nat) = 3) by decide, show ¬ ((2 : Nat) = 6 ∨ (2 : Nat) = 7) by decide,
      show ¬ ((2 : Nat) = 9) by decide, show ¬ ((2 : Nat) = 10) by decide, if_false,
      Except.ok.injEq] at hu
    subst hu
    exact ⟨rfl, rfl, rfl, rfl⟩
  · simp only [h7] at hu
    simp only [show ¬ ((7 : Nat) = 0) by decide, show ¬ ((7 : Nat) = 8) by decide,
      show ¬ ((7 : Nat) = 3) by decide, show ((7 : Nat) = 6 ∨ (7 : Nat) = 7) by decide,
      if_false, if_true] at hu
    obtain ⟨⟨m, i1⟩, _, hu⟩ := bind_eq_ok.mp hu
    simp only [Except.ok.injEq] at hu
    subst hu
    exact ⟨rfl, rfl, rfl, rfl⟩

theorem header_fixed_1 (rest : List Nat) :
    decode_header (0xF9 :: rest) = .ok { opcode := 9, count := 8, offset := 0, input := rest } :=
  rfl

theorem header_fixed_2 (rest : List Nat) :
    decode_header (0xFA :: rest)
      = .ok { opcode := 10, count := 8, offset := 0, input := rest } :=
  rfl

theorem setup_fixed {bpp W : Nat} {s0 : Engine} {code : Nat} {rest : List Nat}
    (hcode : code = 0xF9 ∨ code = 0xFA) (hin : s0.input = code :: rest) :
    command_setup bpp W s0 = .ok
      { s0 with fom_mask := (if code = 0xF9 then 3 else 5), input := rest, opcode := 2,
                count := 8, mask := (if code = 0xF9 then 3 else 5), lastopcode := 2,
                mixmask := 0 } := by
  unfold command_setup
  simp only
  rcases hcode with rfl | rfl
  · rw [hin, header_fixed_1, ok_bind]
    rfl
  · rw [hin, header_fixed_2, ok_bind]
    rfl

theorem mask_bit (ms : List Nat) (i : Nat) :
    mask_at 0 ms i &&& 2 ^ (i % 8) ≠ 0 ↔ (ms.getD (i / 8) 0).testBit (i % 8) = true := by
  rw [and_pow_iff]
  unfold mask_at
  rw [if_neg (by simp)]
  have h : (256 : Nat) = 2 ^ 8 := by decide
  rw [h, Nat.testBit_mod_two_pow]
  have : i % 8 < 8 := Nat.mod_lt _ (by decide)
  simp [this]

/-- Claim C17. Every regular Fill-Or-Mix command of a stream decoded by
`bitmap_decompress2` (header opcode 2 or 7, opcode 2 after aliasing), with count `n`,
whose `n` pixels fit in the rest of the raster, completes and reads exactly the
`ceil(n / 8)` mask bytes `ms` that follow in the stream; pixel `i` of the run is
`above ^ mix` when bit `i mod 8` of `ms[i / 8]` is set and `above` otherwise, `above`
being the pixel one scanline below in the raster and 0 on the bottom scanline,
wherever the scanline boundaries fall; the other cells stay as they are. -/
theorem fill_or_mix_run (W H : Nat) (input output : List Nat) (k : Nat) (s0 s1 : Engine)
    (hd : Header) (ms rest : List Nat)
    (hW : 1 ≤ W) (hlen : output.length = W * H)
    (hk : after_commands 2 W k (Engine.init 2 W H input output) = .ok s0)
    (hs : command_setup 2 W s0 = .ok s1) (hdec : decode_header s0.input = .ok hd)
    (hop : hd.opcode = 2 ∨ hd.opcode = 7)
    (hin : s1.input = ms ++ rest) (hms : ms.length = (s1.count + 7) / 8)
    (hfit : s0.written + s1.count ≤ W * H) :
    s1.opcode = 2 ∧ s1.count = hd.count ∧
    ∃ t, command 2 W s0 = .ok t ∧ t.input = rest ∧ t.written = s0.written + s1.count ∧
      (∀ i, i < s1.count →
        t.output[cell W H (s0.written + i)]? = some
          (if (ms.getD (i / 8) 0).testBit (i % 8) = true
            then pixel_above W H t.output (s0.written + i) ^^^ s1.mix
            else pixel_above W H t.output (s0.written + i))) ∧
      (∀ c, (∀ i, i < s1.count → c ≠ cell W H (s0.written + i)) →
        t.output[c]? = s0.output[c]?) := by
  have hg0 := reach_geo hW hlen hk
  obtain ⟨hd', _, _, _, hwr, hout, _, _, _, _⟩ := command_setup_ok hs
  have hg1 : Geo W H s1 := (geo_preserved 2 W H).setup s0 s1 hs hg0
  obtain ⟨f1, f2, f3, f4⟩ := setup_fom hs hdec hop
  obtain ⟨t, hbody, hti, htw, hpix, hfr⟩ :=
    @fom_run W H hW s1 hg1 f1 f3 ms rest (by rw [f2, hin]; rfl) (fun _ => hms)
      (by rw [hwr]; exact hfit)
  refine ⟨f1, f4, t, by rw [command_eq hs]; exact hbody, hti, by rw [htw, hwr], ?_, ?_⟩
  · intro i hi
    have := hpix i hi
    rw [hwr, f2] at this
    rw [this]
    by_cases hb : (ms.getD (i / 8) 0).testBit (i % 8) = true
    · rw [if_pos ((mask_bit ms i).mpr hb), if_pos hb]
    · rw [if_neg (fun h => hb ((mask_bit ms i).mp h)), if_neg hb]
  · intro c hc
    rw [hfr c (fun i hi => by rw [hwr]; exact hc i hi), hout]

theorem fill_or_mix_run_witness :
    (2 : Nat) = 2 ∧ (8 : Nat) = 8 ∧
    ∃ t, command 2 3 (Engine.init 2 3 4 [0x41, 0xA5, 0x77] [1, 2, 3, 4, 5, 6, 7, 8, 9, 10, 11, 12])
        = .ok t ∧
      t.input = [0x77] ∧ t.written = 0 + 8 ∧
      (∀ i, i < 8 →
        t.output[cell 3 4 (0 + i)]? = some
          (if ([0xA5].getD (i / 8) 0).testBit (i % 8) = true
            then pixel_above 3 4 t.output (0 + i) ^^^ 65535
            else pixel_above 3 4 t.output (0 + i))) ∧
      (∀ c, (∀ i, i < 8 → c ≠ cell 3 4 (0 + i)) →
        t.output[c]? = [1, 2, 3, 4, 5, 6, 7, 8, 9, 10, 11, 12][c]?) :=
  fill_or_mix_run 3 4 [0x41, 0xA5, 0x77] [1, 2, 3, 4, 5, 6, 7, 8, 9, 10, 11, 12] 0
    (Engine.init 2 3 4 [0x41, 0xA5, 0x77] [1, 2, 3, 4, 5, 6, 7, 8, 9, 10, 11, 12])
    { input := [0xA5, 0x77], output := [1, 2, 3, 4, 5, 6, 7, 8, 9, 10, 11, 12], x := 3,
      height := 4, prevline := none, line := none, opcode := 2, count := 8, lastopcode := 2,
      insertmix := false, bicolour := false, colour1 := 0, colour2 := 0, mixmask := 0,
      mask := 0, mix := 65535, fom_mask := 0, written := 0 }
    { opcode := 2, count := 8, offset := 32, input := [0xA5, 0x77] } [0xA5] [0x77]
    (by decide) rfl rfl rfl rfl (Or.inl rfl) rfl rfl (by decide)

theorem mask_bit_fixed (fm : Nat) (ms : List Nat) (hfm : fm = 3 ∨ fm = 5) (i : Nat)
    (hi : i < 8) : mask_at fm ms i &&& 2 ^ (i % 8) ≠ 0 ↔ fm.testBit i = true := by
  rw [and_pow_iff]
  unfold mask_at
  have e1 : i % 8 = i := Nat.mod_eq_of_lt hi
  rcases hfm with rfl | rfl
  · rw [if_pos (by decide), e1]
  · rw [if_pos (by decide), e1]

theorem mask_update_first {s : Engine} {b : Nat} {tl : List Nat} (hf : s.fom_mask = 0)
    (hm : s.mixmask = 0) (hin : s.input = b :: tl) :
    MASK_UPDATE s = .ok { s with mixmask := 1, mask := b % 256, input := tl } := by
  unfold MASK_UPDATE
  simp [hf, hm, hin]

/-- Claim C18. A FillOrMix_1 command (byte `0xF9`) and a FillOrMix_2 command (byte
`0xFA`) of a stream decoded by `bitmap_decompress2` have count 8 and read no byte
but the command byte; when the 8 pixels fit in the rest of the raster the command
completes, pixel `i` of the run being `above ^ mix` when bit `i` of `0x03`
(FillOrMix_1) or `0x05` (FillOrMix_2) is set and `above` otherwise; a regular
Fill-Or-Mix command that comes next starts with `fom_mask = 0` and `mixmask = 0`, so
its first `MASK_UPDATE` reads the mask from the stream. -/
theorem fill_or_mix_fixed (W H : Nat) (input output : List Nat) (k : Nat) (s0 : Engine)
    (code : Nat) (rest : List Nat)
    (hW : 1 ≤ W) (hlen : output.length = W * H)
    (hk : after_commands 2 W k (Engine.init 2 W H input output) = .ok s0)
    (hcode : code = 0xF9 ∨ code = 0xFA) (hin : s0.input = code :: rest)
    (hfit : s0.written + 8 ≤ W * H) :
    ∃ s1 t, command_setup 2 W s0 = .ok s1 ∧ s1.opcode = 2 ∧ s1.count = 8 ∧
      s1.input = rest ∧ s1.mix = s0.mix ∧
      command 2 W s0 = .ok t ∧ t.input = rest ∧ t.written = s0.written + 8 ∧
      (∀ i, i < 8 →
        t.output[cell W H (s0.written + i)]? = some
          (if (if code = 0xF9 then (0x03 : Nat) else 0x05).testBit i = true
            then pixel_above W H t.output (s0.written + i) ^^^ s0.mix
            else pixel_above W H t.output (s0.written + i))) ∧
      (∀ c, (∀ i, i < 8 → c ≠ cell W H (s0.written + i)) → t.output[c]? = s0.output[c]?) ∧
      (∀ s2 hd, command_setup 2 W t = .ok s2 → decode_header t.input = .ok hd →
        (hd.opcode = 2 ∨ hd.opcode = 7) →
        s2.opcode = 2 ∧ s2.fom_mask = 0 ∧ s2.mixmask = 0 ∧
        ∀ b tl, s2.input = b :: tl →
          MASK_UPDATE s2 = .ok { s2 with mixmask := 1, mask := b % 256, input := tl }) := by
  have hg0 := reach_geo hW hlen hk
  have hs := @setup_fixed 2 W s0 code rest hcode hin
  have hg1 := (geo_preserved 2 W H).setup s0 _ hs hg0
  have hfm : (if code = 0xF9 then 3 else 5) = 3 ∨ (if code = 0xF9 then 3 else 5) = 5 := by
    rcases hcode with rfl | rfl
    · exact Or.inl rfl
    · exact Or.inr rfl
  have hfm0 : (if code = 0xF9 then 3 else 5) ≠ 0 := by
    rcases hfm with h | h <;> rw [h] <;> decide
  obtain ⟨t, hbody, hti, htw, hpix, hfr⟩ :=
    @fom_run W H hW _ hg1 rfl rfl [] rest
      (by
        show rest = if (if code = 0xF9 then 3 else 5) ≠ 0 then rest else [] ++ rest
        rw [if_pos hfm0])
      (fun h => absurd h hfm0) hfit
  refine ⟨_, t, hs, rfl, rfl, rfl, rfl, by rw [command_eq hs]; exact hbody, hti, htw, ?_,
    hfr, ?_⟩
  · intro i hi
    have := hpix i hi
    rw [this]
    have hiff := mask_bit_fixed (if code = 0xF9 then 3 else 5) [] hfm i hi
    by_cases hb : (if code = 0xF9 then (0x03 : Nat) else 0x05).testBit i = true
    · rw [if_pos (hiff.mpr hb), if_pos hb]
    · rw [if_neg (fun h => hb (hiff.mp h)), if_neg hb]
  · intro s2 hd hs2 hdec hop
    obtain ⟨f1, f2, f3, _⟩ := setup_fom hs2 hdec hop
    exact ⟨f1, f2, f3, fun b tl hb => mask_update_first f2 f3 hb⟩

theorem fill_or_mix_fixed_witness :
    ∃ s1 t,
      command_setup 2 3 (Engine.init 2 3 4 [0xF9, 0x77] [1, 2, 3, 4, 5, 6, 7, 8, 9, 10, 11, 12])
        = .ok s1 ∧
      s1.opcode = 2 ∧ s1.count = 8 ∧ s1.input = [0x77] ∧ s1.mix = 65535 ∧
      command 2 3 (Engine.init 2 3 4 [0xF9, 0x77] [1, 2, 3, 4, 5, 6, 7, 8, 9, 10, 11, 12])
        = .ok t ∧
      t.input = [0x77] ∧ t.written = 0 + 8 ∧
      (∀ i, i < 8 →
        t.output[cell 3 4 (0 + i)]? = some
          (if (if (0xF9 : Nat) = 0xF9 then (0x03 : Nat) else 0x05).testBit i = true
            then pixel_above 3 4 t.output (0 + i) ^^^ 65535
            else pixel_above 3 4 t.output (0 + i))) ∧
      (∀ c, (∀ i, i < 8 → c ≠ cell 3 4 (0 + i)) →
        t.output[c]? = [1, 2, 3, 4, 5, 6, 7, 8, 9, 10, 11, 12][c]?) ∧
      (∀ s2 hd, command_setup 2 3 t = .ok s2 → decode_header t.input = .ok hd →
        (hd.opcode = 2 ∨ hd.opcode = 7) →
        s2.opcode = 2 ∧ s2.fom_mask = 0 ∧ s2.mixmask = 0 ∧
        ∀ b tl, s2.input = b :: tl →
          MASK_UPDATE s2 = .ok { s2 with mixmask := 1, mask := b % 256, input := tl }) :=
  fill_or_mix_fixed 3 4 [0xF9, 0x77] [1, 2, 3, 4, 5, 6, 7, 8, 9, 10, 11, 12] 0
    (Engine.init 2 3 4 [0xF9, 0x77] [1, 2, 3, 4, 5, 6, 7, 8, 9, 10, 11, 12]) 0xF9 [0x77]
    (by decide) rfl rfl (Or.inl rfl) rfl (by decide)

/-! ## Fill runs that begin with a Mix pixel -/

theorem good_fill (a : Engine) : GoodStmt (fill_statement a) := by
  unfold fill_statement
  split
  · exact good_fill_null
  · exact good_fill_above

theorem fill_sel (a b : Engine) (h : a.prevline = b.prevline) :
    fill_statement a = fill_statement b := by
  unfold fill_statement
  rw [h]

theorem switch_fill {bpp W : Nat} (a : Engine) (h : a.opcode = 0) (hi : a.insertmix = false) :
    output_switch bpp W a = REPEAT (fill_statement a) W a := by
  unfold output_switch
  rw [if_pos h, insert_mix_none hi, ok_bind]
  unfold fill_statement
  split <;> rfl

theorem setup_fill {bpp W : Nat} {s0 s1 : Engine} {hd : Header}
    (hs : command_setup bpp W s0 = .ok s1) (hdec : decode_header s0.input = .ok hd)
    (hop : hd.opcode = 0) :
    s1.opcode = 0 ∧ s1.count = hd.count ∧ s1.mix = s0.mix ∧ s1.input = hd.input ∧
    (s0.lastopcode = 0 → ¬ (s0.x = W ∧ s0.prevline = none) → s1.insertmix = true) := by
  unfold command_setup at hs
  simp only at hs
  obtain ⟨hd', hdec', hs⟩ := bind_eq_ok.mp hs
  have e : hd' = hd := by
    have h2 : (Except.ok hd' : Except Stop Header) = .ok hd := hdec'.symm.trans hdec
    simp only [Except.ok.injEq] at h2
    exact h2
  subst e
  obtain ⟨u, hu, hs⟩ := bind_eq_ok.mp hs
  simp only [Except.ok.injEq] at hs
  subst hs
  unfold preliminary at hu
  simp only [hop, if_true] at hu
  split at hu
  · simp only [Except.ok.injEq] at hu
    subst hu
    exact ⟨rfl, rfl, rfl, rfl, fun _ _ => rfl⟩
  · rename_i hno
    simp only [Except.ok.injEq] at hu
    subst hu
    refine ⟨rfl, rfl, rfl, rfl, fun h1 h2 => ?_⟩
    exfalso
    apply hno
    refine ⟨?_, h2⟩
    rw [h1]
    rfl

theorem output_body_succ (bpp W f : Nat) (s : Engine) (hc : 0 < s.count) :
    output_body bpp W (f + 1) s
      = (advance W s >>= fun a => output_switch bpp W a >>= output_body bpp W f) := by
  show (if 0 < s.count then _ else _) = _
  rw [if_pos hc]

theorem pixel_above_congr {W H e : Nat} {out1 out2 : List Nat}
    (h : W ≤ e → out1[cell W H (e - W)]? = out2[cell W H (e - W)]?) :
    pixel_above W H out1 e = pixel_above W H out2 e := by
  unfold pixel_above
  by_cases hb : e < W
  · rw [if_pos hb, if_pos hb]
  · rw [if_neg hb, if_neg hb, h (by omega)]

theorem fill_step {W H : Nat} (hW : 1 ≤ W) {a : Engine} (hg : Geo W H a) (hx : a.x < W) :
    ∃ u, fill_statement a a = .ok u ∧ u.count = a.count ∧ u.insertmix = a.insertmix ∧
      u.input = a.input ∧
      u.output = a.output.set (cell W H a.written) (pixel_above W H a.output a.written) := by
  obtain ⟨base, hl, hcell, hlt, hab⟩ := geo_pixel hW hg hx
  unfold fill_statement
  rcases hab with ⟨hp, hz⟩ | ⟨pb, hp, hv⟩
  · rw [if_pos hp]
    unfold fill_null
    rw [store_eq hl hlt]
    refine ⟨_, rfl, rfl, rfl, rfl, ?_⟩
    show a.output.set (base + a.x) 0 = _
    rw [hcell, hz]
  · have hpn : ¬ a.prevline = none := by rw [hp]; simp
    rw [if_neg hpn]
    unfold fill_above
    rw [above_eq hp hv, ok_bind, store_eq hl hlt]
    refine ⟨_, rfl, rfl, rfl, rfl, ?_⟩
    show a.output.set (base + a.x) _ = _
    rw [hcell]

/-- The Mix pixel a Fill run begins with when `insertmix` is set. -/
theorem insert_mix_step {W H : Nat} (hW : 1 ≤ W) {a : Engine} (hg : Geo W H a) (hx : a.x < W)
    (hi : a.insertmix = true) :
    ∃ b, insert_mix a = .ok b ∧ Geo W H b ∧ b.count = a.count - 1 ∧ b.insertmix = false ∧
      b.input = a.input ∧ b.opcode = a.opcode ∧ b.height = a.height ∧
      b.written = a.written + 1 ∧
      b.output = a.output.set (cell W H a.written)
        (pixel_above W H a.output a.written ^^^ a.mix) := by
  obtain ⟨base, hl, hcell, hlt, hab⟩ := geo_pixel hW hg hx
  have hgeo : ∀ u, StmtRel a u →
      Geo W H { u with insertmix := false, count := u.count - 1, x := u.x + 1 } :=
    fun u hr => (geo_preserved 2 W H).step a u hx hr hg
  unfold insert_mix
  rw [hi, if_pos rfl]
  rcases hab with ⟨hp, hz⟩ | ⟨pb, hp, hv⟩
  · rw [if_pos hp]
    have hst : mix_null a = .ok { a with output := a.output.set (base + a.x) a.mix,
                                         written := a.written + 1 } := by
      unfold mix_null
      rw [store_eq hl hlt]
    rw [hst, ok_bind]
    refine ⟨_, rfl, hgeo _ (good_mix_null a _ hst), rfl, rfl, rfl, rfl, rfl, rfl, ?_⟩
    show a.output.set (base + a.x) a.mix = _
    rw [hcell, hz, Nat.zero_xor]
  · have hpn : ¬ a.prevline = none := by rw [hp]; simp
    rw [if_neg hpn]
    have hst : mix_above a = .ok
        { a with output := a.output.set (base + a.x)
                   (pixel_above W H a.output a.written ^^^ a.mix),
                 written := a.written + 1 } := by
      unfold mix_above
      rw [above_eq hp hv, ok_bind, store_eq hl hlt]
    rw [hst, ok_bind]
    refine ⟨_, rfl, hgeo _ (good_mix_above a _ hst), rfl, rfl, rfl, rfl, rfl, rfl, ?_⟩
    show a.output.set (base + a.x) _ = _
    rw [hcell]

theorem advance_aux {W : Nat} {s a : Engine} (h : advance W s = .ok a) :
    a.mix = s.mix ∧ a.input = s.input := by
  rcases advance_ok h with ⟨_, _, rfl⟩ | ⟨_, rfl⟩
  · exact ⟨rfl, rfl⟩
  · exact ⟨rfl, rfl⟩

/-- Claim C20. In a stream decoded by `bitmap_decompress2`, a Fill command with count
`n ≥ 1` that starts while `lastopcode` is Fill and not (`x == width` and
`prevline == NULL`), and whose `n` pixels fit in the rest of the raster, completes
and emits `n` pixels: first one pixel `above ^ mix`, then `n - 1` pixels `above`,
where `above` is the pixel one scanline below in the raster and 0 on the bottom
scanline, which has no previous line; `insertmix` is clear afterwards and the other
cells stay as they are. -/
theorem fill_insert_mix (W H : Nat) (input output : List Nat) (k : Nat) (s0 s1 : Engine)
    (hd : Header)
    (hW : 1 ≤ W) (hlen : output.length = W * H)
    (hk : after_commands 2 W k (Engine.init 2 W H input output) = .ok s0)
    (hs : command_setup 2 W s0 = .ok s1) (hdec : decode_header s0.input = .ok hd)
    (hop : hd.opcode = 0) (hlast : s0.lastopcode = 0)
    (hpos : ¬ (s0.x = W ∧ s0.prevline = none)) (hn : 1 ≤ s1.count)
    (hfit : s0.written + s1.count ≤ W * H) :
    s1.insertmix = true ∧
    ∃ t, command 2 W s0 = .ok t ∧ t.written = s0.written + s1.count ∧
      t.insertmix = false ∧ t.input = s1.input ∧
      t.output[cell W H s0.written]?
        = some (pixel_above W H t.output s0.written ^^^ s1.mix) ∧
      (∀ i, 1 ≤ i → i < s1.count →
        t.output[cell W H (s0.written + i)]?
          = some (pixel_above W H t.output (s0.written + i))) ∧
      (∀ c, (∀ i, i < s1.count → c ≠ cell W H (s0.written + i)) →
        t.output[c]? = s0.output[c]?) := by
  have hg0 := reach_geo hW hlen hk
  obtain ⟨hd', _, _, _, hwr, hout, _, _, _, _⟩ := command_setup_ok hs
  have hg1 : Geo W H s1 := (geo_preserved 2 W H).setup s0 s1 hs hg0
  obtain ⟨f1, f2, f3, f4, f5⟩ := setup_fill hs hdec hop
  have him : s1.insertmix = true := f5 hlast hpos
  obtain ⟨a, ha, hax, hga, haw, hao⟩ := advance_geo hW hg1 (by omega)
  obtain ⟨k1, k2, k3, k4, k5⟩ := advance_keeps ha
  obtain ⟨x1, x2⟩ := advance_aux ha
  obtain ⟨b, hb, hgb, bc, bi, bin, bop, bh, bw, bo⟩ :=
    insert_mix_step hW hga hax (k3.trans him)
  have hle : a.height ≤ s1.height := by
    by_cases hx : W ≤ s1.x
    · have := k4 hx
      omega
    · have := k5 (by omega)
      rw [this]
  obtain ⟨t, hflat, hA, hgt, htw, hpix, hfr⟩ :=
    @flat_run W H hW fill_statement good_fill (s0.written + 1) (s1.count - 1)
      (fun j s => s.count = s1.count - 1 - j ∧ s.insertmix = false ∧ s.input = s1.input)
      (fun _ ab => ab)
      (by
        intro j s a ha hA
        rcases advance_ok ha with ⟨_, _, rfl⟩ | ⟨_, rfl⟩
        · exact hA
        · exact hA)
      (by
        intro j s hj hA
        have := hA.1
        omega)
      (by
        intro s hA
        have := hA.1
        omega)
      (by
        intro j a hj hA hga hax haw
        obtain ⟨u, hu, u1, u2, u3, huo⟩ := fill_step hW hga hax
        refine ⟨u, hu, ⟨?_, u2.trans hA.2.1, u3.trans hA.2.2⟩, ?_⟩
        · show u.count - 1 = _
          rw [u1, hA.1]
          omega
        · rw [huo, haw])
      (by omega) (s1.count - 1) 0 b (by omega)
      ⟨by rw [bc, k1]; omega, bi, bin.trans x2⟩ hgb (by rw [bw, haw, hwr])
  have hrest : (REPEAT (fill_statement b) W b >>= fun s => output_body 2 W (s1.height + 1) s)
      = .ok t :=
    flat_switch hW good_fill fill_sel 0 (fun a h hi => switch_fill a h (hi rfl)) hflat
      (bop.trans (k2.trans f1)) (fun _ => bi) (by rw [bh]; omega)
  have hcmd : command 2 W s0 = .ok t := by
    rw [command_eq hs, output_body_succ 2 W (s1.height + 1) s1 (by omega), ha, ok_bind]
    unfold output_switch
    rw [if_pos (k2.trans f1)]
    show ((insert_mix a >>= fun s =>
      if s.prevline = none then REPEAT fill_null W s else REPEAT fill_above W s) >>= _) = _
    rw [hb, ok_bind]
    have e : (if b.prevline = none then REPEAT fill_null W b else REPEAT fill_above W b)
        = REPEAT (fill_statement b) W b := by
      unfold fill_statement
      split <;> rfl
    rw [e]
    exact hrest
  have hroom : s0.written < W * H := by omega
  have hc0 : cell W H s0.written < a.output.length := by
    rw [hga.2.2]
    exact cell_lt hW hroom
  have hne : ∀ i, 0 ≤ i → i < s1.count - 1 →
      cell W H s0.written ≠ cell W H (s0.written + 1 + i) := by
    intro i _ hi heq
    have := cell_inj hW hroom (by omega) heq
    omega
  have haw' : a.written = s0.written := haw.trans hwr
  refine ⟨him, t, hcmd, by rw [htw]; omega, hA.2.1, hA.2.2, ?_, ?_, ?_⟩
  · rw [hfr _ hne, bo, haw', List.getElem?_set, if_pos rfl]
    simp only [hc0, if_true]
    have hab : pixel_above W H t.output s0.written = pixel_above W H a.output s0.written := by
      apply pixel_above_congr
      intro hge
      have hne2 : ∀ i, 0 ≤ i → i < s1.count - 1 →
          cell W H (s0.written - W) ≠ cell W H (s0.written + 1 + i) := by
        intro i _ hi heq
        have := cell_inj hW (by omega) (by omega) heq
        omega
      rw [hfr _ hne2, bo, haw', List.getElem?_set_ne]
      intro heq
      have := cell_inj hW hroom (by omega) heq
      omega
    rw [hab, x1]
  · intro i h1 h2
    have := hpix (i - 1) (Nat.zero_le _) (by omega)
    have e : s0.written + 1 + (i - 1) = s0.written + i := by omega
    rw [e] at this
    exact this
  · intro c hc
    have hc1 : cell W H s0.written ≠ c := by
      intro h
      have := hc 0 (by omega)
      rw [Nat.add_zero] at this
      exact this h.symm
    rw [hfr c (fun i _ hi => by
      have := hc (i + 1) (by omega)
      have e : s0.written + (i + 1) = s0.written + 1 + i := by omega
      rw [e] at this
      exact this), bo, haw', List.getElem?_set_ne hc1, hao, hout]

theorem fill_insert_mix_witness :
    true = true ∧
    ∃ t,
      command 2 3
        { input := [0x04, 0x77], output := [1, 2, 3, 4, 5, 6, 7, 8, 9, 0, 0, 12], x := 2,
          height := 3, prevline := none, line := some 9, opcode := 0, count := 0,
          lastopcode := 0, insertmix := false, bicolour := false, colour1 := 0, colour2 := 0,
          mixmask := 0, mask := 0, mix := 65535, fom_mask := 0, written := 2 } = .ok t ∧
      t.written = 2 + 4 ∧ t.insertmix = false ∧ t.input = [0x77] ∧
      t.output[cell 3 4 2]? = some (pixel_above 3 4 t.output 2 ^^^ 65535) ∧
      (∀ i, 1 ≤ i → i < 4 →
        t.output[cell 3 4 (2 + i)]? = some (pixel_above 3 4 t.output (2 + i))) ∧
      (∀ c, (∀ i, i < 4 → c ≠ cell 3 4 (2 + i)) →
        t.output[c]? = [1, 2, 3, 4, 5, 6, 7, 8, 9, 0, 0, 12][c]?) :=
  fill_insert_mix 3 4 [0x02, 0x04, 0x77] [1, 2, 3, 4, 5, 6, 7, 8, 9, 10, 11, 12] 1
    { input := [0x04, 0x77], output := [1, 2, 3, 4, 5, 6, 7, 8, 9, 0, 0, 12], x := 2,
      height := 3, prevline := none, line := some 9, opcode := 0, count := 0,
      lastopcode := 0, insertmix := false, bicolour := false, colour1 := 0, colour2 := 0,
      mixmask := 0, mask := 0, mix := 65535, fom_mask := 0, written := 2 }
    { input := [0x77], output := [1, 2, 3, 4, 5, 6, 7, 8, 9, 0, 0, 12], x := 2,
      height := 3, prevline := none, line := some 9, opcode := 0, count := 4,
      lastopcode := 0, insertmix := true, bicolour := false, colour1 := 0, colour2 := 0,
      mixmask := 0, mask := 0, mix := 65535, fom_mask := 0, written := 2 }
    { opcode := 0, count := 4, offset := 32, input := [0x77] }
    (by decide) rfl rfl rfl rfl rfl rfl (by decide) (by decide) (by decide)

/-! ## The wrappers after a failure of the engine -/

theorem decompress_15_zero {output res : List Nat} {temp : Option (List Nat)}
    {ow oh iw ih : Nat} {input : List Nat}
    (h : bitmap_decompress_15 output ow oh iw ih input temp = .ok (0, res)) :
    res = output ∧
    (temp = none ∨ ∃ t, temp = some t ∧
      bitmap_decompress2 iw ih input t = .error .returnFalse) := by
  unfold bitmap_decompress_15 at h
  cases temp with
  | none =>
    simp only [Except.ok.injEq, Prod.mk.injEq] at h
    exact ⟨h.2.symm, Or.inl rfl⟩
  | some t =>
    simp only at h
    cases hd : bitmap_decompress2 iw ih input t with
    | error e =>
      rw [hd] at h
      cases e <;> simp at h
      exact ⟨h.symm, Or.inr ⟨t, rfl, hd⟩⟩
    | ok s =>
      rw [hd] at h
      simp only at h
      obtain ⟨o, _, h⟩ := bind_eq_ok.mp h
      simp at h

theorem decompress_16_zero {output res : List Nat} {temp : Option (List Nat)}
    {ow oh iw ih : Nat} {input : List Nat}
    (h : bitmap_decompress_16 output ow oh iw ih input temp = .ok (0, res)) :
    res = output ∧
    (temp = none ∨ ∃ t, temp = some t ∧
      bitmap_decompress2 iw ih input t = .error .returnFalse) := by
  unfold bitmap_decompress_16 at h
  cases temp with
  | none =>
    simp only [Except.ok.injEq, Prod.mk.injEq] at h
    exact ⟨h.2.symm, Or.inl rfl⟩
  | some t =>
    simp only at h
    cases hd : bitmap_decompress2 iw ih input t with
    | error e =>
      rw [hd] at h
      cases e <;> simp at h
      exact ⟨h.symm, Or.inr ⟨t, rfl, hd⟩⟩
    | ok s =>
      rw [hd] at h
      simp only at h
      obtain ⟨o, _, h⟩ := bind_eq_ok.mp h
      simp at h

theorem decompress_24_zero {output res : List Nat} {temp : Option (List Nat)}
    {ow oh iw ih : Nat} {input : List Nat}
    (h : bitmap_decompress_24 output ow oh iw ih input temp = .ok (0, res)) :
    res = output ∧
    (temp = none ∨ ∃ t, temp = some t ∧
      bitmap_decompress3 iw ih input t = .error .returnFalse) := by
  unfold bitmap_decompress_24 at h
  cases temp with
  | none =>
    simp only [Except.ok.injEq, Prod.mk.injEq] at h
    exact ⟨h.2.symm, Or.inl rfl⟩
  | some t =>
    simp only at h
    cases hd : bitmap_decompress3 iw ih input t with
    | error e =>
      rw [hd] at h
      cases e <;> simp at h
      exact ⟨h.symm, Or.inr ⟨t, rfl, hd⟩⟩
    | ok s =>
      rw [hd] at h
      simp only at h
      obtain ⟨o, _, h⟩ := bind_eq_ok.mp h
      simp at h

theorem decompress_32_zero {output res : List Nat} {temp : Option (List Nat)}
    {ow oh iw ih : Nat} {input : List Nat} {size : Int}
    (h : bitmap_decompress_32 output ow oh iw ih input size temp = .ok (0, res)) :
    res = output ∧
    (temp = none ∨ ∃ t, temp = some t ∧
      bitmap_decompress4 t iw ih input size = .error .returnFalse) := by
  unfold bitmap_decompress_32 at h
  cases temp with
  | none =>
    simp only [Except.ok.injEq, Prod.mk.injEq] at h
    exact ⟨h.2.symm, Or.inl rfl⟩
  | some t =>
    simp only at h
    cases hd : bitmap_decompress4 t iw ih input size with
    | error e =>
      rw [hd] at h
      cases e <;> simp at h
      exact ⟨h.symm, Or.inr ⟨t, rfl, hd⟩⟩
    | ok s =>
      rw [hd] at h
      simp only at h
      obtain ⟨o, _, h⟩ := bind_eq_ok.mp h
      simp at h

/-- Claim C23. If a call of `bitmap_decompress_15`, `bitmap_decompress_16`,
`bitmap_decompress_24` or `bitmap_decompress_32` returns 0, the output buffer is
identical to its content before the call, and the call returned before the
conversion loops: `malloc` returned null or the engine returned False. -/
theorem wrapper_failure (output : List Nat) (ow oh iw ih : Nat) (input : List Nat)
    (size : Int) (temp : Option (List Nat)) (res : List Nat) :
    (bitmap_decompress_15 output ow oh iw ih input temp = .ok (0, res) →
      res = output ∧
      (temp = none ∨ ∃ t, temp = some t ∧
        bitmap_decompress2 iw ih input t = .error .returnFalse)) ∧
    (bitmap_decompress_16 output ow oh iw ih input temp = .ok (0, res) →
      res = output ∧
      (temp = none ∨ ∃ t, temp = some t ∧
        bitmap_decompress2 iw ih input t = .error .returnFalse)) ∧
    (bitmap_decompress_24 output ow oh iw ih input temp = .ok (0, res) →
      res = output ∧
      (temp = none ∨ ∃ t, temp = some t ∧
        bitmap_decompress3 iw ih input t = .error .returnFalse)) ∧
    (bitmap_decompress_32 output ow oh iw ih input size temp = .ok (0, res) →
      res = output ∧
      (temp = none ∨ ∃ t, temp = some t ∧
        bitmap_decompress4 t iw ih input size = .error .returnFalse)) :=
  ⟨decompress_15_zero, decompress_16_zero, decompress_24_zero, decompress_32_zero⟩

theorem wrapper_failure_witness :
    ([1, 2, 3, 4] : List Nat) = [1, 2, 3, 4] ∧
    ((some [5] : Option (List Nat)) = none ∨ ∃ t, some [5] = some t ∧
      bitmap_decompress3 1 1 [0x40, 0x11, 0x22, 0x33] t = .error .returnFalse) :=
  (wrapper_failure [1, 2, 3, 4] 1 1 1 1 [0x40, 0x11, 0x22, 0x33] 4 (some [5])
    [1, 2, 3, 4]).2.2.1 rfl

/-! ## A Fill command that follows a Fill command -/

theorem setup_lastop {bpp W : Nat} {s t : Engine} (h : command_setup bpp W s = .ok t) :
    t.lastopcode = (t.opcode : Int) := by
  unfold command_setup at h
  simp only at h
  obtain ⟨hd, _, h⟩ := bind_eq_ok.mp h
  obtain ⟨u, _, h⟩ := bind_eq_ok.mp h
  simp only [Except.ok.injEq] at h
  subst h
  rfl

theorem lastop_preserved (bpp W : Nat) :
    Preserved bpp W (fun s => s.lastopcode = (s.opcode : Int)) where
  step := by
    intro s u _ hr hs
    show u.lastopcode = (u.opcode : Int)
    rw [hr.lastopcode, hr.opcode]
    exact hs
  insertmix := by
    intro s hs
    exact hs
  advance := by
    intro s t h hs
    rcases advance_ok h with ⟨_, _, rfl⟩ | ⟨_, rfl⟩
    · exact hs
    · exact hs
  setup := fun _ _ h _ => setup_lastop h

/-- After at least one command, `lastopcode` is the opcode (after aliasing) of the
command run last, which the variable `opcode` still holds. -/
theorem lastop_boundary {bpp W : Nat} (hW : 1 ≤ W) :
    ∀ (k : Nat) (s t : Engine), after_commands bpp W k s = .ok t →
      (k = 0 ∧ t = s) ∨ t.lastopcode = (t.opcode : Int) := by
  intro k s t h
  cases k with
  | zero =>
    simp only [after_commands, Except.ok.injEq] at h
    exact Or.inl ⟨rfl, h.symm⟩
  | succ k =>
    right
    unfold after_commands at h
    obtain ⟨u, hu, h⟩ := bind_eq_ok.mp h
    have pu : u.lastopcode = (u.opcode : Int) := by
      unfold command at hu
      obtain ⟨v, hv, hu⟩ := bind_eq_ok.mp hu
      exact (output_body_pres (lastop_preserved bpp W) hW _ v u (setup_lastop hv) hu).1
    exact after_commands_pres (lastop_preserved bpp W) hW k u t pu h

/-- The guard `x == width && prevline == NULL` holds only before the first pixel and
when the bottom scanline has just been filled. -/
theorem guard_written {W H : Nat} {s : Engine} (hg : Geo W H s) (hx : s.x = W)
    (hp : s.prevline = none) : s.written = 0 ∨ s.written = W := by
  obtain ⟨⟨i1, i2, i3⟩, hl, _⟩ := hg
  rcases hl with ⟨_, _, l3, _⟩ | ⟨l1, _, l3⟩
  · left
    rw [l3, Nat.sub_self, Nat.zero_mul] at i1
    omega
  · right
    rw [hp] at l3
    by_cases h1 : s.height + 1 = H
    · have e : H - s.height = 1 := by omega
      rw [e, Nat.one_mul] at i1
      omega
    · rw [if_neg h1] at l3
      simp at l3

theorem reach_geo_any {bpp W H k : Nat} {input output : List Nat} {s0 : Engine} (hW : 1 ≤ W)
    (hlen : output.length = W * H)
    (hk : after_commands bpp W k (Engine.init bpp W H input output) = .ok s0) :
    Geo W H s0 :=
  after_commands_pres (geo_preserved bpp W H) hW k _ s0 (geo_init bpp W H input output hlen) hk

/-- The first pixel of a Fill command that starts with `lastopcode` Fill outside the
guard: the command is the scanline advance, the store of the Mix pixel
`above ^ mix` with `insertmix = False; count--; x++;`, and the rest of the output
loop. -/
theorem fill_mix_first {bpp W H : Nat} (hW : 1 ≤ W) {s0 s1 : Engine} {hd : Header}
    (hg0 : Geo W H s0) (hs : command_setup bpp W s0 = .ok s1)
    (hdec : decode_header s0.input = .ok hd) (hop : hd.opcode = 0)
    (hlast : s0.lastopcode = 0) (hpos : ¬ (s0.x = W ∧ s0.prevline = none))
    (hn : 1 ≤ s1.count) (hroom : s0.written < W * H) :
    s1.insertmix = true ∧
    ∃ a b, advance W s1 = .ok a ∧ insert_mix a = .ok b ∧
      b.written = s0.written + 1 ∧ b.insertmix = false ∧ b.count = s1.count - 1 ∧
      b.output = s0.output.set (cell W H s0.written)
        (pixel_above W H s0.output s0.written ^^^ s1.mix) ∧
      command bpp W s0
        = (REPEAT (fill_statement b) W b >>= fun s => output_body bpp W (s1.height + 1) s) := by
  obtain ⟨hd', _, _, _, hwr, hout, _, _, _, _⟩ := command_setup_ok hs
  have hg1 : Geo W H s1 := (geo_preserved bpp W H).setup s0 s1 hs hg0
  obtain ⟨f1, f2, f3, f4, f5⟩ := setup_fill hs hdec hop
  have him : s1.insertmix = true := f5 hlast hpos
  obtain ⟨a, ha, hax, hga, haw, hao⟩ := advance_geo hW hg1 (by omega)
  obtain ⟨k1, k2, k3, k4, k5⟩ := advance_keeps ha
  obtain ⟨x1, x2⟩ := advance_aux ha
  obtain ⟨b, hb, hgb, bc, bi, bin, bop, bh, bw, bo⟩ :=
    insert_mix_step hW hga hax (k3.trans him)
  refine ⟨him, a, b, ha, hb, by rw [bw, haw, hwr], bi, by rw [bc, k1], ?_, ?_⟩
  · rw [bo, haw, hwr, hao, hout, x1]
  · rw [command_eq hs, output_body_succ bpp W (s1.height + 1) s1 (by omega), ha, ok_bind]
    unfold output_switch
    rw [if_pos (k2.trans f1)]
    show ((insert_mix a >>= fun s =>
      if s.prevline = none then REPEAT fill_null W s else REPEAT fill_above W s) >>= _) = _
    rw [hb, ok_bind]
    have e : (if b.prevline = none then REPEAT fill_null W b else REPEAT fill_above W b)
        = REPEAT (fill_statement b) W b := by
      unfold fill_statement
      split <;> rfl
    rw [e]

/-- Claim C21, counterexample. On a 2x2 raster the stream `[0x02, 0x02]` is two Fill
commands of two pixels each: the later one follows a Fill after two pixels were
emitted, yet it starts with `x == width` and `prevline == NULL`, `insertmix` stays
clear and its first pixel (raster cell 0) is the Fill pixel 0, not
`above ^ mix = 0xff`. -/
theorem fill_guard_counterexample :
    after_commands 1 2 1 (Engine.init 1 2 2 [0x02, 0x02] [9, 9, 9, 9]) = .ok
      { input := [0x02], output := [9, 9, 0, 0], x := 2, height := 1, prevline := none,
        line := some 2, opcode := 0, count := 0, lastopcode := 0, insertmix := false,
        bicolour := false, colour1 := 0, colour2 := 0, mixmask := 0, mask := 0, mix := 255,
        fom_mask := 0, written := 2 } ∧
    decode_header [0x02] = .ok { opcode := 0, count := 2, offset := 32, input := [] } ∧
    bitmap_decompress1 2 2 [0x02, 0x02] [9, 9, 9, 9] = .ok
      { input := [], output := [0, 0, 0, 0], x := 2, height := 0, prevline := some 2,
        line := some 0, opcode := 0, count := 0, lastopcode := 0, insertmix := false,
        bicolour := false, colour1 := 0, colour2 := 0, mixmask := 0, mask := 0, mix := 255,
        fom_mask := 0, written := 4 } ∧
    cell 2 2 2 = 0 ∧ pixel_above 2 2 [0, 0, 0, 0] 2 ^^^ 255 = 255 ∧
    ([0, 0, 0, 0] : List Nat)[cell 2 2 2]? ≠ some (pixel_above 2 2 [0, 0, 0, 0] 2 ^^^ 255) := by
  refine ⟨rfl, rfl, rfl, rfl, rfl, ?_⟩
  decide

/-- Claim C21, amended. In a stream decoded by `bitmap_decompress1` on a raster of
`W * H` pixels, whenever a Fill command with count at least 1 immediately follows
another Fill command (`lastopcode` is Fill, which it is only after a command of
opcode Fill), the number of pixels emitted so far is neither 0 nor `W`, and the
raster is not full, the guard `x == width && prevline == NULL` is false,
`insertmix` is set, and the first pixel of the later Fill is emitted as a Mix pixel,
`above ^ mix`, with `insertmix = False; count--; x++;`, before the Fill run. -/
theorem fill_after_fill (W H : Nat) (input output : List Nat) (k : Nat) (s0 s1 : Engine)
    (hd : Header)
    (hW : 1 ≤ W) (hlen : output.length = W * H)
    (hk : after_commands 1 W k (Engine.init 1 W H input output) = .ok s0)
    (hs : command_setup 1 W s0 = .ok s1) (hdec : decode_header s0.input = .ok hd)
    (hop : hd.opcode = 0) (hlast : s0.lastopcode = 0) (hn : 1 ≤ s1.count)
    (hw0 : s0.written ≠ 0) (hwW : s0.written ≠ W) (hroom : s0.written < W * H) :
    (1 ≤ k ∧ s0.opcode = 0) ∧ ¬ (s0.x = W ∧ s0.prevline = none) ∧
    s1.insertmix = true ∧
    ∃ a b, advance W s1 = .ok a ∧ insert_mix a = .ok b ∧
      b.written = s0.written + 1 ∧ b.insertmix = false ∧ b.count = s1.count - 1 ∧
      b.output = s0.output.set (cell W H s0.written)
        (pixel_above W H s0.output s0.written ^^^ s1.mix) ∧
      command 1 W s0
        = (REPEAT (fill_statement b) W b >>= fun s => output_body 1 W (s1.height + 1) s) := by
  have hg0 := reach_geo_any hW hlen hk
  have hpos : ¬ (s0.x = W ∧ s0.prevline = none) := by
    intro ⟨hx, hp⟩
    rcases guard_written hg0 hx hp with h | h
    · exact hw0 h
    · exact hwW h
  refine ⟨?_, hpos, fill_mix_first hW hg0 hs hdec hop hlast hpos hn hroom⟩
  rcases lastop_boundary hW k _ s0 hk with ⟨_, h0⟩ | h
  · rw [h0] at hlast
    simp [Engine.init] at hlast
  · constructor
    · cases k with
      | zero =>
        simp only [after_commands, Except.ok.injEq] at hk
        rw [← hk] at hlast
        simp [Engine.init] at hlast
      | succ k => omega
    · rw [hlast] at h
      omega

theorem fill_after_fill_witness :
    (1 ≤ 1 ∧ (0 : Nat) = 0) ∧ ¬ ((1 : Nat) = 2 ∧ (none : Option Nat) = none) ∧
    true = true ∧
    ∃ a b,
      advance 2
        { input := [], output := [9, 9, 0, 9], x := 1, height := 1, prevline := none,
          line := some 2, opcode := 0, count := 3, lastopcode := 0, insertmix := true,
          bicolour := false, colour1 := 0, colour2 := 0, mixmask := 0, mask := 0, mix := 255,
          fom_mask := 0, written := 1 } = .ok a ∧
      insert_mix a = .ok b ∧
      b.written = 1 + 1 ∧ b.insertmix = false ∧ b.count = 3 - 1 ∧
      b.output = [9, 9, 0, 9].set (cell 2 2 1) (pixel_above 2 2 [9, 9, 0, 9] 1 ^^^ 255) ∧
      command 1 2
        { input := [0x03], output := [9, 9, 0, 9], x := 1, height := 1, prevline := none,
          line := some 2, opcode := 0, count := 0, lastopcode := 0, insertmix := false,
          bicolour := false, colour1 := 0, colour2 := 0, mixmask := 0, mask := 0, mix := 255,
          fom_mask := 0, written := 1 }
        = (REPEAT (fill_statement b) 2 b >>= fun s => output_body 1 2 (1 + 1) s) :=
  fill_after_fill 2 2 [0x01, 0x03] [9, 9, 9, 9] 1
    { input := [0x03], output := [9, 9, 0, 9], x := 1, height := 1, prevline := none,
      line := some 2, opcode := 0, count := 0, lastopcode := 0, insertmix := false,
      bicolour := false, colour1 := 0, colour2 := 0, mixmask := 0, mask := 0, mix := 255,
      fom_mask := 0, written := 1 }
    { input := [], output := [9, 9, 0, 9], x := 1, height := 1, prevline := none,
      line := some 2, opcode := 0, count := 3, lastopcode := 0, insertmix := true,
      bicolour := false, colour1 := 0, colour2 := 0, mixmask := 0, mask := 0, mix := 255,
      fom_mask := 0, written := 1 }
    { opcode := 0, count := 3, offset := 32, input := [] }
    (by decide) rfl rfl rfl rfl rfl rfl (by decide) (by decide) (by decide) (by decide)

/-! ## The invariants of a pixel write -/

theorem write_ok_geo {W H : Nat} {s : Engine} (hW : 1 ≤ W) (hg : Geo W H s) (hx : s.x < W)
    (hc : 0 < s.count) : write_ok W H s = true := by
  obtain ⟨h1, h2, h3, h4, h5⟩ := geo_cell hW hg hx
  have hh : s.height < H := by
    rcases hg.2.1 with ⟨_, _, _, l4⟩ | ⟨l1, _, _⟩
    · omega
    · exact l1
  unfold write_ok
  simp only [decide_eq_true_eq]
  refine ⟨hx, hc, hh, h1, ?_, ?_⟩
  · rw [h2]
    exact cell_lt hW h3
  · by_cases hw : s.written < W
    · exact Or.inl (h4 hw)
    · obtain ⟨p1, p2⟩ := h5 (by omega)
      refine Or.inr ⟨p1, ?_⟩
      rw [p2]
      exact cell_lt hW (by omega)

theorem asserted_ok {e : Stop} {W H : Nat} {statement : Engine → Except Stop Engine}
    {s : Engine} (h : write_ok W H s = true) : asserted e W H statement s = statement s := by
  unfold asserted
  rw [if_pos h]

theorem good_asserted (e : Stop) (W H : Nat) {statement : Engine → Except Stop Engine}
    (hst : GoodStmt statement) : GoodStmt (asserted e W H statement) := by
  intro s t h
  unfold asserted at h
  split at h
  · exact hst s t h
  · simp at h

theorem repeat_step_geo {W H : Nat} {statement : Engine → Except Stop Engine}
    (hst : GoodStmt statement) {s u : Engine} (hg : Geo W H s) (hx : s.x < W)
    (h : repeat_step statement s = .ok u) : Geo W H u := by
  unfold repeat_step at h
  obtain ⟨w, hw, h⟩ := bind_eq_ok.mp h
  simp only [Except.ok.injEq] at h
  subst h
  exact (geo_preserved 2 W H).step s w hx (hst s w hw) hg

theorem repeat_tail_checked (e : Stop) {W H : Nat} (hW : 1 ≤ W)
    {statement : Engine → Except Stop Engine} (hst : GoodStmt statement) :
    ∀ (g : Nat) (s : Engine), Geo W H s →
      repeat_tail (asserted e W H statement) W g s = repeat_tail statement W g s := by
  intro g
  induction g with
  | zero => intro s _; rfl
  | succ g ih =>
    intro s hg
    by_cases hgd : 0 < s.count ∧ s.x < W
    · have hok := write_ok_geo hW hg hgd.2 hgd.1
      have hstep : repeat_step (asserted e W H statement) s = repeat_step statement s := by
        unfold repeat_step
        rw [asserted_ok hok]
      rw [repeat_tail_succ _ _ _ _ hgd.1 hgd.2, repeat_tail_succ _ _ _ _ hgd.1 hgd.2, hstep]
      apply bind_congr_ok
      intro u hu
      exact ih u (repeat_step_geo hst hg hgd.2 hu)
    · rw [repeat_tail_exit _ _ _ _ hgd, repeat_tail_exit _ _ _ _ hgd]

/-- The assertions in a `REPEAT` never fail: with the assertion in front of its
statement, in the unrolled loop and in the tail loop, `REPEAT` runs as without. -/
theorem REPEAT_checked (e : Stop) {W H : Nat} (hW : 1 ≤ W)
    {statement : Engine → Except Stop Engine} (hst : GoodStmt statement) {s : Engine}
    (hg : Geo W H s) :
    REPEAT (asserted e W H statement) W s = REPEAT statement W s := by
  rw [REPEAT_eq_tail (good_asserted e W H hst), REPEAT_eq_tail hst]
  exact repeat_tail_checked e hW hst _ s hg

theorem insert_mix_checked_eq (e : Stop) {W H : Nat} (hW : 1 ≤ W) {a : Engine}
    (hg : Geo W H a) (hx : a.x < W) (hc : 0 < a.count) :
    insert_mix_checked e W H a = insert_mix a := by
  unfold insert_mix_checked insert_mix
  rw [asserted_ok (write_ok_geo hW hg hx hc)]

theorem insert_mix_geo {W H : Nat} {a b : Engine} (hg : Geo W H a) (hx : a.x < W)
    (h : insert_mix a = .ok b) : Geo W H b := by
  unfold insert_mix at h
  split at h
  · obtain ⟨u, hu, h⟩ := bind_eq_ok.mp h
    simp only [Except.ok.injEq] at h
    subst h
    have hr : StmtRel a u := by
      split at hu
      · exact good_mix_null a u hu
      · exact good_mix_above a u hu
    exact (geo_preserved 2 W H).step a u hx hr hg
  · simp only [Except.ok.injEq] at h
    subst h
    exact hg

theorem output_switch_checked_eq (e : Stop) {bpp W H : Nat} (hW : 1 ≤ W) {a : Engine}
    (hg : Geo W H a) (hx : a.x < W) (hc : 0 < a.count) :
    output_switch_checked e bpp W H a = output_switch bpp W a := by
  unfold output_switch_checked output_switch
  by_cases h0 : a.opcode = 0
  · rw [if_pos h0, if_pos h0, insert_mix_checked_eq e hW hg hx hc]
    apply bind_congr_ok
    intro b hb
    have hgb := insert_mix_geo hg hx hb
    show (if b.prevline = none then _ else _) = (if b.prevline = none then _ else _)
    rw [REPEAT_checked e hW good_fill_null hgb, REPEAT_checked e hW good_fill_above hgb]
  rw [if_neg h0, if_neg h0]
  rw [REPEAT_checked e hW good_mix_null hg, REPEAT_checked e hW good_mix_above hg,
    REPEAT_checked e hW good_fom_null hg, REPEAT_checked e hW good_fom_above hg,
    REPEAT_checked e hW (good_store fun s => s.colour2) hg,
    REPEAT_checked e hW (good_copy bpp) hg, REPEAT_checked e hW good_bicolour hg,
    REPEAT_checked e hW (good_store fun _ => white bpp) hg,
    REPEAT_checked e hW (good_store fun _ => 0) hg]

theorem output_body_checked_eq (e : Stop) {bpp W H : Nat} (hW : 1 ≤ W) :
    ∀ (f : Nat) (s : Engine), Geo W H s →
      output_body_checked e bpp W H f s = output_body bpp W f s := by
  intro f
  induction f with
  | zero => intro s _; rfl
  | succ f ih =>
    intro s hg
    show (if 0 < s.count then
        (advance W s >>= fun a => output_switch_checked e bpp W H a >>= fun u =>
          output_body_checked e bpp W H f u)
      else .ok s)
      = (if 0 < s.count then
        (advance W s >>= fun a => output_switch bpp W a >>= fun u => output_body bpp W f u)
      else .ok s)
    by_cases hc : 0 < s.count
    · rw [if_pos hc, if_pos hc]
      apply bind_congr_ok
      intro a ha
      have hga := (geo_preserved bpp W H).advance s a ha hg
      have hax := advance_x hW ha
      have hac : 0 < a.count := by rw [(advance_keeps ha).1]; exact hc
      rw [output_switch_checked_eq e hW hga hax hac]
      apply bind_congr_ok
      intro u hu
      exact ih u (output_switch_pres (geo_preserved bpp W H).toRunPreserved hax hga hu).1
    · rw [if_neg hc, if_neg hc]

theorem command_checked_eq (e : Stop) {bpp W H : Nat} (hW : 1 ≤ W) {s : Engine}
    (hg : Geo W H s) : command_checked e bpp W H s = command bpp W s := by
  show (command_setup bpp W s >>= fun u => output_body_checked e bpp W H (u.height + 2) u)
    = (command_setup bpp W s >>= fun u => output_body bpp W (u.height + 2) u)
  apply bind_congr_ok
  intro u hu
  exact output_body_checked_eq e hW _ u ((geo_preserved bpp W H).setup s u hu hg)

theorem commands_checked_eq (e : Stop) {bpp W H : Nat} (hW : 1 ≤ W) :
    ∀ (fuel : Nat) (s : Engine), Geo W H s →
      commands_checked e bpp W H fuel s = commands bpp W fuel s := by
  intro fuel
  induction fuel with
  | zero => intro s _; rfl
  | succ fuel ih =>
    intro s hg
    show (if s.input ≠ [] then
        (command_checked e bpp W H s >>= fun u => commands_checked e bpp W H fuel u)
      else .ok s)
      = (if s.input ≠ [] then (command bpp W s >>= fun u => commands bpp W fuel u)
      else .ok s)
    by_cases hi : s.input ≠ []
    · rw [if_pos hi, if_pos hi, command_checked_eq e hW hg]
      apply bind_congr_ok
      intro u hu
      exact ih u (command_pres (geo_preserved bpp W H) hW hg hu)
    · rw [if_neg hi, if_neg hi]

theorem decompress_checked_eq (e : Stop) (bpp W H : Nat) (input output : List Nat)
    (hW : 1 ≤ W) (hlen : output.length = W * H) :
    bitmap_decompress_checked e bpp W H input output
      = bitmap_decompress bpp W H input output :=
  commands_checked_eq e hW _ _ (geo_init bpp W H input output hlen)

/-- Claim C22. In every run of `bitmap_decompress2` on a raster of `W * H` cells,
`W ≥ 1`, every pixel write - the Mix pixel of `insertmix`, the statement of a
`REPEAT` in its unrolled loop and in its tail loop - is made with `0 ≤ x < W`,
`count > 0`, `line` set to the scanline `height` with `height < H`, the write
index `height * W + x` below `W * H`, and `prevline`, when set, the scanline
`height + 1` read at the same column: the engine that asserts these invariants
(`write_ok`) in front of every pixel write and stops with `e` when one fails runs
exactly as `bitmap_decompress2`, whatever `e` is, so no assertion fails; and a state
with `x < W` and `count > 0` that the geometry invariant holds in satisfies
`write_ok`. -/
theorem writes_safe (e : Stop) (W H : Nat) (input output : List Nat)
    (hW : 1 ≤ W) (hlen : output.length = W * H) :
    bitmap_decompress_checked e 2 W H input output = bitmap_decompress2 W H input output ∧
    bitmap_decompress2 W H input output ≠ .error .outOfFuel ∧
    (∀ (k : Nat) (s : Engine),
      after_commands 2 W k (Engine.init 2 W H input output) = .ok s →
      command_checked e 2 W H s = command 2 W s) := by
  refine ⟨decompress_checked_eq e 2 W H input output hW hlen,
    bitmap_decompress_nofuel 2 W H input output hW, ?_⟩
  intro k s hk
  exact command_checked_eq e hW (reach_geo hW hlen hk)

theorem writes_safe_witness :
    bitmap_decompress_checked .outOfFuel 2 3 2 [0xE2, 0x11, 0x22, 0x33, 0x44]
        [0, 0, 0, 0, 0, 0]
      = bitmap_decompress2 3 2 [0xE2, 0x11, 0x22, 0x33, 0x44] [0, 0, 0, 0, 0, 0] ∧
    bitmap_decompress2 3 2 [0xE2, 0x11, 0x22, 0x33, 0x44] [0, 0, 0, 0, 0, 0]
      ≠ .error .outOfFuel ∧
    (∀ (k : Nat) (s : Engine),
      after_commands 2 3 k
        (Engine.init 2 3 2 [0xE2, 0x11, 0x22, 0x33, 0x44] [0, 0, 0, 0, 0, 0]) = .ok s →
      command_checked .outOfFuel 2 3 2 s = command 2 3 s) :=
  writes_safe .outOfFuel 3 2 [0xE2, 0x11, 0x22, 0x33, 0x44] [0, 0, 0, 0, 0, 0] (by decide) rfl

end Rle
